import Mathlib

/-!
Verification of the toml-vars variable-resolution library.

The development embeds the Go sources shallowly:
strings are `List Char`; the dynamically-typed nested map
`map[string]interface{}` becomes the mutual inductive `Value`/`TomlTree`
(an association tree that keeps insertion order, standing in for Go's map);
fallible functions return `Except`.  Go's `for ... range` over a map is
modelled by iterating the association list in order - a deterministic
refinement of Go's unspecified map order.  Machine integers appear only as
file modification times, which are modelled as `Nat`.
-/

namespace Tomv

/-- Shorthand: the character list of a string literal. -/
def cs (s : String) : List Char := s.data

/-- The two-character placeholder opener. -/
def phOpen : List Char := ['{', '{']

/-- The two-character placeholder closer. -/
def phClose : List Char := ['}', '}']

/-- The full placeholder text for a body, as matched by `variablePattern`. -/
def phText (b : List Char) : List Char := phOpen ++ b ++ phClose

/-- `strings.Contains s pat` on character lists. -/
def containsSub (s pat : List Char) : Bool :=
  match s with
  | [] => pat.isPrefixOf []
  | _ :: t => pat.isPrefixOf s || containsSub t pat

/-- `strings.Contains v "\x7b\x7b"`: does the string contain the placeholder opener? -/
def containsBB (s : List Char) : Bool := containsSub s phOpen

/-- Fuel-driven core of `strings.ReplaceAll`: replaces non-overlapping
leftmost occurrences of `pat` by `rep`.  The fuel only serves termination;
`s.length` is always enough because each step consumes at least one
character of `s` (the wrapper rejects an empty `pat`, which the Go callers
never produce either). -/
def replaceAllFuel (pat rep : List Char) : Nat → List Char → List Char
  | 0, s => s
  | _ + 1, [] => []
  | fuel + 1, c :: t =>
    if pat.isPrefixOf (c :: t) then rep ++ replaceAllFuel pat rep fuel ((c :: t).drop pat.length)
    else c :: replaceAllFuel pat rep fuel t

/-- `strings.ReplaceAll s pat rep` (for the nonempty patterns the code uses). -/
def replaceAllL (s pat rep : List Char) : List Char :=
  if pat.isEmpty then s else replaceAllFuel pat rep s.length s

/-- `strings.Split key "."` on character lists: split at every dot,
keeping empty pieces, so that splitting the empty string yields `[[]]`. -/
def splitDot : List Char → List (List Char)
  | [] => [[]]
  | '.' :: t => [] :: splitDot t
  | c :: t =>
    match splitDot t with
    | [] => [[c]]
    | h :: r => (c :: h) :: r

/-- Fuel-driven model of
`variablePattern.FindAllStringSubmatch str -1` for the RE2 pattern
`\x7b\x7b([^\x7d]+)\x7d\x7d`: scan left to right; at each `\x7b\x7b`, take the
maximal nonempty run of non-`\x7d` characters and require the closer right
after; on success emit `(full match, submatch)` and continue after the
match, otherwise retry one position to the right.  Fuel `s.length`
always suffices. -/
def findMatchesFuel : Nat → List Char → List (List Char × List Char)
  | 0, _ => []
  | _ + 1, [] => []
  | _ + 1, [_] => []
  | fuel + 1, c1 :: c2 :: rest =>
    if c1 = '{' ∧ c2 = '{' then
      if (rest.dropWhile (· ≠ '}')).take 2 = ['}', '}'] then
        if (rest.takeWhile (· ≠ '}')).isEmpty then findMatchesFuel fuel (c2 :: rest)
        else (phText (rest.takeWhile (· ≠ '}')), rest.takeWhile (· ≠ '}')) ::
          findMatchesFuel fuel ((rest.dropWhile (· ≠ '}')).drop 2)
      else findMatchesFuel fuel (c2 :: rest)
    else findMatchesFuel fuel (c2 :: rest)

/-- All regex matches of `variablePattern` in a string. -/
def findVariableMatches (s : List Char) : List (List Char × List Char) :=
  findMatchesFuel s.length s

mutual
/-- One value of the nested configuration structure: a string leaf or a
nested table (Go's `interface{}` holding `string` or `map[string]interface{}`;
other TOML scalars reach the resolver already rendered to strings, which is
observationally equivalent because the code only inspects string values). -/
inductive Value where
  | str : List Char → Value
  | map : TomlTree → Value
/-- An insertion-ordered association tree standing in for `map[string]interface{}`. -/
inductive TomlTree where
  | nil : TomlTree
  | node : List Char → Value → TomlTree → TomlTree
end

/-- Look a key up at one level of a tree. -/
def getEntry (k : List Char) : TomlTree → Option Value
  | .nil => none
  | .node k' v rest => if k' = k then some v else getEntry k rest

/-- Replace the value stored at key `k` at one level (no-op if absent). -/
def setEntry (k : List Char) (newv : Value) : TomlTree → TomlTree
  | .nil => .nil
  | .node k' v rest => if k' = k then .node k' newv rest else .node k' v (setEntry k newv rest)

/-- Ordered insert by key, used to model Go's sorted map rendering in `fmt`. -/
def insertSorted (k : List Char) (v : Value) : List (List Char × Value) → List (List Char × Value)
  | [] => [(k, v)]
  | (k', v') :: rest =>
    if decide (k ≤ k') then (k, v) :: (k', v') :: rest
    else (k', v') :: insertSorted k v rest

/-- The entries of a tree sorted by key, as `fmt` prints a Go map. -/
def sortedEntries : TomlTree → List (List Char × Value)
  | .nil => []
  | .node k v rest => insertSorted k v (sortedEntries rest)

mutual
/-- Total size of a value, used only to provision fuel for `reprValue`. -/
def sizeV : Value → Nat
  | .str _ => 1
  | .map t => 1 + sizeT t
/-- Total size of a tree. -/
def sizeT : TomlTree → Nat
  | .nil => 1
  | .node _ v rest => 1 + sizeV v + sizeT rest
end

mutual
/-- Fuel-driven core of `fmt.Sprintf "%v"`: strings verbatim, tables in
Go's `map[k1:v1 k2:v2]` form with keys sorted.  The fuel only serves
termination; `sizeV` always suffices because every recursive call strips
at least one constructor. -/
def reprValueF : Nat → Value → List Char
  | _, .str s => s
  | 0, .map _ => []
  | fuel + 1, .map t => cs "map[" ++ reprEntriesF fuel (sortedEntries t) ++ [']']
/-- Render sorted entries as `k1:v1 k2:v2`. -/
def reprEntriesF : Nat → List (List Char × Value) → List Char
  | _, [] => []
  | 0, _ => []
  | fuel + 1, [(k, v)] => k ++ ':' :: reprValueF fuel v
  | fuel + 1, (k, v) :: e :: rest =>
    k ++ ':' :: reprValueF fuel v ++ ' ' :: reprEntriesF fuel (e :: rest)
end

/-- `fmt.Sprintf "%v"` of a value. -/
def reprValue (v : Value) : List Char := reprValueF (sizeV v) v

/-- Descend a dot-split path: intermediate parts must be tables, the final
part may hold any value, which is rendered with `fmt.Sprintf "%v"`. -/
def descendParts : List (List Char) → TomlTree → Option (List Char)
  | [], _ => none
  | [part], t =>
    match getEntry part t with
    | some v => some (reprValue v)
    | none => none
  | part :: rest, t =>
    match getEntry part t with
    | some (.map sub) => descendParts rest sub
    | some (.str _) => none
    | none => none

/-- `resolveVariablePath` (resolver.go): resolve a dot-notation path such as
`section.key` against the whole namespaced data tree. -/
def resolveVariablePath (path : List Char) (data : TomlTree) : Option (List Char) :=
  descendParts (splitDot path) data

/-- `resolveKey` (finder.go): the identical dot-notation descent used by the
lookup side. -/
def resolveKey (data : TomlTree) (key : List Char) : Option (List Char) :=
  descendParts (splitDot key) data

/-- `collectKeys`: depth-first list of all leaf paths of a tree, dotted. -/
def collectKeys : TomlTree → List Char → List (List Char)
  | .nil, _ => []
  | .node k (.map sub) rest, pre =>
    collectKeys sub (if pre.isEmpty then k else pre ++ '.' :: k) ++ collectKeys rest pre
  | .node k (.str _) rest, pre =>
    (if pre.isEmpty then k else pre ++ '.' :: k) :: collectKeys rest pre

/-- `getAvailableVariablesList`: the formatted bullet list of keys shown in
"variable not found" errors. -/
def getAvailableVariablesList (data : TomlTree) : List Char :=
  let keys := collectKeys data []
  if keys.isEmpty then cs "- (no variables found)"
  else ((keys.map (fun k => cs "- " ++ k ++ ['\n'])).flatten).dropLast

/-- The structured error outcomes of the resolver (`fmt.Errorf` strings in
Go, kept as a tagged type carrying the same information). -/
inductive ResolveErr where
  | notFound : List Char → List Char → ResolveErr
  | circular : List (List Char) → ResolveErr
  | maxPassesExceeded : ResolveErr
deriving DecidableEq

/-- `resolveStringVariables`: resolve every placeholder match of one string
against `data`; a missing target aborts with an error, a target whose value
still holds an opener is deferred to a later pass, any other target's value
replaces every occurrence of the full placeholder text. Returns the new
string and whether any placeholder was seen. -/
def resolveStringLoop (data : TomlTree) :
    List (List Char × List Char) → List Char → Bool → Except ResolveErr (List Char × Bool)
  | [], result, hasVars => .ok (result, hasVars)
  | (full, body) :: rest, result, _ =>
    match resolveVariablePath body data with
    | none => .error (.notFound body (getAvailableVariablesList data))
    | some value =>
      if containsBB value then resolveStringLoop data rest result true
      else resolveStringLoop data rest (replaceAllL result full value) true

/-- `resolveStringVariables str data`. -/
def resolveStringVariables (str : List Char) (data : TomlTree) :
    Except ResolveErr (List Char × Bool) :=
  resolveStringLoop data (findVariableMatches str) str false

/-- Write a new string into the leaf at a dotted path (path given pre-split).
Mirrors `current[key] = resolved` through the nesting of
`processMapForVariables`. -/
def setLeaf : List (List Char) → List Char → TomlTree → TomlTree
  | [], _, t => t
  | [k], v, t => setEntry k (.str v) t
  | k :: ks, v, t =>
    match getEntry k t with
    | some (.map sub) => setEntry k (.map (setLeaf ks v sub)) t
    | _ => t

/-- `processMapForVariables current root &changed`: walk the shape of the
tree in order; each string leaf is resolved against the root as it stands
at that moment (the Go code mutates the shared map in place, modelled here
by threading `root`), and `changed` records whether any leaf was rewritten. -/
def processMapForVariables :
    TomlTree → List (List Char) → TomlTree → Bool → Except ResolveErr (TomlTree × Bool)
  | .nil, _, root, changed => .ok (root, changed)
  | .node k (.str s) rest, path, root, changed =>
    match resolveStringVariables s root with
    | .error e => .error e
    | .ok (resolved, hasVars) =>
      if hasVars && resolved ≠ s then
        processMapForVariables rest path (setLeaf (path ++ [k]) resolved root) true
      else processMapForVariables rest path root changed
  | .node k (.map sub) rest, path, root, changed =>
    match processMapForVariables sub (path ++ [k]) root changed with
    | .error e => .error e
    | .ok (root', ch') => processMapForVariables rest path root' ch'

/-- One full substitution pass over the store. -/
def runPass (root : TomlTree) : Except ResolveErr (TomlTree × Bool) :=
  processMapForVariables root [] root false

/-- `hasUnresolvedVariables`: does any string leaf still contain the opener? -/
def hasUnresolvedVariables : TomlTree → Bool
  | .nil => false
  | .node _ (.str s) rest => containsBB s || hasUnresolvedVariables rest
  | .node _ (.map sub) rest => hasUnresolvedVariables sub || hasUnresolvedVariables rest

/-- `deepCopyMap`: the working copy taken before resolution. -/
def deepCopyMap : TomlTree → TomlTree
  | .nil => .nil
  | .node k (.map v) rest => .node k (.map (deepCopyMap v)) (deepCopyMap rest)
  | .node k (.str s) rest => .node k (.str s) (deepCopyMap rest)

/-- The dependency graph `map[string][]string` of `detectCircularDependencies`,
as an insertion-ordered association list. -/
abbrev Deps := List (List Char × List (List Char))

/-- `deps[k] = append(deps[k], v)`. -/
def depsAppend (k v : List Char) : Deps → Deps
  | [] => [(k, [v])]
  | (k', vs) :: rest =>
    if k' = k then (k', vs ++ [v]) :: rest else (k', vs) :: depsAppend k v rest

/-- `graph[k]` with the empty default. -/
def depsGet (deps : Deps) (k : List Char) : List (List Char) :=
  match deps with
  | [] => []
  | (k', vs) :: rest => if k' = k then vs else depsGet rest k

/-- Record one edge per regex match of a leaf string. -/
def addEdges (fullKey : List Char) : List (List Char × List Char) → Deps → Deps
  | [], deps => deps
  | (_, body) :: rest, deps => addEdges fullKey rest (depsAppend fullKey body deps)

/-- `collectDependencies data prefix deps`: an edge from each dotted leaf
path to every path referenced by a placeholder in its string. -/
def collectDependencies : TomlTree → List Char → Deps → Deps
  | .nil, _, deps => deps
  | .node k (.str s) rest, pre, deps =>
    collectDependencies rest pre
      (addEdges (if pre.isEmpty then k else pre ++ '.' :: k) (findVariableMatches s) deps)
  | .node k (.map sub) rest, pre, deps =>
    collectDependencies rest pre
      (collectDependencies sub (if pre.isEmpty then k else pre ++ '.' :: k) deps)

/-- Add to a set-like list. -/
def insertSet (x : List Char) (l : List (List Char)) : List (List Char) :=
  if x ∈ l then l else x :: l

mutual
/-- `hasCycle node graph visited recStack`: depth-first search marking
`visited` on entry (threaded and returned, like the shared Go map) and
keeping the recursion chain in `stack`; a visited neighbour on the chain is
a back edge.  The fuel only serves termination; one more than the number of
graph nodes always suffices because every nested call is on an unvisited
node that the callee immediately marks. -/
def hasCycleF (deps : Deps) : Nat → List Char → List (List Char) → List (List Char) →
    Bool × List (List Char)
  | 0, _, visited, _ => (false, visited)
  | fuel + 1, node, visited, stack =>
    hasCycleNbrs deps fuel (depsGet deps node) (node :: stack) (insertSet node visited)
/-- The neighbour loop of `hasCycle`: recurse on unvisited neighbours,
report a cycle for visited neighbours on the recursion chain. -/
def hasCycleNbrs (deps : Deps) : Nat → List (List Char) → List (List Char) →
    List (List Char) → Bool × List (List Char)
  | _, [], _, visited => (false, visited)
  | fuel, n :: ns, chain, visited =>
    if n ∈ visited then
      if n ∈ chain then (true, visited) else hasCycleNbrs deps fuel ns chain visited
    else
      match hasCycleF deps fuel n visited chain with
      | (true, vis') => (true, vis')
      | (false, vis') => hasCycleNbrs deps fuel ns chain vis'
end

/-- First index of `x` in `l`. -/
def idxOf (x : List Char) : List (List Char) → Option Nat
  | [] => none
  | y :: rest => if y = x then some 0 else (idxOf x rest).map (· + 1)

/-- `findCycle`: walk first dependencies from `start`, and when the walk
returns to an earlier node, slice the path from its first occurrence.  The
walk stops at nodes without dependencies or already walked (fuel is an
upper bound on the walk length, one more than the graph size). -/
def findCycleF (deps : Deps) : Nat → List (List Char) → List Char → List (List Char) →
    List (List Char)
  | 0, path, _, _ => path
  | fuel + 1, path, current, visited =>
    if (depsGet deps current).isEmpty ∨ current ∈ visited then path
    else
      match depsGet deps current with
      | [] => path
      | next :: _ =>
        match idxOf next path with
        | some i => (path ++ [next]).drop i
        | none => findCycleF deps fuel (path ++ [next]) next (insertSet current visited)

/-- All node names of a graph (keys and edge targets), deduplicated;
used only to provision fuel for the search. -/
def depsNodes (deps : Deps) : List (List Char) :=
  (deps.map Prod.fst ++ (deps.map Prod.snd).flatten).dedup

/-- `for variable := range dependencies` with the shared `visited` set:
stop at the first variable whose search reports a cycle. -/
def detectLoop (deps : Deps) (fuel : Nat) : List (List Char) → List (List Char) → ResolveErr
  | [], _ => .maxPassesExceeded
  | k :: ks, visited =>
    match hasCycleF deps fuel k visited [] with
    | (true, _) => .circular (findCycleF deps fuel [k] k [])
    | (false, vis') => detectLoop deps fuel ks vis'

/-- `detectCircularDependencies`: build the dependency graph of the current
data and search it; report the first cycle found, else the max-passes error. -/
def detectCircularDependencies (data : TomlTree) : ResolveErr :=
  let deps := collectDependencies data [] []
  detectLoop deps ((depsNodes deps).length + 1) (deps.map Prod.fst) []

/-- `maxPasses` of `resolveVariables`. -/
def maxPasses : Nat := 10

/-- The pass loop of `resolveVariables`, counting down the remaining
passes: run a pass; on error stop; if the pass changed nothing either
succeed or, if placeholders remain, diagnose; if the last allowed pass was
reached while still changing, diagnose. -/
def resolveLoop : Nat → TomlTree → Except ResolveErr TomlTree
  | 0, resolved => .ok resolved
  | n + 1, resolved =>
    match runPass resolved with
    | .error e => .error e
    | .ok (resolved', changed) =>
      if changed then
        if n = 0 then .error (detectCircularDependencies resolved')
        else resolveLoop n resolved'
      else
        if hasUnresolvedVariables resolved' then .error (detectCircularDependencies resolved')
        else .ok resolved'

/-- `resolveVariables`: copy the data, then run up to `maxPasses`
substitution passes to a fixed point. -/
def resolveVariables (data : TomlTree) : Except ResolveErr TomlTree :=
  resolveLoop maxPasses (deepCopyMap data)

/-- `FileData`: one loaded TOML file with its raw and resolved trees. -/
structure FileData where
  path : List Char
  pfx : List Char
  data : TomlTree
  resolved : TomlTree

/-- One discoverable TOML file as the filesystem collaborators present it:
its path, its modification time, and its parse result (`none` models a
file `loadTOMLFile` fails on, which `loadAllTOMLFiles` skips). -/
structure TFile where
  path : List Char
  mtime : Nat
  parsed : Option TomlTree

/-- The structured error outcomes of the lookup pipeline (`fmt.Errorf`
strings in Go, kept as a tagged type carrying the same information). -/
inductive FindErr where
  | resolveFailed : ResolveErr → FindErr
  | noFiles : List Char → FindErr
  | notFoundInFile : List Char → List Char → List Char → FindErr
  | pfxNotFound : List Char → List Char → FindErr
  | notFound : List Char → List (List Char) → List (List Char) → FindErr
  | ambiguous : List Char → List (List Char) → List (List Char) → FindErr
deriving DecidableEq

/-- The basename of a path: everything after the last slash. -/
def baseName (p : List Char) : List Char := (p.reverse.takeWhile (· ≠ '/')).reverse

/-- `extractFilePrefix`: basename without its `filepath.Ext` extension
(`app.toml` becomes `app`). -/
def extractFilePfx (p : List Char) : List Char :=
  let base := baseName p
  if '.' ∈ base then ((base.reverse.dropWhile (· ≠ '.')).drop 1).reverse else base

/-- Insert or overwrite a namespace entry (`namespacedData[prefix] = data`). -/
def upsertNs (k : List Char) (v : Value) : TomlTree → TomlTree
  | .nil => .node k v .nil
  | .node k' v' rest => if k' = k then .node k' v rest else .node k' v' (upsertNs k v rest)

/-- Build the namespaced store from loaded files. -/
def buildNamespaced : List FileData → TomlTree → TomlTree
  | [], acc => acc
  | fd :: rest, acc => buildNamespaced rest (upsertNs fd.pfx (.map fd.data) acc)

/-- `loadAllTOMLFiles` given the discovered files: skip unparsable files,
namespace the rest by file prefix, resolve variables over the whole
namespaced store, then hand each file its resolved subtree (falling back
to its raw tree when the prefix is missing or not a table). -/
def loadAllTOMLFilesOn (files : List TFile) : Except FindErr (List FileData) :=
  let fdl0 := files.filterMap fun f =>
    f.parsed.map fun d => FileData.mk f.path (extractFilePfx f.path) d .nil
  match resolveVariables (buildNamespaced fdl0 .nil) with
  | .error e => .error (.resolveFailed e)
  | .ok resolvedNs =>
    .ok (fdl0.map fun fd =>
      { fd with
        resolved :=
          match getEntry fd.pfx resolvedNs with
          | some (.map m) => m
          | some (.str _) => fd.data
          | none => fd.data })

/-- `formatVariablesList`. -/
def formatVariablesList (keys : List (List Char)) : List Char :=
  ((keys.map fun k => cs "- " ++ k ++ ['\n']).flatten).dropLast

/-- `getFileVariablesList`. -/
def getFileVariablesList (data : TomlTree) : List Char :=
  let keys := collectKeys data []
  if keys.isEmpty then cs "- (no variables found)" else formatVariablesList keys

/-- `getAvailableFilePrefixes`. -/
def getAvailableFilePfxs (fdl : List FileData) : List Char :=
  ((fdl.map fun fd => cs "- " ++ fd.pfx ++ cs " (from " ++ fd.path ++ ')' :: ['\n']).flatten).dropLast

/-- First file whose prefix matches. -/
def findPfx (p : List Char) : List FileData → Option FileData
  | [] => none
  | fd :: rest => if fd.pfx = p then some fd else findPfx p rest

/-- The cross-file search of `findValueInFiles`: every file whose resolved
tree holds a leaf at `key`, paired with that value. -/
def foundPairs (fdl : List FileData) (key : List Char) : List (FileData × List Char) :=
  fdl.filterMap fun fd => (resolveKey fd.resolved key).map fun v => (fd, v)

/-- The zero/one/many outcome of the cross-file search. -/
def smartLookup (fdl : List FileData) (key : List Char) : Except FindErr (List Char) :=
  match foundPairs fdl key with
  | [] =>
    .error (.notFound key (fdl.map FileData.path)
      ((fdl.map fun fd => collectKeys fd.resolved []).flatten))
  | [(_, v)] => .ok v
  | pairs =>
    .error (.ambiguous key (pairs.map fun p => p.1.path)
      (pairs.map fun p => p.1.pfx ++ '.' :: key))

/-- `findValueInFiles` on an already-loaded file list: empty list fails;
a key with a dot is first tried as `filePrefix.remainder` against the
first file with that prefix; an unmatched would-be prefix whose remainder
still has a dot is a "file prefix not found" failure; otherwise the key
falls through to the cross-file search. -/
def findValueInFilesCore (fdl : List FileData) (key : List Char) : Except FindErr (List Char) :=
  if fdl.isEmpty then .error (.noFiles key)
  else if containsSub key ['.'] then
    let p := key.takeWhile (· ≠ '.')
    let rem := (key.dropWhile (· ≠ '.')).drop 1
    match findPfx p fdl with
    | some fd =>
      match resolveKey fd.resolved rem with
      | some v => .ok v
      | none => .error (.notFoundInFile rem fd.path (getFileVariablesList fd.resolved))
    | none =>
      if containsSub rem ['.'] then .error (.pfxNotFound p (getAvailableFilePfxs fdl))
      else smartLookup fdl key
  else smartLookup fdl key

/-- `findValueInFiles`: load and resolve all discoverable files, then look
the key up. -/
def findValueInFiles (files : List TFile) (key : List Char) : Except FindErr (List Char) :=
  match loadAllTOMLFilesOn files with
  | .error e => .error e
  | .ok fdl => findValueInFilesCore fdl key

/-- `cacheEntry`. -/
structure CacheEntry where
  value : List Char
  timestamp : Nat
  err : Option FindErr
deriving DecidableEq

/-- The package-level cache state: the per-key memo table and the
last-seen file modification times. -/
structure CacheState where
  cache : List (List Char × CacheEntry)
  fileCache : List (List Char × Nat)
deriving DecidableEq

/-- Association-list lookup. -/
def findEntryA {α : Type} (k : List Char) : List (List Char × α) → Option α
  | [] => none
  | (k', v) :: rest => if k' = k then some v else findEntryA k rest

/-- Association-list insert-or-overwrite keeping first positions. -/
def upsertA {α : Type} (k : List Char) (v : α) : List (List Char × α) → List (List Char × α)
  | [] => [(k, v)]
  | (k', v') :: rest => if k' = k then (k', v) :: rest else (k', v') :: upsertA k v rest

/-- `filesChanged`: some currently discoverable file is untracked or has a
modification time newer than recorded.  (A tracked file that is no longer
discovered is not examined.) -/
def filesChanged (files : List TFile) (st : CacheState) : Bool :=
  files.any fun f =>
    match findEntryA f.path st.fileCache with
    | none => true
    | some t => f.mtime > t

/-- `updateFileTimestamps`: drop every memoized entry and record the
current modification time of each discoverable file (entries of files no
longer discovered stay behind). -/
def updateFileTimestamps (files : List TFile) (st : CacheState) : CacheState :=
  { cache := [],
    fileCache := files.foldl (fun fc f => upsertA f.path f.mtime fc) st.fileCache }

/-- The miss path of `getValueFromCache`: refresh the timestamp table
(clearing every memoized entry), reload the value, memoize and return it. -/
def getValueFromCacheMiss (files : List TFile) (now : Nat) (st : CacheState) (key : List Char) :
    (List Char × Option FindErr) × CacheState × Nat :=
  let st1 := updateFileTimestamps files st
  match findValueInFiles files key with
  | .ok v => ((v, none), { st1 with cache := upsertA key (CacheEntry.mk v now none) st1.cache }, 1)
  | .error e =>
    (([], some e), { st1 with cache := upsertA key (CacheEntry.mk [] now (some e)) st1.cache }, 1)

/-- `getValueFromCache`: serve a memoized key while no file changed,
otherwise clear, reload and memoize.  Returns the (value, error) pair, the
new cache state, and how many times the loader ran (0 on a hit, 1 on a
miss) as the observable re-parse count.  (Go double-checks the hit
condition after taking the write lock; sequentially the second check
always agrees with the first, so it is not repeated here.) -/
def getValueFromCache (files : List TFile) (now : Nat) (st : CacheState) (key : List Char) :
    (List Char × Option FindErr) × CacheState × Nat :=
  match findEntryA key st.cache with
  | some e =>
    if filesChanged files st then getValueFromCacheMiss files now st key
    else ((e.value, e.err), st, 0)
  | none => getValueFromCacheMiss files now st key

/-- Every string leaf is free of regex matches (no placeholder occurrence). -/
def leavesNoPh : TomlTree → Bool
  | .nil => true
  | .node _ (.str s) rest => (findVariableMatches s).isEmpty && leavesNoPh rest
  | .node _ (.map sub) rest => leavesNoPh sub && leavesNoPh rest

/-- The pass loop instrumented with the number of passes actually run. -/
def resolveLoopCounted : Nat → TomlTree → Except ResolveErr TomlTree × Nat
  | 0, resolved => (.ok resolved, 0)
  | n + 1, resolved =>
    match runPass resolved with
    | .error e => (.error e, 1)
    | .ok (resolved', changed) =>
      if changed then
        if n = 0 then (.error (detectCircularDependencies resolved'), 1)
        else
          let r := resolveLoopCounted n resolved'
          (r.1, r.2 + 1)
      else
        if hasUnresolvedVariables resolved' then (.error (detectCircularDependencies resolved'), 1)
        else (.ok resolved', 1)

/-- C6 input: a store holding only `port = "(env placeholder)"` for
`ENV.PORT` with default `3000`, written with explicit delimiters. -/
def envStore : TomlTree :=
  .node (cs "server") (.map (.node (cs "port") (.str (phText (cs "ENV.PORT:-3000"))) .nil)) .nil

/-- Witness store for the resolver claims: `a` references `b`, `b` is plain. -/
def simpleStore : TomlTree :=
  .node (cs "a") (.str (phText (cs "b"))) (.node (cs "b") (.str (cs "x")) .nil)

/-- The resolved form of `simpleStore`. -/
def simpleStoreRes : TomlTree :=
  .node (cs "a") (.str (cs "x")) (.node (cs "b") (.str (cs "x")) .nil)

/-- C8 counterexample input: a single leaf holding a stray opener with no
complete placeholder (`a` followed by the two-character opener and `b`). -/
def strayStore : TomlTree := .node (cs "a") (.str (cs "a" ++ phOpen ++ cs "b")) .nil

/-- A tree with a three-segment leaf path `a.b.c`. -/
def confTree : TomlTree :=
  .node (cs "a") (.map (.node (cs "b") (.map (.node (cs "c") (.str (cs "v")) .nil)) .nil)) .nil

/-- The file `conf.toml` holding `confTree`. -/
def confTFile : TFile := ⟨cs "/proj/conf.toml", 5, some confTree⟩

/-- `conf.toml` as loaded (no placeholders, so resolved equals raw). -/
def fdConf : FileData := ⟨cs "/proj/conf.toml", cs "conf", confTree, confTree⟩

/-- A tree holding `server.port = 3000`. -/
def appTree : TomlTree :=
  .node (cs "server") (.map (.node (cs "port") (.str (cs "3000")) .nil)) .nil

/-- A second tree holding `server.port = 5432`. -/
def dbTree : TomlTree :=
  .node (cs "server") (.map (.node (cs "port") (.str (cs "5432")) .nil)) .nil

/-- The file `app.toml`. -/
def appTFile : TFile := ⟨cs "/proj/app.toml", 3, some appTree⟩

/-- The file `db.toml`. -/
def dbTFile : TFile := ⟨cs "/proj/db.toml", 4, some dbTree⟩

/-- `app.toml` as loaded. -/
def fdApp : FileData := ⟨cs "/proj/app.toml", cs "app", appTree, appTree⟩

/-- `db.toml` as loaded. -/
def fdDb : FileData := ⟨cs "/proj/db.toml", cs "db", dbTree, dbTree⟩

/-- The namespaced store corresponding to a loaded file list: each file's
resolved tree under its prefix, in order. -/
def nsOfResolved : List FileData → TomlTree
  | [] => .nil
  | fd :: rest => .node fd.pfx (.map fd.resolved) (nsOfResolved rest)

/-- Cache state after a first successful lookup of `server.port` against
`app.toml` as of modification time 3. -/
def stApp1 : CacheState :=
  ⟨[(cs "server.port", ⟨cs "3000", 100, none⟩)], [(cs "/proj/app.toml", 3)]⟩

/-- `app.toml` rewritten at a later modification time with a new port. -/
def appTFile9 : TFile :=
  ⟨cs "/proj/app.toml", 9,
    some (.node (cs "server") (.map (.node (cs "port") (.str (cs "8080")) .nil)) .nil)⟩

/-- A two-key file for the distinct-key cache scenario. -/
def distTFile : TFile :=
  ⟨cs "/proj/app.toml", 3,
    some (.node (cs "server")
      (.map (.node (cs "port") (.str (cs "3000"))
        (.node (cs "host") (.str (cs "h")) .nil))) .nil)⟩

/-! Definitions supporting the analysis of cycle behaviour (C2): a leaf
string is well-delimited when it splits into brace-free text and complete
placeholders with brace-free bodies; a store is well-delimited when every
leaf is, keys are dot-free and each level's keys are distinct (as Go map
keys are). -/

/-- One segment of a well-delimited string: literal text or a placeholder
body. -/
inductive Seg where
  | txt : List Char → Seg
  | ph : List Char → Seg

/-- No brace characters at all. -/
def braceFree (l : List Char) : Bool := l.all fun c => c ≠ '{' && c ≠ '}'

/-- A segment is admissible: text is brace-free; a body is nonempty and
brace-free. -/
def segOK : Seg → Bool
  | .txt t => braceFree t
  | .ph b => !b.isEmpty && braceFree b

/-- All segments admissible. -/
def segsOK (l : List Seg) : Bool := l.all segOK

/-- The text of one segment. -/
def renderSeg : Seg → List Char
  | .txt t => t
  | .ph b => phText b

/-- The string a segment list denotes. -/
def render (l : List Seg) : List Char := (l.map renderSeg).flatten

/-- The placeholder bodies of a segment list, in order. -/
def segBodies (l : List Seg) : List (List Char) :=
  l.filterMap fun s => match s with | .ph b => some b | .txt _ => none

/-- A string is well-delimited: it is the rendering of admissible segments. -/
def WfStr (s : List Char) : Prop := ∃ l, segsOK l = true ∧ render l = s

/-- The keys of one tree level. -/
def keysOf : TomlTree → List (List Char)
  | .nil => []
  | .node k _ rest => k :: keysOf rest

/-- A well-delimited store: nonempty dot-free distinct keys per level and
well-delimited leaves. -/
def WfTree : TomlTree → Prop
  | .nil => True
  | .node k (.str s) rest =>
      k ≠ [] ∧ '.' ∉ k ∧ k ∉ keysOf rest ∧ WfStr s ∧ WfTree rest
  | .node k (.map sub) rest =>
      k ≠ [] ∧ '.' ∉ k ∧ k ∉ keysOf rest ∧ WfTree sub ∧ WfTree rest

/-- The raw value at a (pre-split, nonempty) path. -/
def entryLookup : TomlTree → List (List Char) → Option Value
  | _, [] => none
  | t, [k] => getEntry k t
  | t, k :: ks =>
    match getEntry k t with
    | some (.map sub) => entryLookup sub ks
    | _ => none

/-- The string leaf at a (pre-split) path, if any. -/
def lookupLeaf (ps : List (List Char)) (t : TomlTree) : Option (List Char) :=
  match entryLookup t ps with
  | some (.str s) => some s
  | _ => none

/-- Join path segments with dots (the inverse of `splitDot`). -/
def joinDot : List (List Char) → List Char
  | [] => []
  | [k] => k
  | k :: rest => k ++ '.' :: joinDot rest

/-- The placeholder bodies the regex finds in one string. -/
def matchBodies (s : List Char) : List (List Char) := (findVariableMatches s).map Prod.snd

/-- Every referenced path of every leaf of a tree, in traversal order. -/
def allBodies : TomlTree → List (List Char)
  | .nil => []
  | .node _ (.str s) rest => matchBodies s ++ allBodies rest
  | .node _ (.map sub) rest => allBodies sub ++ allBodies rest

/-- Reference edge in a store: the leaf at dotted path `x` contains the
full placeholder text for `y`. -/
def EdgeAt (t : TomlTree) (x y : List Char) : Prop :=
  ∃ s, lookupLeaf (splitDot x) t = some s ∧ containsSub s (phText y) = true

/-- Consecutive reference edges along a node list. -/
def ChainAt (t : TomlTree) : List (List Char) → Prop
  | [] => True
  | [_] => True
  | x :: y :: rest => EdgeAt t x y ∧ ChainAt t (y :: rest)

/-- Every referenced path of the store denotes an existing string leaf. -/
def AllLeafTargets (t : TomlTree) : Prop :=
  ∀ b ∈ allBodies t, ∃ s, lookupLeaf (splitDot b) t = some s

/-- Replace every placeholder with body `b` by the literal text `rep`. -/
def replaceSegs (b rep : List Char) : List Seg → List Seg :=
  List.map fun s => match s with
    | .ph b' => if b' = b then .txt rep else .ph b'
    | .txt t => .txt t

/-- One resolution step on segments: each body, in match order, is looked
up; a target still containing the opener is deferred, otherwise every
placeholder with that body is replaced by the target text. -/
def foldReplace (root : TomlTree) : List (List Char) → List Seg → List Seg
  | [], l => l
  | b :: bs, l =>
    match resolveVariablePath b root with
    | none => foldReplace root bs l
    | some v => if containsBB v then foldReplace root bs l else foldReplace root bs (replaceSegs b v l)

/-- C2 witness input: the two-node cycle `a -> b -> a`. -/
def cycStore : TomlTree :=
  .node (cs "a") (.str (phText (cs "b"))) (.node (cs "b") (.str (phText (cs "a"))) .nil)

/-- C2 counterexample input: the same cycle plus a dangling reference. -/
def cycDanglingStore : TomlTree :=
  .node (cs "a") (.str (phText (cs "b")))
    (.node (cs "b") (.str (phText (cs "a")))
      (.node (cs "c") (.str (phText (cs "zzz"))) .nil))

/-- The shape subtree `sh`, hanging below the dotted path `path`, agrees
with the live store `root`: every string entry of `sh` is the live leaf at
its path.  This captures that `processMapForVariables` reads each leaf from
the shared map exactly as it stands when visited. -/
def AgreesUnder (root : TomlTree) (path : List (List Char)) : TomlTree → Prop
  | .nil => True
  | .node k (.str s) rest =>
      lookupLeaf (path ++ [k]) root = some s ∧ AgreesUnder root path rest
  | .node k (.map sub) rest =>
      AgreesUnder root (path ++ [k]) sub ∧ AgreesUnder root path rest

/-- The invariant a substitution pass preserves on a cyclic store: the
store stays well-delimited, every referenced path keeps denoting a string
leaf, and every reference edge of the fixed chain persists. -/
def CycInv (chain : List (List Char)) (root : TomlTree) : Prop :=
  WfTree root ∧ AllLeafTargets root ∧ ChainAt root chain

/-- Join one dot-step onto an accumulated prefix, as `collectDependencies`
builds its full keys. -/
def preJoin (pre : List Char) (ps : List (List Char)) : List Char :=
  if pre.isEmpty then joinDot ps else pre ++ '.' :: joinDot ps

/-- Consecutive graph edges along a node list. -/
def ChainDeps (deps : Deps) : List (List Char) → Prop
  | [] => True
  | [_] => True
  | x :: y :: rest => y ∈ depsGet deps x ∧ ChainDeps deps (y :: rest)

mutual
/-- `hasCycleF` instrumented with the list of nodes in finish order (a node
is appended when its frame completes and it was not already visited on
entry); the first two components coincide with `hasCycleF`. -/
def hasCycleI (deps : Deps) : Nat → List Char → List (List Char) → List (List Char) →
    List (List Char) → Bool × List (List Char) × List (List Char)
  | 0, _, visited, _, fin => (false, visited, fin)
  | fuel + 1, node, visited, stack, fin =>
    match hasCycleNbrsI deps fuel (depsGet deps node) (node :: stack)
        (insertSet node visited) fin with
    | (true, vis', fin') => (true, vis', fin')
    | (false, vis', fin') => (false, vis', if node ∈ visited then fin' else fin' ++ [node])
/-- The neighbour loop of `hasCycleI`. -/
def hasCycleNbrsI (deps : Deps) : Nat → List (List Char) → List (List Char) →
    List (List Char) → List (List Char) → Bool × List (List Char) × List (List Char)
  | _, [], _, visited, fin => (false, visited, fin)
  | fuel, n :: ns, chain, visited, fin =>
    if n ∈ visited then
      if n ∈ chain then (true, visited, fin) else hasCycleNbrsI deps fuel ns chain visited fin
    else
      match hasCycleI deps fuel n visited chain fin with
      | (true, vis', fin') => (true, vis', fin')
      | (false, vis', fin') => hasCycleNbrsI deps fuel ns chain vis' fin'
end

/-- A finish list is topologically sound relative to the part already
finished: each node's graph successors all finished strictly earlier. -/
def GoodFinAux (deps : Deps) : List (List Char) → List (List Char) → Prop
  | _, [] => True
  | done, u :: rest => (∀ y ∈ depsGet deps u, y ∈ done) ∧ GoodFinAux deps (done ++ [u]) rest

/-- A topologically sound finish list. -/
def GoodFin (deps : Deps) (fin : List (List Char)) : Prop := GoodFinAux deps [] fin

/-- How many graph nodes are still unvisited; bounds the depth-first
recursion. -/
def gap (deps : Deps) (visited : List (List Char)) : Nat :=
  ((depsNodes deps).filter fun x => decide (x ∉ visited)).length

/-- The state invariant of the depth-first search: visited is exactly
finished-or-on-stack, the finish list is topologically sound, and no
finished node sits on the stack. -/
def DfsInv (deps : Deps) (visited stack fin : List (List Char)) : Prop :=
  (∀ x, x ∈ visited ↔ (x ∈ fin ∨ x ∈ stack)) ∧ GoodFin deps fin ∧ ∀ x ∈ fin, x ∉ stack

/-! Theorems.  Lemmas shared between claims come first, then one theorem
per claim with its witness or counterexample. -/

theorem deepCopyMap_id : ∀ t, deepCopyMap t = t := by
  intro t
  induction t using deepCopyMap.induct <;> simp_all [deepCopyMap]

theorem containsSub_cons (c : Char) (t pat : List Char) :
    containsSub (c :: t) pat = (pat.isPrefixOf (c :: t) || containsSub t pat) := rfl

theorem containsBB_tail {c : Char} {t : List Char} (h : containsBB (c :: t) = false) :
    containsBB t = false := by
  have := containsSub_cons c t phOpen
  unfold containsBB at *
  rw [this] at h
  exact (Bool.or_eq_false_iff.mp h).2

theorem not_open_of_noBB {c1 c2 : Char} {rest : List Char}
    (h : containsBB (c1 :: c2 :: rest) = false) : ¬(c1 = '{' ∧ c2 = '{') := by
  rintro ⟨rfl, rfl⟩
  unfold containsBB at h
  rw [containsSub_cons] at h
  simp [phOpen, List.isPrefixOf] at h

theorem findMatchesFuel_nil_of_noBB :
    ∀ fuel s, containsBB s = false → findMatchesFuel fuel s = [] := by
  intro fuel
  induction fuel with
  | zero => intro s _; rfl
  | succ n ih =>
    intro s h
    match s with
    | [] => rfl
    | [c] => rfl
    | c1 :: c2 :: rest =>
      have hnp := not_open_of_noBB h
      simp only [findMatchesFuel, if_neg hnp]
      exact ih (c2 :: rest) (containsBB_tail h)

theorem findVariableMatches_nil_of_noBB {s : List Char} (h : containsBB s = false) :
    findVariableMatches s = [] :=
  findMatchesFuel_nil_of_noBB s.length s h

theorem leavesNoPh_of_noUnres : ∀ t, hasUnresolvedVariables t = false → leavesNoPh t = true := by
  intro t
  induction t using hasUnresolvedVariables.induct with
  | case1 => intro _; rfl
  | case2 k s rest ih =>
    intro h
    simp only [hasUnresolvedVariables, Bool.or_eq_false_iff] at h
    simp only [leavesNoPh, findVariableMatches_nil_of_noBB h.1, List.isEmpty_nil,
      Bool.true_and]
    exact ih h.2
  | case3 k sub rest ih1 ih2 =>
    intro h
    simp only [hasUnresolvedVariables, Bool.or_eq_false_iff] at h
    simp only [leavesNoPh, ih1 h.1, ih2 h.2, Bool.and_self]

theorem resolveLoop_ok_noUnres :
    ∀ n s r, resolveLoop (n + 1) s = .ok r → hasUnresolvedVariables r = false := by
  intro n
  induction n with
  | zero =>
    intro s r h
    cases hrp : runPass s with
    | error e => simp [resolveLoop, hrp] at h
    | ok p =>
      obtain ⟨s', ch⟩ := p
      simp only [resolveLoop, hrp] at h
      cases ch with
      | true => simp at h
      | false =>
        simp only [Bool.false_eq_true, if_false] at h
        by_cases hu : hasUnresolvedVariables s' = true
        · simp [hu] at h
        · simp only [hu, if_false] at h
          cases h
          exact Bool.not_eq_true _ ▸ (by simpa using hu)
  | succ m ih =>
    intro s r h
    cases hrp : runPass s with
    | error e => simp [resolveLoop, hrp] at h
    | ok p =>
      obtain ⟨s', ch⟩ := p
      simp only [resolveLoop, hrp] at h
      cases ch with
      | true =>
        simp only [if_true, Nat.succ_ne_zero, if_false] at h
        exact ih s' r h
      | false =>
        simp only [Bool.false_eq_true, if_false] at h
        by_cases hu : hasUnresolvedVariables s' = true
        · simp [hu] at h
        · simp only [hu, if_false] at h
          cases h
          simpa using hu

/-- C1: a successful run of `resolveVariables` returns a store in which no
string leaf contains a placeholder opener, hence no string leaf contains
any placeholder occurrence (an error run returns no store by the shape of
`Except`). -/
theorem c1_resolved_store_fully_substituted :
    ∀ data r, resolveVariables data = .ok r →
      hasUnresolvedVariables r = false ∧ leavesNoPh r = true := by
  intro data r h
  have h10 : resolveLoop (9 + 1) (deepCopyMap data) = .ok r := h
  have hu := resolveLoop_ok_noUnres 9 (deepCopyMap data) r h10
  exact ⟨hu, leavesNoPh_of_noUnres r hu⟩

/-- Witness for C1 at a concrete store whose resolution succeeds. -/
theorem c1_witness :
    resolveVariables simpleStore = .ok simpleStoreRes ∧
      hasUnresolvedVariables simpleStoreRes = false ∧ leavesNoPh simpleStoreRes = true :=
  ⟨rfl, c1_resolved_store_fully_substituted simpleStore simpleStoreRes rfl⟩

theorem resolveStringVariables_of_noPh {s : List Char} (root : TomlTree)
    (h : (findVariableMatches s).isEmpty = true) :
    resolveStringVariables s root = .ok (s, false) := by
  unfold resolveStringVariables
  rw [List.isEmpty_iff.mp h]
  rfl

theorem processMap_noPh :
    ∀ shape path root ch, leavesNoPh shape = true →
      processMapForVariables shape path root ch = .ok (root, ch) := by
  intro shape
  induction shape using hasUnresolvedVariables.induct with
  | case1 => intro _ _ _ _; rfl
  | case2 k s rest ih =>
    intro path root ch h
    simp only [leavesNoPh, Bool.and_eq_true] at h
    simp only [processMapForVariables, resolveStringVariables_of_noPh root h.1]
    exact ih path root ch h.2
  | case3 k sub rest ih1 ih2 =>
    intro path root ch h
    simp only [leavesNoPh, Bool.and_eq_true] at h
    simp only [processMapForVariables, ih1 (path ++ [k]) root ch h.1]
    exact ih2 path root ch h.2

theorem runPass_of_noUnres {s : TomlTree} (h : hasUnresolvedVariables s = false) :
    runPass s = .ok (s, false) :=
  processMap_noPh s [] s false (leavesNoPh_of_noUnres s h)

theorem resolveVariables_of_noUnres {s : TomlTree} (h : hasUnresolvedVariables s = false) :
    resolveVariables s = .ok s := by
  unfold resolveVariables maxPasses
  rw [deepCopyMap_id]
  show resolveLoop (9 + 1) s = .ok s
  simp [resolveLoop, runPass_of_noUnres h, h]

/-- C8 (amended): the resolver returns unchanged every store whose string
leaves contain no placeholder opener at all - in particular the output of
any successful resolution - so resolving twice equals resolving once.  (A
store with a stray opener but no complete placeholder is instead rejected;
see the counterexample.) -/
theorem c8_resolution_idempotent :
    ∀ s, (hasUnresolvedVariables s = false → resolveVariables s = .ok s) ∧
      ∀ r, resolveVariables s = .ok r → resolveVariables r = .ok r := by
  intro s
  refine ⟨fun h => resolveVariables_of_noUnres h, fun r h => ?_⟩
  have h10 : resolveLoop (9 + 1) (deepCopyMap s) = .ok r := h
  exact resolveVariables_of_noUnres (resolveLoop_ok_noUnres 9 (deepCopyMap s) r h10)

/-- Witness for C8: both conjuncts instantiated at concrete stores. -/
theorem c8_witness :
    hasUnresolvedVariables simpleStoreRes = false ∧
      resolveVariables simpleStore = .ok simpleStoreRes ∧
      resolveVariables simpleStoreRes = .ok simpleStoreRes :=
  ⟨rfl, rfl, (c8_resolution_idempotent simpleStore).2 simpleStoreRes rfl⟩

/-- Counterexample for C8 as stated: `strayStore` has no placeholder
occurrence in any leaf (no regex match), yet the resolver does not return
it unchanged - it fails with the max-passes diagnosis, because the
convergence check tests for the two-character opener, not for complete
placeholders. -/
theorem c8_counterexample :
    leavesNoPh strayStore = true ∧
      resolveVariables strayStore = .error .maxPassesExceeded :=
  ⟨rfl, rfl⟩

theorem resolveLoopCounted_fst : ∀ n s, (resolveLoopCounted n s).1 = resolveLoop n s := by
  intro n
  induction n with
  | zero => intro s; rfl
  | succ m ih =>
    intro s
    cases hrp : runPass s with
    | error e => simp [resolveLoopCounted, resolveLoop, hrp]
    | ok p =>
      obtain ⟨s', ch⟩ := p
      cases ch with
      | true =>
        by_cases hm : m = 0
        · simp [resolveLoopCounted, resolveLoop, hrp, hm]
        · simp [resolveLoopCounted, resolveLoop, hrp, hm, ih]
      | false =>
        by_cases hu : hasUnresolvedVariables s' = true
        · simp [resolveLoopCounted, resolveLoop, hrp, hu]
        · simp [resolveLoopCounted, resolveLoop, hrp, hu]

theorem resolveLoopCounted_le : ∀ n s, (resolveLoopCounted n s).2 ≤ n := by
  intro n
  induction n with
  | zero => intro s; exact Nat.le_refl 0
  | succ m ih =>
    intro s
    cases hrp : runPass s with
    | error e => simp [resolveLoopCounted, hrp]
    | ok p =>
      obtain ⟨s', ch⟩ := p
      cases ch with
      | true =>
        by_cases hm : m = 0
        · simp [resolveLoopCounted, hrp, hm]
        · simpa [resolveLoopCounted, hrp, hm] using ih s'
      | false =>
        by_cases hu : hasUnresolvedVariables s' = true
        · simp [resolveLoopCounted, hrp, hu]
        · simp [resolveLoopCounted, hrp, hu]

/-- C9: the fixed-point loop of `resolveVariables` is its pass loop run
with the `maxPasses` safety ceiling, and on every input the number of
passes actually executed is at most that ceiling - resolution terminates
on every input, cyclic or otherwise, by handing off to the diagnosis. -/
theorem c9_resolution_pass_bounded :
    ∀ data, resolveVariables data = (resolveLoopCounted maxPasses (deepCopyMap data)).1 ∧
      (resolveLoopCounted maxPasses (deepCopyMap data)).2 ≤ maxPasses := by
  intro data
  exact ⟨(resolveLoopCounted_fst maxPasses (deepCopyMap data)).symm,
    resolveLoopCounted_le maxPasses (deepCopyMap data)⟩

/-- C6 (code bug): the resolver has no environment branch, so with or
without `PORT` in the environment - the code never consults it - the
environment placeholder is parsed as the internal path `ENV.PORT:-3000`,
which is not found, and resolution fails instead of substituting the
environment value or the default `3000` as the spec, the repository
documentation and its tests require. -/
theorem c6_env_placeholder_unimplemented :
    resolveVariables envStore =
      .error (.notFound (cs "ENV.PORT:-3000") (getAvailableVariablesList envStore)) := rfl

theorem splitDot_cons_ne {c : Char} (h : c ≠ '.') (t : List Char) :
    splitDot (c :: t) =
      match splitDot t with
      | [] => [[c]]
      | h' :: r => (c :: h') :: r := by
  rw [splitDot.eq_def]
  split
  · simp_all
  · rename_i heq; injection heq with h1 _; exact absurd h1 h
  · rename_i heq; injection heq with h1 h2; subst h1; subst h2; rfl

theorem splitDot_ne_nil : ∀ s, splitDot s ≠ [] := by
  intro s
  induction s with
  | nil => simp [splitDot]
  | cons c t ih =>
    by_cases hc : c = '.'
    · subst hc; simp [splitDot]
    · rw [splitDot_cons_ne hc]
      cases splitDot t <;> simp

theorem splitDot_append_dot {p : List Char} (h : '.' ∉ p) (rem : List Char) :
    splitDot (p ++ '.' :: rem) = p :: splitDot rem := by
  induction p with
  | nil => rfl
  | cons c t ih =>
    have hc : c ≠ '.' := fun hc => h (hc ▸ List.mem_cons_self c t)
    have ht : '.' ∉ t := fun ht => h (List.mem_cons_of_mem c ht)
    rw [List.cons_append, splitDot_cons_ne hc, ih ht]

theorem takeWhile_append_dot {p : List Char} (h : '.' ∉ p) (rem : List Char) :
    (p ++ '.' :: rem).takeWhile (· ≠ '.') = p := by
  induction p with
  | nil => simp [List.takeWhile]
  | cons c t ih =>
    have hc : c ≠ '.' := fun hc => h (hc ▸ List.mem_cons_self c t)
    have ht : '.' ∉ t := fun ht => h (List.mem_cons_of_mem c ht)
    rw [List.cons_append, List.takeWhile_cons, if_pos (by simp [hc])]
    exact congrArg (c :: ·) (ih ht)

theorem dropWhile_append_dot {p : List Char} (h : '.' ∉ p) (rem : List Char) :
    (p ++ '.' :: rem).dropWhile (· ≠ '.') = '.' :: rem := by
  induction p with
  | nil => simp [List.dropWhile]
  | cons c t ih =>
    have hc : c ≠ '.' := fun hc => h (hc ▸ List.mem_cons_self c t)
    have ht : '.' ∉ t := fun ht => h (List.mem_cons_of_mem c ht)
    rw [List.cons_append, List.dropWhile_cons, if_pos (by simp [hc])]
    exact ih ht

theorem containsSub_dot_append (p rem : List Char) :
    containsSub (p ++ '.' :: rem) ['.'] = true := by
  induction p with
  | nil => simp [containsSub_cons, List.isPrefixOf]
  | cons c t ih => simp [containsSub_cons, ih]

theorem smartLookup_not_pfxNotFound (fdl : List FileData) (key p a : List Char) :
    smartLookup fdl key ≠ .error (.pfxNotFound p a) := by
  unfold smartLookup
  cases h : foundPairs fdl key with
  | nil => simp
  | cons q qs => cases qs <;> simp

theorem getEntry_nsOfResolved :
    ∀ (fdl : List FileData) (fd : FileData), (fdl.map FileData.pfx).Nodup → fd ∈ fdl →
      getEntry fd.pfx (nsOfResolved fdl) = some (.map fd.resolved) := by
  intro fdl
  induction fdl with
  | nil => intro fd _ hm; cases hm
  | cons fd' rest ih =>
    intro fd hnd hm
    simp only [List.map_cons, List.nodup_cons] at hnd
    rcases List.mem_cons.mp hm with rfl | hm'
    · simp [nsOfResolved, getEntry]
    · have hne : fd'.pfx ≠ fd.pfx := by
        intro he
        exact hnd.1 (he ▸ List.mem_map_of_mem FileData.pfx hm')
      simp only [nsOfResolved, getEntry, if_neg hne]
      exact ih fd hnd.2 hm'

theorem findPfx_of_mem :
    ∀ (fdl : List FileData) (fd : FileData), (fdl.map FileData.pfx).Nodup → fd ∈ fdl →
      findPfx fd.pfx fdl = some fd := by
  intro fdl
  induction fdl with
  | nil => intro fd _ hm; cases hm
  | cons fd' rest ih =>
    intro fd hnd hm
    simp only [List.map_cons, List.nodup_cons] at hnd
    rcases List.mem_cons.mp hm with rfl | hm'
    · simp [findPfx]
    · have hne : fd'.pfx ≠ fd.pfx := by
        intro he
        exact hnd.1 (he ▸ List.mem_map_of_mem FileData.pfx hm')
      simp only [findPfx, if_neg hne]
      exact ih fd hnd.2 hm'

theorem resolveVariablePath_qualified {fdl : List FileData} {fd : FileData}
    (hnd : (fdl.map FileData.pfx).Nodup) (hm : fd ∈ fdl) (hdot : '.' ∉ fd.pfx)
    (rem : List Char) :
    resolveVariablePath (fd.pfx ++ '.' :: rem) (nsOfResolved fdl) = resolveKey fd.resolved rem := by
  unfold resolveVariablePath resolveKey
  rw [splitDot_append_dot hdot]
  obtain ⟨r0, rrest, hr⟩ : ∃ r0 rrest, splitDot rem = r0 :: rrest := by
    cases h : splitDot rem with
    | nil => exact absurd h (splitDot_ne_nil rem)
    | cons r0 rrest => exact ⟨r0, rrest, rfl⟩
  rw [hr]
  show descendParts (fd.pfx :: r0 :: rrest) (nsOfResolved fdl) = descendParts (r0 :: rrest) fd.resolved
  simp only [descendParts, getEntry_nsOfResolved fdl fd hnd hm]

/-- C5 counterexample: with one document `app` whose tree holds
`server.port = 3000`, the external lookup of the unqualified path
`server.port` succeeds by cross-namespace search, while the resolver's
internal reference resolution of the same path fails (it only descends
from the store root, where the first segment must be a namespace), so the
two do not implement the same rule. -/
theorem c5_counterexample :
    findValueInFilesCore [fdApp] (cs "server.port") = .ok (cs "3000") ∧
      resolveVariablePath (cs "server.port") (nsOfResolved [fdApp]) = none := ⟨rfl, rfl⟩

/-- C5 (amended): the resolver's internal reference resolution is a plain
dotted descent from the store root, with no cross-namespace search and no
ambiguity detection; it agrees with the external lookup exactly on
namespace-qualified paths: for a dot-free known prefix, the internal
resolution of `prefix.rem` equals the in-file descent of `rem`, the
external lookup succeeds with the same value when that descent succeeds,
and fails with the in-file not-found error when it does not. -/
theorem c5_internal_vs_external_lookup :
    ∀ (fdl : List FileData) (fd : FileData) (rem : List Char),
      (fdl.map FileData.pfx).Nodup → fd ∈ fdl → '.' ∉ fd.pfx →
      resolveVariablePath (fd.pfx ++ '.' :: rem) (nsOfResolved fdl) = resolveKey fd.resolved rem ∧
      (∀ v, resolveKey fd.resolved rem = some v →
        findValueInFilesCore fdl (fd.pfx ++ '.' :: rem) = .ok v) ∧
      (resolveKey fd.resolved rem = none →
        findValueInFilesCore fdl (fd.pfx ++ '.' :: rem) =
          .error (.notFoundInFile rem fd.path (getFileVariablesList fd.resolved))) := by
  intro fdl fd rem hnd hm hdot
  have hne : fdl ≠ [] := by rintro rfl; cases hm
  have hcd : containsSub (fd.pfx ++ '.' :: rem) ['.'] = true := containsSub_dot_append _ _
  have htk := takeWhile_append_dot hdot rem
  have hdr := dropWhile_append_dot hdot rem
  have hfp := findPfx_of_mem fdl fd hnd hm
  refine ⟨resolveVariablePath_qualified hnd hm hdot rem, ?_, ?_⟩
  · intro v hv
    simp only [findValueInFilesCore, List.isEmpty_eq_true, hne, if_false, hcd, if_true,
      htk, hdr, List.drop_one, List.tail_cons, hfp, hv]
  · intro hv
    simp only [findValueInFilesCore, List.isEmpty_eq_true, hne, if_false, hcd, if_true,
      htk, hdr, List.drop_one, List.tail_cons, hfp, hv]

/-- Witness for C5 at the `app` document and the path `app.server.port`. -/
theorem c5_witness :
    resolveVariablePath (cs "app" ++ '.' :: cs "server.port") (nsOfResolved [fdApp]) =
        resolveKey fdApp.resolved (cs "server.port") ∧
      findValueInFilesCore [fdApp] (cs "app" ++ '.' :: cs "server.port") = .ok (cs "3000") := by
  have h := c5_internal_vs_external_lookup [fdApp] fdApp (cs "server.port")
    (by simp) (by simp) (by decide)
  exact ⟨h.1, h.2.1 (cs "3000") rfl⟩

theorem foundPairs_nil (key : List Char) : foundPairs [] key = [] := rfl

/-- C3 (amended): restricted to lookup keys the search actually reaches -
keys whose first segment matches no file prefix and whose remainder after
the first dot contains no further dot (a three-segment key with an
unmatched first segment is instead rejected as a bad file prefix, see the
counterexample): a key found in exactly one resolved tree returns that
value; a key found in several returns the ambiguous error naming every
such file and suggesting `prefix.key` for each; and a prefix-qualified key
returns the named document's value at the remaining path. -/
theorem c3_lookup_disambiguation :
    ∀ (files : List TFile) (fdl : List FileData) (key : List Char),
      loadAllTOMLFilesOn files = .ok fdl →
      ((∀ (fd : FileData) (v : List Char),
          findPfx (key.takeWhile (· ≠ '.')) fdl = none →
          containsSub ((key.dropWhile (· ≠ '.')).drop 1) ['.'] = false →
          foundPairs fdl key = [(fd, v)] →
          findValueInFiles files key = .ok v) ∧
        (∀ (p1 p2 : FileData × List Char) (ps : List (FileData × List Char)),
          findPfx (key.takeWhile (· ≠ '.')) fdl = none →
          containsSub ((key.dropWhile (· ≠ '.')).drop 1) ['.'] = false →
          foundPairs fdl key = p1 :: p2 :: ps →
          findValueInFiles files key =
            .error (.ambiguous key ((p1 :: p2 :: ps).map fun q => q.1.path)
              ((p1 :: p2 :: ps).map fun q => q.1.pfx ++ '.' :: key))) ∧
        (∀ (fd : FileData) (v : List Char),
          containsSub key ['.'] = true →
          findPfx (key.takeWhile (· ≠ '.')) fdl = some fd →
          resolveKey fd.resolved ((key.dropWhile (· ≠ '.')).drop 1) = some v →
          findValueInFiles files key = .ok v)) := by
  intro files fdl key hload
  have hcall : findValueInFiles files key = findValueInFilesCore fdl key := by
    simp [findValueInFiles, hload]
  refine ⟨fun fd v hpfx hrem hfound => ?_, fun p1 p2 ps hpfx hrem hfound => ?_,
    fun fd v hdot hpfx hres => ?_⟩
  · have hne : fdl ≠ [] := by rintro rfl; exact absurd hfound (by simp [foundPairs_nil])
    rw [hcall]
    by_cases hdot : containsSub key ['.'] = true
    · simp only [findValueInFilesCore, List.isEmpty_eq_true, hne, if_false, hdot, if_true,
        hpfx, hrem, Bool.false_eq_true, smartLookup, hfound]
    · simp only [findValueInFilesCore, List.isEmpty_eq_true, hne, if_false,
        smartLookup, hfound]
      rw [if_neg hdot]
  · have hne : fdl ≠ [] := by rintro rfl; exact absurd hfound (by simp [foundPairs_nil])
    rw [hcall]
    by_cases hdot : containsSub key ['.'] = true
    · simp only [findValueInFilesCore, List.isEmpty_eq_true, hne, if_false, hdot, if_true,
        hpfx, hrem, Bool.false_eq_true, smartLookup, hfound]
    · simp only [findValueInFilesCore, List.isEmpty_eq_true, hne, if_false,
        smartLookup, hfound]
      rw [if_neg hdot]
  · have hne : fdl ≠ [] := by
      rintro rfl; simp [findPfx] at hpfx
    rw [hcall]
    simp only [findValueInFilesCore, List.isEmpty_eq_true, hne, if_false, hdot, if_true,
      hpfx, hres]

/-- Witness for C3: unique lookup, ambiguous lookup and qualified lookup
at concrete document lists. -/
theorem c3_witness :
    findValueInFiles [appTFile] (cs "server.port") = .ok (cs "3000") ∧
      findValueInFiles [appTFile, dbTFile] (cs "server.port") =
        .error (.ambiguous (cs "server.port")
          ([(fdApp, cs "3000"), (fdDb, cs "5432")].map fun q => q.1.path)
          ([(fdApp, cs "3000"), (fdDb, cs "5432")].map fun q =>
            q.1.pfx ++ '.' :: cs "server.port")) ∧
      findValueInFiles [appTFile, dbTFile] (cs "app.server.port") = .ok (cs "3000") :=
  ⟨(c3_lookup_disambiguation [appTFile] [fdApp] (cs "server.port") rfl).1
      fdApp (cs "3000") rfl rfl rfl,
    (c3_lookup_disambiguation [appTFile, dbTFile] [fdApp, fdDb] (cs "server.port") rfl).2.1
      (fdApp, cs "3000") (fdDb, cs "5432") [] rfl rfl rfl,
    (c3_lookup_disambiguation [appTFile, dbTFile] [fdApp, fdDb] (cs "app.server.port") rfl).2.2
      fdApp (cs "3000") rfl rfl rfl⟩

/-- C3 counterexample: the key `a.b.c` is defined (as a leaf) in exactly
one document, yet the unqualified lookup does not return its value - the
first segment `a` matches no file prefix and the remainder `b.c` still
contains a dot, so the lookup fails with the file-prefix error. -/
theorem c3_counterexample :
    loadAllTOMLFilesOn [confTFile] = .ok [fdConf] ∧
      foundPairs [fdConf] (cs "a.b.c") = [(fdConf, cs "v")] ∧
      findValueInFiles [confTFile] (cs "a.b.c") =
        .error (.pfxNotFound (cs "a") (getAvailableFilePfxs [fdConf])) :=
  ⟨rfl, rfl, rfl⟩

/-- C10 (amended): provided at least one document loads and cross-file
resolution succeeds, a dotted key whose first segment matches no file
prefix is rejected with the file-prefix error (listing the available
prefixes) when its remainder still contains a dot, and otherwise falls
through to the ordinary cross-file search, which never produces a
file-prefix error.  (With no loaded documents the lookup instead fails
earlier with the no-files error, see the counterexample.) -/
theorem c10_unmatched_pfx_branching :
    ∀ (files : List TFile) (fdl : List FileData) (key : List Char),
      loadAllTOMLFilesOn files = .ok fdl → fdl ≠ [] →
      containsSub key ['.'] = true →
      findPfx (key.takeWhile (· ≠ '.')) fdl = none →
      ((containsSub ((key.dropWhile (· ≠ '.')).drop 1) ['.'] = true →
          findValueInFiles files key =
            .error (.pfxNotFound (key.takeWhile (· ≠ '.')) (getAvailableFilePfxs fdl))) ∧
        (containsSub ((key.dropWhile (· ≠ '.')).drop 1) ['.'] = false →
          findValueInFiles files key = smartLookup fdl key ∧
          ∀ p a, findValueInFiles files key ≠ .error (.pfxNotFound p a))) := by
  intro files fdl key hload hne hdot hpfx
  have hcall : findValueInFiles files key = findValueInFilesCore fdl key := by
    simp [findValueInFiles, hload]
  constructor
  · intro hrem
    rw [hcall]
    simp only [findValueInFilesCore, List.isEmpty_eq_true, hne, if_false, hdot, if_true,
      hpfx, hrem]
  · intro hrem
    have hsm : findValueInFiles files key = smartLookup fdl key := by
      rw [hcall]
      simp only [findValueInFilesCore, List.isEmpty_eq_true, hne, if_false, hdot, if_true,
        hpfx, hrem, Bool.false_eq_true]
    exact ⟨hsm, fun p a => hsm ▸ smartLookup_not_pfxNotFound fdl key p a⟩

/-- Witness for C10: both branches at a concrete document list. -/
theorem c10_witness :
    findValueInFiles [appTFile] (cs "x.y.z") =
        .error (.pfxNotFound (cs "x") (getAvailableFilePfxs [fdApp])) ∧
      findValueInFiles [appTFile] (cs "nope.port") = smartLookup [fdApp] (cs "nope.port") :=
  ⟨(c10_unmatched_pfx_branching [appTFile] [fdApp] (cs "x.y.z") rfl
      (List.cons_ne_nil _ _) rfl rfl).1 rfl,
    ((c10_unmatched_pfx_branching [appTFile] [fdApp] (cs "nope.port") rfl
      (List.cons_ne_nil _ _) rfl rfl).2 rfl).1⟩

/-- C10 counterexample: with no TOML files at all, a dotted key with an
unmatched first segment and a dotted remainder fails with the no-files
error, not the file-prefix error the claim predicts. -/
theorem c10_counterexample :
    findValueInFiles [] (cs "a.b.c") = .error (.noFiles (cs "a.b.c")) ∧
      FindErr.noFiles (cs "a.b.c") ≠
        FindErr.pfxNotFound (cs "a") (getAvailableFilePfxs []) :=
  ⟨rfl, by simp⟩

theorem filesChanged_of_witness {files : List TFile} {st : CacheState} {f : TFile}
    (hf : f ∈ files)
    (h : findEntryA f.path st.fileCache = none ∨
      ∃ t, findEntryA f.path st.fileCache = some t ∧ t < f.mtime) :
    filesChanged files st = true := by
  unfold filesChanged
  rw [List.any_eq_true]
  refine ⟨f, hf, ?_⟩
  rcases h with h | ⟨t, ht, hlt⟩
  · rw [h]
  · rw [ht]
    simpa using hlt

theorem getValueFromCache_changed {files : List TFile} {st : CacheState} {key : List Char}
    (now : Nat) (hch : filesChanged files st = true) :
    getValueFromCache files now st key = getValueFromCacheMiss files now st key := by
  unfold getValueFromCache
  cases findEntryA key st.cache with
  | none => rfl
  | some e => rw [hch]; rfl

/-- C4 (amended): if any currently discoverable document is untracked
(new) or has a modification time strictly newer than recorded, the next
lookup drops the whole memo table, reloads, and returns exactly the fresh
outcome V2 - the memoized V1 cannot be served.  A document that merely
disappears is however not detected: the change check only re-stats files
that are still discoverable, so a cached V1 can be served stale (see the
counterexample). -/
theorem c4_cache_invalidation_on_change :
    ∀ (files : List TFile) (st : CacheState) (key : List Char) (now : Nat) (f : TFile),
      f ∈ files →
      (findEntryA f.path st.fileCache = none ∨
        ∃ t, findEntryA f.path st.fileCache = some t ∧ t < f.mtime) →
      ((∀ v, findValueInFiles files key = .ok v →
          getValueFromCache files now st key =
            ((v, none),
              ⟨[(key, ⟨v, now, none⟩)], (updateFileTimestamps files st).fileCache⟩, 1)) ∧
        (∀ e, findValueInFiles files key = .error e →
          getValueFromCache files now st key =
            (([], some e),
              ⟨[(key, ⟨[], now, some e⟩)], (updateFileTimestamps files st).fileCache⟩, 1))) := by
  intro files st key now f hf h
  have hch := filesChanged_of_witness hf h
  rw [getValueFromCache_changed now hch]
  constructor
  · intro v hv
    simp only [getValueFromCacheMiss, hv, updateFileTimestamps]
    rfl
  · intro e he
    simp only [getValueFromCacheMiss, he, updateFileTimestamps]
    rfl

/-- Witness for C4: the tracked file advances from time 3 to 9 and the
looked-up value changes from 3000 to 8080; the lookup returns 8080. -/
theorem c4_witness :
    getValueFromCache [appTFile9] 103 stApp1 (cs "server.port") =
      ((cs "8080", none),
        ⟨[(cs "server.port", ⟨cs "8080", 103, none⟩)],
          (updateFileTimestamps [appTFile9] stApp1).fileCache⟩, 1) :=
  (c4_cache_invalidation_on_change [appTFile9] stApp1 (cs "server.port") 103 appTFile9
    (List.mem_singleton.mpr rfl) (Or.inr ⟨3, rfl, by decide⟩)).1 (cs "8080") rfl

/-- C4 counterexample: after caching V1 = 3000, the backing document
disappears, so a fresh lookup would now fail (V2 is the no-files error);
but the change check sees no remaining file to re-stat, reports no change,
and the stale V1 is served from the cache with no reload. -/
theorem c4_counterexample :
    getValueFromCache [] 102 stApp1 (cs "server.port") = ((cs "3000", none), stApp1, 0) ∧
      findValueInFiles [] (cs "server.port") = .error (.noFiles (cs "server.port")) :=
  ⟨rfl, rfl⟩

/-- C7 (amended): a repeated lookup of the same key before any file
change is served from the memo table with the state untouched and the
loader not run; but a lookup of a second, distinct key misses the per-key
memo table and triggers a full reload - the loader runs once, every
previously memoized entry is dropped, and the cache is left holding only
the new key's entry (timestamps refreshed). -/
theorem c7_second_key_misses_cache :
    ∀ (files : List TFile) (st : CacheState) (key : List Char) (now : Nat),
      ((∀ e, findEntryA key st.cache = some e → filesChanged files st = false →
          getValueFromCache files now st key = ((e.value, e.err), st, 0)) ∧
        (findEntryA key st.cache = none →
          (∀ v, findValueInFiles files key = .ok v →
            getValueFromCache files now st key =
              ((v, none),
                ⟨[(key, ⟨v, now, none⟩)], (updateFileTimestamps files st).fileCache⟩, 1)) ∧
          (∀ e, findValueInFiles files key = .error e →
            getValueFromCache files now st key =
              (([], some e),
                ⟨[(key, ⟨[], now, some e⟩)], (updateFileTimestamps files st).fileCache⟩, 1)))) := by
  intro files st key now
  constructor
  · intro e he hch
    unfold getValueFromCache
    rw [he, hch]
    rfl
  · intro hnone
    have hmiss : getValueFromCache files now st key = getValueFromCacheMiss files now st key := by
      unfold getValueFromCache
      rw [hnone]
    constructor
    · intro v hv
      rw [hmiss]
      simp only [getValueFromCacheMiss, hv, updateFileTimestamps]
      rfl
    · intro e he
      rw [hmiss]
      simp only [getValueFromCacheMiss, he, updateFileTimestamps]
      rfl

/-- Witness for C7: a hit on the cached key leaves everything unchanged
with no reload, and a miss on a distinct key reloads once. -/
theorem c7_witness :
    getValueFromCache [distTFile] 101 stApp1 (cs "server.port") =
        ((cs "3000", none), stApp1, 0) ∧
      getValueFromCache [distTFile] 101 stApp1 (cs "server.host") =
        ((cs "h", none),
          ⟨[(cs "server.host", ⟨cs "h", 101, none⟩)],
            (updateFileTimestamps [distTFile] stApp1).fileCache⟩, 1) :=
  ⟨(c7_second_key_misses_cache [distTFile] stApp1 (cs "server.port") 101).1
      ⟨cs "3000", 100, none⟩ rfl rfl,
    ((c7_second_key_misses_cache [distTFile] stApp1 (cs "server.host") 101).2 rfl).1
      (cs "h") rfl⟩

/-- C7 counterexample: before the second lookup the cache holds the first
key's entry; a lookup of a second distinct key (no file changed) runs the
loader once - re-parsing the documents - and leaves a cache without the
first key's entry, contrary to the claimed reuse and frame condition. -/
theorem c7_counterexample :
    findEntryA (cs "server.port") stApp1.cache = some ⟨cs "3000", 100, none⟩ ∧
      (getValueFromCache [distTFile] 101 stApp1 (cs "server.host")).2.2 = 1 ∧
      findEntryA (cs "server.port")
        (getValueFromCache [distTFile] 101 stApp1 (cs "server.host")).2.1.cache = none :=
  ⟨rfl, rfl, rfl⟩

theorem length_dropWhile_le (p : Char → Bool) (l : List Char) :
    (l.dropWhile p).length ≤ l.length := by
  induction l with
  | nil => simp [List.dropWhile]
  | cons c t ih =>
    rw [List.dropWhile_cons]
    split
    · exact Nat.le_succ_of_le ih
    · exact Nat.le_refl _

theorem findMatchesFuel_canon :
    ∀ fuel s, s.length ≤ fuel → findMatchesFuel fuel s = findVariableMatches s := by
  intro fuel
  induction fuel using Nat.strong_induction_on with
  | _ fuel ih =>
    intro s hlen
    match fuel, s with
    | 0, [] => rfl
    | 0, c :: t => exact absurd hlen (by simp)
    | fuel + 1, [] => rfl
    | fuel + 1, [c] => rfl
    | fuel + 1, c1 :: c2 :: rest =>
      have hlen2 : (c2 :: rest).length ≤ fuel := by
        simpa using Nat.lt_of_succ_le (by simpa using hlen)
      have hfek : rest.length + 1 ≤ fuel := by simpa using hlen2
      have hretry : findMatchesFuel fuel (c2 :: rest) =
          findMatchesFuel (rest.length + 1) (c2 :: rest) := by
        rw [ih fuel (Nat.lt_succ_self _) _ hlen2]
        rw [ih (rest.length + 1) (by omega) _ (by simp)]
      show findMatchesFuel (fuel + 1) (c1 :: c2 :: rest) =
        findMatchesFuel (rest.length + 1 + 1) (c1 :: c2 :: rest)
      have hdw := length_dropWhile_le (· ≠ '}') rest
      have htl : ((rest.dropWhile (· ≠ '}')).drop 2).length ≤ rest.length := by
        have := List.length_drop 2 (rest.dropWhile (· ≠ '}'))
        omega
      by_cases hbb : c1 = '{' ∧ c2 = '{'
      · simp only [findMatchesFuel, if_pos hbb]
        by_cases htk : (rest.dropWhile (· ≠ '}')).take 2 = ['}', '}']
        · rw [if_pos htk, if_pos htk]
          by_cases hbe : (rest.takeWhile (· ≠ '}')).isEmpty = true
          · rw [if_pos hbe, if_pos hbe]
            exact hretry
          · rw [if_neg hbe, if_neg hbe]
            rw [ih fuel (Nat.lt_succ_self _) _ (by omega)]
            rw [ih (rest.length + 1) (by omega) _ (by omega)]
        · rw [if_neg htk, if_neg htk]
          exact hretry
      · simp only [findMatchesFuel, if_neg hbb]
        exact hretry

theorem braceFree_mem {l : List Char} (h : braceFree l = true) {c : Char} (hc : c ∈ l) :
    c ≠ '{' ∧ c ≠ '}' := by
  have := List.all_eq_true.mp h c hc
  simpa using this

theorem takeWhile_closes {b : List Char} (hb : ∀ c ∈ b, c ≠ '}') (x : List Char) :
    (b ++ '}' :: x).takeWhile (· ≠ '}') = b := by
  induction b with
  | nil => simp [List.takeWhile_cons]
  | cons c t ih =>
    rw [List.cons_append, List.takeWhile_cons,
      if_pos (by simp [hb c (List.mem_cons_self c t)])]
    rw [ih fun d hd => hb d (List.mem_cons_of_mem c hd)]

theorem dropWhile_closes {b : List Char} (hb : ∀ c ∈ b, c ≠ '}') (x : List Char) :
    (b ++ '}' :: x).dropWhile (· ≠ '}') = '}' :: x := by
  induction b with
  | nil => simp [List.dropWhile_cons]
  | cons c t ih =>
    rw [List.cons_append, List.dropWhile_cons,
      if_pos (by simp [hb c (List.mem_cons_self c t)])]
    exact ih fun d hd => hb d (List.mem_cons_of_mem c hd)

theorem findVariableMatches_skip {c : Char} (hc : c ≠ '{') (s : List Char) :
    findVariableMatches (c :: s) = findVariableMatches s := by
  cases s with
  | nil => rfl
  | cons c2 rest =>
    show findMatchesFuel (rest.length + 1 + 1) (c :: c2 :: rest) =
      findMatchesFuel (rest.length + 1) (c2 :: rest)
    rw [findMatchesFuel]
    rw [if_neg (show ¬(c = '{' ∧ c2 = '{') from fun h => hc h.1)]

theorem findVariableMatches_skip2 {c2 : Char} (hc : c2 ≠ '{') (s : List Char) :
    findVariableMatches ('{' :: c2 :: s) = findVariableMatches (c2 :: s) := by
  show findMatchesFuel (s.length + 1 + 1) ('{' :: c2 :: s) =
    findMatchesFuel (s.length + 1) (c2 :: s)
  rw [findMatchesFuel]
  rw [if_neg (show ¬('{' = '{' ∧ c2 = '{') from fun h => hc h.2)]

theorem findVariableMatches_txt {t : List Char} (ht : ∀ c ∈ t, c ≠ '{') (s : List Char) :
    findVariableMatches (t ++ s) = findVariableMatches s := by
  induction t with
  | nil => rfl
  | cons c t' ih =>
    rw [List.cons_append, findVariableMatches_skip (ht c (List.mem_cons_self c t'))]
    exact ih fun d hd => ht d (List.mem_cons_of_mem c hd)

theorem findVariableMatches_ph {b : List Char} (hb : braceFree b = true) (hne : b ≠ [])
    (s : List Char) :
    findVariableMatches (phText b ++ s) = (phText b, b) :: findVariableMatches s := by
  have hshape : phText b ++ s = '{' :: '{' :: (b ++ '}' :: '}' :: s) := by
    simp [phText, phOpen, phClose]
  rw [hshape]
  have hbnc : ∀ c ∈ b, c ≠ '}' := fun c hc => (braceFree_mem hb hc).2
  show findMatchesFuel ((b ++ '}' :: '}' :: s).length + 1 + 1) ('{' :: '{' :: (b ++ '}' :: '}' :: s)) = _
  rw [findMatchesFuel]
  rw [if_pos (show '{' = '{' ∧ '{' = '{' from ⟨rfl, rfl⟩)]
  rw [takeWhile_closes hbnc ('}' :: s), dropWhile_closes hbnc ('}' :: s)]
  rw [if_pos (show ('}' :: '}' :: s).take 2 = ['}', '}'] from rfl)]
  rw [if_neg (show ¬b.isEmpty = true from by simpa using hne)]
  rw [show List.drop 2 ('}' :: '}' :: s) = s from rfl]
  rw [findMatchesFuel_canon ((b ++ '}' :: '}' :: s).length + 1) s (by simp; omega)]

theorem phText_eq_cons (b : List Char) : phText b = '{' :: '{' :: (b ++ ['}', '}']) := by
  simp [phText, phOpen, phClose]

theorem segsOK_cons {sg : Seg} {l : List Seg} (h : segsOK (sg :: l) = true) :
    segOK sg = true ∧ segsOK l = true := by
  simpa [segsOK] using h

theorem segOK_ph {b : List Char} (h : segOK (Seg.ph b) = true) :
    b ≠ [] ∧ braceFree b = true := by
  have := h
  simp [segOK] at this
  exact ⟨by simpa [List.isEmpty_iff] using this.1, this.2⟩

theorem render_cons (sg : Seg) (l : List Seg) : render (sg :: l) = renderSeg sg ++ render l := by
  simp [render]

theorem findVariableMatches_render :
    ∀ l : List Seg, segsOK l = true →
      findVariableMatches (render l) = (segBodies l).map fun b => (phText b, b) := by
  intro l
  induction l with
  | nil => intro _; rfl
  | cons sg l' ih =>
    intro h
    obtain ⟨h1, h2⟩ := segsOK_cons h
    cases sg with
    | txt t =>
      have ht : ∀ c ∈ t, c ≠ '{' := fun c hc => (braceFree_mem h1 hc).1
      rw [render_cons]
      show findVariableMatches (t ++ render l') = _
      rw [findVariableMatches_txt ht, ih h2]
      rfl
    | ph b =>
      obtain ⟨hbne, hbf⟩ := segOK_ph h1
      rw [render_cons]
      show findVariableMatches (phText b ++ render l') = _
      rw [findVariableMatches_ph hbf hbne, ih h2]
      rfl

theorem containsSub_of_isPrefixOf {s pat : List Char} (h : pat.isPrefixOf s = true) :
    containsSub s pat = true := by
  cases s with
  | nil => exact h
  | cons c t => rw [containsSub_cons, h, Bool.true_or]

theorem containsSub_skip {c : Char} (hc : c ≠ '{') (pt s : List Char) :
    containsSub (c :: s) ('{' :: pt) = containsSub s ('{' :: pt) := by
  rw [containsSub_cons]
  have : ('{' :: pt).isPrefixOf (c :: s) = false := by
    simp [List.isPrefixOf]
    intro h
    exact absurd h.symm hc
  rw [this, Bool.false_or]

theorem containsSub_txt {x : List Char} (hx : ∀ c ∈ x, c ≠ '{') (pt s : List Char) :
    containsSub (x ++ s) ('{' :: pt) = containsSub s ('{' :: pt) := by
  induction x with
  | nil => rfl
  | cons c t ih =>
    rw [List.cons_append, containsSub_skip (hx c (List.mem_cons_self c t))]
    exact ih fun d hd => hx d (List.mem_cons_of_mem c hd)

theorem closes_isPrefixOf :
    ∀ b b' : List Char, (∀ c ∈ b, c ≠ '}') → (∀ c ∈ b', c ≠ '}') → ∀ x y : List Char,
      ((b ++ '}' :: x).isPrefixOf (b' ++ '}' :: y) = true ↔ b = b' ∧ x.isPrefixOf y = true) := by
  intro b
  induction b with
  | nil =>
    intro b' _ hb' x y
    cases b' with
    | nil => simp [List.isPrefixOf]
    | cons c' t' =>
      simp only [List.nil_append, List.cons_append, List.isPrefixOf, Bool.and_eq_true,
        beq_iff_eq]
      constructor
      · rintro ⟨h1, _⟩
        exact absurd h1.symm (hb' c' (List.mem_cons_self c' t'))
      · rintro ⟨h1, _⟩
        cases h1
  | cons c t ih =>
    intro b' hb hb' x y
    cases b' with
    | nil =>
      simp only [List.cons_append, List.nil_append, List.isPrefixOf, Bool.and_eq_true,
        beq_iff_eq]
      constructor
      · rintro ⟨h1, _⟩
        exact absurd h1 (hb c (List.mem_cons_self c t))
      · rintro ⟨h1, _⟩
        cases h1
    | cons c' t' =>
      simp only [List.cons_append, List.isPrefixOf, Bool.and_eq_true, beq_iff_eq,
        List.append_eq]
      rw [ih t' (fun d hd => hb d (List.mem_cons_of_mem c hd))
        (fun d hd => hb' d (List.mem_cons_of_mem c' hd)) x y]
      constructor
      · rintro ⟨rfl, rfl, hxy⟩
        exact ⟨rfl, hxy⟩
      · rintro ⟨hcons, hxy⟩
        injection hcons with h1 h2
        exact ⟨h1, h2, hxy⟩

theorem phText_isPrefixOf {b b' : List Char} (hb : braceFree b = true)
    (hb' : braceFree b' = true) (s : List Char) :
    ((phText b).isPrefixOf (phText b' ++ s) = true) ↔ b = b' := by
  rw [phText_eq_cons, phText_eq_cons]
  have hshape : ('{' :: '{' :: (b' ++ ['}', '}'])) ++ s = '{' :: '{' :: (b' ++ '}' :: '}' :: s) := by
    simp
  rw [hshape]
  simp only [List.isPrefixOf, Bool.and_eq_true, beq_self_eq_true, true_and]
  have h1 : b ++ ['}', '}'] = b ++ '}' :: ['}'] := rfl
  have h2 : b' ++ '}' :: '}' :: s = b' ++ '}' :: ('}' :: s) := rfl
  rw [h1, h2, closes_isPrefixOf b b' (fun c hc => (braceFree_mem hb hc).2)
    (fun c hc => (braceFree_mem hb' hc).2) ['}'] ('}' :: s)]
  simp [List.isPrefixOf]

theorem containsSub_ph_same {b : List Char} (hb : braceFree b = true) (s : List Char) :
    containsSub (phText b ++ s) (phText b) = true := by
  apply containsSub_of_isPrefixOf
  exact (phText_isPrefixOf hb hb s).mpr rfl

theorem containsSub_ph_other {b b' : List Char} (hb : braceFree b = true)
    (hb' : braceFree b' = true) (hb'ne : b' ≠ []) (hne : b ≠ b') (s : List Char) :
    containsSub (phText b' ++ s) (phText b) = containsSub s (phText b) := by
  have hshape : phText b' ++ s = '{' :: '{' :: (b' ++ '}' :: '}' :: s) := by
    rw [phText_eq_cons]
    simp
  rw [hshape]
  have hpos0 : (phText b).isPrefixOf ('{' :: '{' :: (b' ++ '}' :: '}' :: s)) = false := by
    have := phText_isPrefixOf hb hb' s
    rw [phText_eq_cons b'] at this
    have hsh2 : ('{' :: '{' :: (b' ++ ['}', '}'])) ++ s = '{' :: '{' :: (b' ++ '}' :: '}' :: s) := by
      simp
    rw [hsh2] at this
    cases h : (phText b).isPrefixOf ('{' :: '{' :: (b' ++ '}' :: '}' :: s)) with
    | false => rfl
    | true => exact absurd (this.mp h) hne
  rw [containsSub_cons, hpos0, Bool.false_or]
  obtain ⟨c', t', rfl⟩ : ∃ c' t', b' = c' :: t' := by
    cases b' with
    | nil => exact absurd rfl hb'ne
    | cons c' t' => exact ⟨c', t', rfl⟩
  have hc' : c' ≠ '{' := (braceFree_mem hb' (List.mem_cons_self c' t')).1
  have hpos1 : (phText b).isPrefixOf ('{' :: ((c' :: t') ++ '}' :: '}' :: s)) = false := by
    rw [phText_eq_cons]
    cases h : ('{' :: '{' :: (b ++ ['}', '}'])).isPrefixOf
        ('{' :: ((c' :: t') ++ '}' :: '}' :: s)) with
    | false => rfl
    | true =>
      exfalso
      simp only [List.cons_append, List.isPrefixOf, Bool.and_eq_true, beq_iff_eq] at h
      exact hc' h.2.1.symm
  rw [containsSub_cons, hpos1, Bool.false_or]
  rw [phText_eq_cons]
  rw [containsSub_txt (fun d hd => (braceFree_mem hb' hd).1) _ _]
  rw [containsSub_skip (by decide) _ _, containsSub_skip (by decide) _ _]

theorem containsSub_render_ph :
    ∀ l : List Seg, segsOK l = true → ∀ {b : List Char}, braceFree b = true → b ≠ [] →
      (containsSub (render l) (phText b) = true ↔ b ∈ segBodies l) := by
  intro l
  induction l with
  | nil =>
    intro _ b hb hbne
    constructor
    · intro h
      rw [show render [] = [] from rfl] at h
      rw [show containsSub [] (phText b) = (phText b).isPrefixOf [] from rfl] at h
      rw [phText_eq_cons] at h
      simp [List.isPrefixOf] at h
    · intro h
      simp [segBodies] at h
  | cons sg l' ih =>
    intro h b hb hbne
    obtain ⟨h1, h2⟩ := segsOK_cons h
    cases sg with
    | txt t =>
      rw [render_cons]
      show containsSub (t ++ render l') (phText b) = true ↔ _
      rw [phText_eq_cons]
      rw [containsSub_txt (fun d hd => (braceFree_mem h1 hd).1) _ _]
      rw [← phText_eq_cons]
      rw [ih h2 hb hbne]
      simp [segBodies]
    | ph b' =>
      obtain ⟨hb'ne, hb'f⟩ := segOK_ph h1
      rw [render_cons]
      show containsSub (phText b' ++ render l') (phText b) = true ↔ _
      by_cases heq : b = b'
      · subst heq
        rw [containsSub_ph_same hb]
        simp [segBodies]
      · rw [containsSub_ph_other hb hb'f hb'ne heq]
        rw [ih h2 hb hbne]
        simp [segBodies, heq]

theorem containsBB_render_of_ph :
    ∀ l : List Seg, segsOK l = true → segBodies l ≠ [] → containsBB (render l) = true := by
  intro l
  induction l with
  | nil => intro _ h; exact absurd rfl h
  | cons sg l' ih =>
    intro h hne
    obtain ⟨h1, h2⟩ := segsOK_cons h
    cases sg with
    | txt t =>
      rw [render_cons]
      show containsBB (t ++ render l') = true
      unfold containsBB
      rw [show phOpen = '{' :: ['{'] from rfl]
      rw [containsSub_txt (fun d hd => (braceFree_mem h1 hd).1) _ _]
      rw [show ('{' :: ['{'] : List Char) = phOpen from rfl]
      exact ih h2 (by simpa [segBodies] using hne)
    | ph b' =>
      rw [render_cons]
      show containsBB (phText b' ++ render l') = true
      unfold containsBB
      apply containsSub_of_isPrefixOf
      rw [phText_eq_cons]
      simp [phOpen, List.isPrefixOf]

theorem braceFree_append {x y : List Char} :
    braceFree (x ++ y) = (braceFree x && braceFree y) := by
  simp [braceFree]

theorem braceFree_render_of_noPh :
    ∀ l : List Seg, segsOK l = true → segBodies l = [] → braceFree (render l) = true := by
  intro l
  induction l with
  | nil => intro _ _; rfl
  | cons sg l' ih =>
    intro h hne
    obtain ⟨h1, h2⟩ := segsOK_cons h
    cases sg with
    | txt t =>
      rw [render_cons]
      show braceFree (t ++ render l') = true
      have h1' : braceFree t = true := h1
      rw [braceFree_append, h1', ih h2 (by simpa [segBodies] using hne), Bool.and_self]
    | ph b' =>
      exact absurd hne (by simp [segBodies])

theorem containsBB_of_braceFree : ∀ {s : List Char}, braceFree s = true → containsBB s = false := by
  intro s
  induction s with
  | nil => intro _; rfl
  | cons c t ih =>
    intro h
    have hc : c ≠ '{' ∧ c ≠ '}' := braceFree_mem h (List.mem_cons_self c t)
    have ht : braceFree t = true := by
      simp [braceFree] at h ⊢
      exact fun d hd => h.2 d hd
    unfold containsBB
    rw [show phOpen = '{' :: ['{'] from rfl, containsSub_skip hc.1]
    exact ih ht

theorem replaceAllFuel_canon :
    ∀ fuel s pat rep, pat ≠ [] → s.length ≤ fuel →
      replaceAllFuel pat rep fuel s = replaceAllFuel pat rep s.length s := by
  intro fuel
  induction fuel using Nat.strong_induction_on with
  | _ fuel ih =>
    intro s pat rep hpne hlen
    match fuel, s with
    | 0, [] => rfl
    | 0, c :: t => exact absurd hlen (by simp)
    | fuel + 1, [] => rfl
    | fuel + 1, c :: t =>
      have hpl : 1 ≤ pat.length := by
        cases pat with
        | nil => exact absurd rfl hpne
        | cons p pt => simp
      show replaceAllFuel pat rep (fuel + 1) (c :: t) =
        replaceAllFuel pat rep (t.length + 1) (c :: t)
      have hlt : t.length + 1 ≤ fuel + 1 := by simpa using hlen
      by_cases hp : pat.isPrefixOf (c :: t) = true
      · simp only [replaceAllFuel, if_pos hp]
        have hdl : ((c :: t).drop pat.length).length ≤ t.length := by
          have h1 := List.length_drop pat.length (c :: t)
          have h2 : (c :: t).length = t.length + 1 := rfl
          omega
        rw [ih fuel (Nat.lt_succ_self _) _ pat rep hpne (by omega)]
        rw [ih t.length (by omega) _ pat rep hpne (by omega)]
      · simp only [replaceAllFuel, if_neg hp]
        rw [ih fuel (Nat.lt_succ_self _) t pat rep hpne (by omega)]

theorem replaceAllL_nil (pat rep : List Char) : replaceAllL [] pat rep = [] := by
  unfold replaceAllL
  split <;> rfl

theorem replaceAllL_fail_step {pat : List Char} {c : Char} {s : List Char}
    (hpne : pat ≠ []) (hp : pat.isPrefixOf (c :: s) = false) (rep : List Char) :
    replaceAllL (c :: s) pat rep = c :: replaceAllL s pat rep := by
  unfold replaceAllL
  rw [if_neg (by simpa [List.isEmpty_iff] using hpne),
    if_neg (by simpa [List.isEmpty_iff] using hpne)]
  show replaceAllFuel pat rep (s.length + 1) (c :: s) = _
  simp only [replaceAllFuel, hp, Bool.false_eq_true, if_false]

theorem replaceAllL_match_step {pat : List Char} (hpne : pat ≠ []) (s rep : List Char) :
    replaceAllL (pat ++ s) pat rep = rep ++ replaceAllL s pat rep := by
  have hpl : 1 ≤ pat.length := by
    cases pat with
    | nil => exact absurd rfl hpne
    | cons p pt => simp
  have hpre : pat.isPrefixOf (pat ++ s) = true :=
    List.isPrefixOf_iff_prefix.mpr (List.prefix_append pat s)
  unfold replaceAllL
  rw [if_neg (by simpa [List.isEmpty_iff] using hpne),
    if_neg (by simpa [List.isEmpty_iff] using hpne)]
  obtain ⟨c, t, hct⟩ : ∃ c t, pat ++ s = c :: t := by
    cases hps : pat ++ s with
    | nil =>
      cases pat with
      | nil => exact absurd rfl hpne
      | cons p pt => simp at hps
    | cons c t => exact ⟨c, t, rfl⟩
  rw [hct]
  have hpre' : pat.isPrefixOf (c :: t) = true := hct ▸ hpre
  have hlen : (pat ++ s).length = t.length + 1 := by rw [hct]; rfl
  show replaceAllFuel pat rep (t.length + 1) (c :: t) = _
  simp only [replaceAllFuel, hpre', if_true]
  have hdrop : (c :: t).drop pat.length = s := by
    rw [← hct]
    exact List.drop_left pat s
  rw [hdrop]
  congr 1
  have hsl : s.length ≤ t.length := by
    have : pat.length + s.length = t.length + 1 := by
      rw [← List.length_append, hlen]
    omega
  exact replaceAllFuel_canon t.length s pat rep hpne hsl

theorem replaceAllL_txt {x : List Char} (hx : ∀ c ∈ x, c ≠ '{') {pt : List Char}
    (s rep : List Char) :
    replaceAllL (x ++ s) ('{' :: pt) rep = x ++ replaceAllL s ('{' :: pt) rep := by
  induction x with
  | nil => rfl
  | cons c t ih =>
    rw [List.cons_append]
    rw [replaceAllL_fail_step (by simp) (by
      simp [List.isPrefixOf]
      intro h
      exact absurd h.symm (hx c (List.mem_cons_self c t))) rep]
    rw [ih fun d hd => hx d (List.mem_cons_of_mem c hd)]
    rfl

theorem replaceAllL_ph_other {b b' : List Char} (hb : braceFree b = true)
    (hb' : braceFree b' = true) (hb'ne : b' ≠ []) (hne : b ≠ b') (s rep : List Char) :
    replaceAllL (phText b' ++ s) (phText b) rep = phText b' ++ replaceAllL s (phText b) rep := by
  have hpne : phText b ≠ [] := by simp [phText, phOpen]
  have hshape : phText b' ++ s = '{' :: '{' :: (b' ++ '}' :: '}' :: s) := by
    rw [phText_eq_cons]
    simp
  rw [hshape]
  have hpos0 : (phText b).isPrefixOf ('{' :: '{' :: (b' ++ '}' :: '}' :: s)) = false := by
    have := phText_isPrefixOf hb hb' s
    rw [phText_eq_cons b'] at this
    have hsh2 : ('{' :: '{' :: (b' ++ ['}', '}'])) ++ s = '{' :: '{' :: (b' ++ '}' :: '}' :: s) := by
      simp
    rw [hsh2] at this
    cases h : (phText b).isPrefixOf ('{' :: '{' :: (b' ++ '}' :: '}' :: s)) with
    | false => rfl
    | true => exact absurd (this.mp h) hne
  rw [replaceAllL_fail_step hpne hpos0 rep]
  obtain ⟨c', t', rfl⟩ : ∃ c' t', b' = c' :: t' := by
    cases b' with
    | nil => exact absurd rfl hb'ne
    | cons c' t' => exact ⟨c', t', rfl⟩
  have hc' : c' ≠ '{' := (braceFree_mem hb' (List.mem_cons_self c' t')).1
  have hpos1 : (phText b).isPrefixOf ('{' :: ((c' :: t') ++ '}' :: '}' :: s)) = false := by
    rw [phText_eq_cons]
    cases h : ('{' :: '{' :: (b ++ ['}', '}'])).isPrefixOf
        ('{' :: ((c' :: t') ++ '}' :: '}' :: s)) with
    | false => rfl
    | true =>
      exfalso
      simp only [List.cons_append, List.isPrefixOf, Bool.and_eq_true, beq_iff_eq] at h
      exact hc' h.2.1.symm
  rw [replaceAllL_fail_step hpne hpos1 rep]
  rw [show phText b = '{' :: ('{' :: b ++ ['}', '}']) from by rw [phText_eq_cons]; rfl]
  rw [replaceAllL_txt (fun d hd => (braceFree_mem hb' hd).1) _ rep]
  rw [show ('{' : Char) :: ('{' :: b ++ ['}', '}']) = phText b from by rw [phText_eq_cons]; rfl]
  rw [replaceAllL_fail_step hpne
    (by rw [phText_eq_cons]; simp [List.isPrefixOf]) rep]
  rw [replaceAllL_fail_step hpne
    (by rw [phText_eq_cons]; simp [List.isPrefixOf]) rep]
  simp [phText_eq_cons]

theorem segsOK_replaceSegs {b rep : List Char} (hrep : braceFree rep = true) :
    ∀ l : List Seg, segsOK l = true → segsOK (replaceSegs b rep l) = true := by
  intro l
  induction l with
  | nil => intro _; rfl
  | cons sg l' ih =>
    intro h
    obtain ⟨h1, h2⟩ := segsOK_cons h
    have ih' := ih h2
    cases sg with
    | txt t =>
      have hred : replaceSegs b rep (Seg.txt t :: l') = Seg.txt t :: replaceSegs b rep l' := rfl
      rw [hred]
      show (segOK (Seg.txt t) && segsOK (replaceSegs b rep l')) = true
      rw [h1, ih']
      rfl
    | ph b' =>
      by_cases heq : b' = b
      · have hred : replaceSegs b rep (Seg.ph b' :: l') = Seg.txt rep :: replaceSegs b rep l' := by
          simp [replaceSegs, heq]
        rw [hred]
        show (segOK (Seg.txt rep) && segsOK (replaceSegs b rep l')) = true
        rw [show segOK (Seg.txt rep) = braceFree rep from rfl, hrep, ih']
        rfl
      · have hred : replaceSegs b rep (Seg.ph b' :: l') = Seg.ph b' :: replaceSegs b rep l' := by
          simp [replaceSegs, heq]
        rw [hred]
        show (segOK (Seg.ph b') && segsOK (replaceSegs b rep l')) = true
        rw [h1, ih']
        rfl

theorem segBodies_replaceSegs (b rep : List Char) :
    ∀ l : List Seg, segBodies (replaceSegs b rep l) = (segBodies l).filter (fun x => x ≠ b) := by
  intro l
  induction l with
  | nil => rfl
  | cons sg l' ih =>
    cases sg with
    | txt t => simpa [replaceSegs, segBodies] using ih
    | ph b' =>
      by_cases heq : b' = b
      · subst heq
        simpa [replaceSegs, segBodies] using ih
      · simp only [replaceSegs, segBodies, List.map_cons, List.filterMap_cons] at ih ⊢
        rw [if_neg heq]
        simpa [segBodies, List.filter_cons, heq, replaceSegs] using ih

theorem replaceAllL_render {b rep : List Char} (hb : braceFree b = true) (hbne : b ≠ [])
    (_hrep : braceFree rep = true) :
    ∀ l : List Seg, segsOK l = true →
      replaceAllL (render l) (phText b) rep = render (replaceSegs b rep l) := by
  intro l
  induction l with
  | nil => intro _; rw [show render [] = [] from rfl, replaceAllL_nil]; rfl
  | cons sg l' ih =>
    intro h
    obtain ⟨h1, h2⟩ := segsOK_cons h
    cases sg with
    | txt t =>
      rw [render_cons]
      show replaceAllL (t ++ render l') (phText b) rep = _
      rw [show phText b = '{' :: ('{' :: b ++ ['}', '}']) from by rw [phText_eq_cons]; rfl]
      rw [replaceAllL_txt (fun d hd => (braceFree_mem h1 hd).1) _ rep]
      rw [show ('{' : Char) :: ('{' :: b ++ ['}', '}']) = phText b from by rw [phText_eq_cons]; rfl]
      rw [ih h2]
      rfl
    | ph b' =>
      obtain ⟨hb'ne, hb'f⟩ := segOK_ph h1
      rw [render_cons]
      show replaceAllL (phText b' ++ render l') (phText b) rep = _
      by_cases heq : b' = b
      · subst heq
        rw [replaceAllL_match_step (by simp [phText, phOpen]) _ rep]
        rw [ih h2]
        simp [replaceSegs, render_cons, renderSeg]
      · rw [replaceAllL_ph_other hb hb'f hb'ne (fun hh => heq hh.symm) _ rep]
        rw [ih h2]
        simp [replaceSegs, render_cons, renderSeg, heq]

/-! Store lookup and update lemmas (C2). -/

theorem mem_insertSet_iff {y x : List Char} {l : List (List Char)} :
    y ∈ insertSet x l ↔ y = x ∨ y ∈ l := by
  unfold insertSet
  by_cases h : x ∈ l
  · rw [if_pos h]
    constructor
    · exact Or.inr
    · rintro (rfl | hy)
      · exact h
      · exact hy
  · rw [if_neg h]
    exact List.mem_cons

theorem mem_insertSet_self (x : List Char) (l : List (List Char)) : x ∈ insertSet x l :=
  mem_insertSet_iff.mpr (Or.inl rfl)

theorem mem_insertSet_of_mem {y x : List Char} {l : List (List Char)} (h : y ∈ l) :
    y ∈ insertSet x l :=
  mem_insertSet_iff.mpr (Or.inr h)

theorem insertSet_of_mem {x : List Char} {l : List (List Char)} (h : x ∈ l) :
    insertSet x l = l := by
  unfold insertSet
  exact if_pos h

theorem getEntry_setEntry_self (k : List Char) (v : Value) :
    ∀ t, getEntry k (setEntry k v t) = (getEntry k t).map fun _ => v := by
  intro t
  induction t using hasUnresolvedVariables.induct with
  | case1 => rfl
  | case2 k' s' rest ih =>
    by_cases h : k' = k
    · simp [getEntry, setEntry, h]
    · simp [getEntry, setEntry, h, ih]
  | case3 k' sub rest ih1 ih2 =>
    by_cases h : k' = k
    · simp [getEntry, setEntry, h]
    · simp [getEntry, setEntry, h, ih2]

theorem getEntry_setEntry_ne {k' k : List Char} (h : k' ≠ k) (v : Value) :
    ∀ t, getEntry k' (setEntry k v t) = getEntry k' t := by
  have h5 : k ≠ k' := fun hh => h hh.symm
  intro t
  induction t using hasUnresolvedVariables.induct with
  | case1 => rfl
  | case2 k'' s'' rest ih =>
    by_cases h2 : k'' = k
    · simp [getEntry, setEntry, h2, h5]
    · simp [getEntry, setEntry, h2, ih]
  | case3 k'' sub rest ih1 ih2 =>
    by_cases h2 : k'' = k
    · simp [getEntry, setEntry, h2, h5]
    · simp [getEntry, setEntry, h2, ih2]

theorem keysOf_setEntry (k : List Char) (v : Value) :
    ∀ t, keysOf (setEntry k v t) = keysOf t := by
  intro t
  induction t using hasUnresolvedVariables.induct with
  | case1 => rfl
  | case2 k' s' rest ih =>
    by_cases h : k' = k <;> simp [setEntry, keysOf, h, ih]
  | case3 k' sub rest ih1 ih2 =>
    by_cases h : k' = k <;> simp [setEntry, keysOf, h, ih2]

theorem getEntry_eq_none {k : List Char} : ∀ {t}, k ∉ keysOf t → getEntry k t = none := by
  intro t
  induction t using hasUnresolvedVariables.induct with
  | case1 => intro _; rfl
  | case2 k' s' rest ih =>
    intro h
    have h1 : k' ≠ k := fun hh => h (by simp [keysOf, hh])
    have h2 : k ∉ keysOf rest := fun hh => h (by simp [keysOf, hh])
    simp [getEntry, h1, ih h2]
  | case3 k' sub rest ih1 ih2 =>
    intro h
    have h1 : k' ≠ k := fun hh => h (by simp [keysOf, hh])
    have h2 : k ∉ keysOf rest := fun hh => h (by simp [keysOf, hh])
    simp [getEntry, h1, ih2 h2]

theorem wf_getEntry_str : ∀ {t : TomlTree} {k s}, WfTree t →
    getEntry k t = some (.str s) → WfStr s := by
  intro t
  induction t using hasUnresolvedVariables.induct with
  | case1 => intro k s _ h; exact absurd h (by simp [getEntry])
  | case2 k' s' rest ih =>
    intro k s hw hg
    simp only [getEntry] at hg
    simp only [WfTree] at hw
    by_cases h : k' = k
    · rw [if_pos h] at hg
      simp only [Option.some.injEq, Value.str.injEq] at hg
      rw [← hg]
      exact hw.2.2.2.1
    · rw [if_neg h] at hg
      exact ih hw.2.2.2.2 hg
  | case3 k' sub rest ih1 ih2 =>
    intro k s hw hg
    simp only [getEntry] at hg
    simp only [WfTree] at hw
    by_cases h : k' = k
    · rw [if_pos h] at hg
      simp at hg
    · rw [if_neg h] at hg
      exact ih2 hw.2.2.2.2 hg

theorem wf_getEntry_map : ∀ {t : TomlTree} {k sub}, WfTree t →
    getEntry k t = some (.map sub) → WfTree sub := by
  intro t
  induction t using hasUnresolvedVariables.induct with
  | case1 => intro k sub _ h; exact absurd h (by simp [getEntry])
  | case2 k' s' rest ih =>
    intro k sub hw hg
    simp only [getEntry] at hg
    simp only [WfTree] at hw
    by_cases h : k' = k
    · rw [if_pos h] at hg
      simp at hg
    · rw [if_neg h] at hg
      exact ih hw.2.2.2.2 hg
  | case3 k' sub' rest ih1 ih2 =>
    intro k sub hw hg
    simp only [getEntry] at hg
    simp only [WfTree] at hw
    by_cases h : k' = k
    · rw [if_pos h] at hg
      simp only [Option.some.injEq, Value.map.injEq] at hg
      rw [← hg]
      exact hw.2.2.2.1
    · rw [if_neg h] at hg
      exact ih2 hw.2.2.2.2 hg

theorem wf_entryLookup_str : ∀ (p : List (List Char)) {t : TomlTree} {s}, WfTree t →
    entryLookup t p = some (.str s) → WfStr s := by
  intro p
  induction p with
  | nil => intro t s _ h; exact absurd h (by simp [entryLookup])
  | cons k ps ih =>
    intro t s hw hg
    cases ps with
    | nil => exact wf_getEntry_str hw hg
    | cons r rs =>
      simp only [entryLookup] at hg
      cases hge : getEntry k t with
      | none => rw [hge] at hg; simp at hg
      | some v =>
        rw [hge] at hg
        cases v with
        | str s' => simp at hg
        | map sub => exact ih (wf_getEntry_map hw hge) hg

theorem lookupLeaf_eq_iff {q : List (List Char)} {t : TomlTree} {s : List Char} :
    lookupLeaf q t = some s ↔ entryLookup t q = some (.str s) := by
  unfold lookupLeaf
  cases h : entryLookup t q with
  | none => simp
  | some v => cases v with
    | str s' => simp
    | map sub => simp

theorem entryLookup_snoc_map : ∀ (p : List (List Char)) {t : TomlTree} {m : TomlTree},
    entryLookup t p = some (.map m) → ∀ k',
      entryLookup t (p ++ [k']) = getEntry k' m := by
  intro p
  induction p with
  | nil => intro t m h; exact absurd h (by simp [entryLookup])
  | cons k ps ih =>
    intro t m h k'
    cases ps with
    | nil =>
      simp only [entryLookup] at h
      show entryLookup t [k, k'] = _
      simp only [entryLookup, h]
    | cons r rs =>
      simp only [entryLookup] at h
      cases hge : getEntry k t with
      | none => rw [hge] at h; simp at h
      | some v =>
        rw [hge] at h
        cases v with
        | str s' => simp at h
        | map sub =>
          have := ih h k'
          show entryLookup t (k :: ((r :: rs) ++ [k'])) = _
          simp only [List.cons_append, entryLookup, hge]
          simpa using this

theorem entryLookup_setLeaf_self : ∀ (p : List (List Char)) {t : TomlTree} {s₀ : List Char}
    (v : List Char), entryLookup t p = some (.str s₀) →
      entryLookup (setLeaf p v t) p = some (.str v) := by
  intro p
  induction p with
  | nil => intro t s₀ v h; exact absurd h (by simp [entryLookup])
  | cons k ps ih =>
    intro t s₀ v h
    cases ps with
    | nil =>
      show entryLookup (setEntry k (.str v) t) [k] = _
      show getEntry k (setEntry k (.str v) t) = _
      rw [getEntry_setEntry_self]
      have h' : getEntry k t = some (.str s₀) := h
      rw [h']
      rfl
    | cons r rs =>
      simp only [entryLookup] at h
      cases hge : getEntry k t with
      | none => rw [hge] at h; simp at h
      | some vv =>
        rw [hge] at h
        cases vv with
        | str s' => simp at h
        | map sub =>
          show entryLookup (setLeaf (k :: r :: rs) v t) (k :: r :: rs) = _
          rw [show setLeaf (k :: r :: rs) v t =
              setEntry k (.map (setLeaf (r :: rs) v sub)) t from by
            simp only [setLeaf, hge]]
          simp only [entryLookup]
          rw [getEntry_setEntry_self, hge]
          exact ih v h

theorem lookupLeaf_setLeaf_ne : ∀ (p : List (List Char)) {t : TomlTree} {s₀ : List Char}
    (v : List Char) (q : List (List Char)), entryLookup t p = some (.str s₀) → q ≠ p →
      lookupLeaf q (setLeaf p v t) = lookupLeaf q t := by
  intro p
  induction p with
  | nil => intro t s₀ v q h _; exact absurd h (by simp [entryLookup])
  | cons k ps ih =>
    intro t s₀ v q h hne
    cases ps with
    | nil =>
      have h' : getEntry k t = some (.str s₀) := h
      show lookupLeaf q (setEntry k (.str v) t) = lookupLeaf q t
      cases q with
      | nil => rfl
      | cons k' qs =>
        by_cases hk : k' = k
        · subst hk
          cases qs with
          | nil => exact absurd rfl hne
          | cons q' qs' =>
            unfold lookupLeaf
            have hset : getEntry k' (setEntry k' (.str v) t) = some (.str v) := by
              rw [getEntry_setEntry_self, h']; rfl
            simp only [entryLookup, hset, h']
        · unfold lookupLeaf
          cases qs with
          | nil =>
            simp only [entryLookup]
            rw [getEntry_setEntry_ne hk]
          | cons q' qs' =>
            simp only [entryLookup]
            rw [getEntry_setEntry_ne hk]
    | cons r rs =>
      simp only [entryLookup] at h
      cases hge : getEntry k t with
      | none => rw [hge] at h; simp at h
      | some vv =>
        rw [hge] at h
        cases vv with
        | str s' => simp at h
        | map sub =>
          rw [show setLeaf (k :: r :: rs) v t =
              setEntry k (.map (setLeaf (r :: rs) v sub)) t from by
            simp only [setLeaf, hge]]
          cases q with
          | nil => rfl
          | cons k' qs =>
            by_cases hk : k' = k
            · subst hk
              have hset : getEntry k' (setEntry k' (.map (setLeaf (r :: rs) v sub)) t) =
                  some (.map (setLeaf (r :: rs) v sub)) := by
                rw [getEntry_setEntry_self, hge]; rfl
              cases qs with
              | nil =>
                unfold lookupLeaf
                simp only [entryLookup, hset, hge]
              | cons q' qs' =>
                have hq : (q' :: qs') ≠ (r :: rs) := fun hh => hne (by rw [hh])
                have := ih v (q' :: qs') h hq
                unfold lookupLeaf at this ⊢
                simp only [entryLookup, hset, hge]
                exact this
            · unfold lookupLeaf
              cases qs with
              | nil =>
                simp only [entryLookup]
                rw [getEntry_setEntry_ne hk]
              | cons q' qs' =>
                simp only [entryLookup]
                rw [getEntry_setEntry_ne hk]

theorem wf_setEntry_str {k : List Char} {v : List Char} (hv : WfStr v) :
    ∀ {t : TomlTree}, WfTree t → WfTree (setEntry k (.str v) t) := by
  intro t
  induction t using hasUnresolvedVariables.induct with
  | case1 => intro _; exact trivial
  | case2 k' s' rest ih =>
    intro hw
    simp only [WfTree] at hw
    by_cases h : k' = k
    · rw [setEntry, if_pos h]
      exact ⟨hw.1, hw.2.1, hw.2.2.1, hv, hw.2.2.2.2⟩
    · rw [setEntry, if_neg h]
      exact ⟨hw.1, hw.2.1, by rw [keysOf_setEntry]; exact hw.2.2.1, hw.2.2.2.1,
        ih hw.2.2.2.2⟩
  | case3 k' sub rest ih1 ih2 =>
    intro hw
    simp only [WfTree] at hw
    by_cases h : k' = k
    · rw [setEntry, if_pos h]
      exact ⟨hw.1, hw.2.1, hw.2.2.1, hv, hw.2.2.2.2⟩
    · rw [setEntry, if_neg h]
      exact ⟨hw.1, hw.2.1, by rw [keysOf_setEntry]; exact hw.2.2.1, hw.2.2.2.1,
        ih2 hw.2.2.2.2⟩

theorem wf_setEntry_map {k : List Char} {m : TomlTree} (hm : WfTree m) :
    ∀ {t : TomlTree}, WfTree t → WfTree (setEntry k (.map m) t) := by
  intro t
  induction t using hasUnresolvedVariables.induct with
  | case1 => intro _; exact trivial
  | case2 k' s' rest ih =>
    intro hw
    simp only [WfTree] at hw
    by_cases h : k' = k
    · rw [setEntry, if_pos h]
      exact ⟨hw.1, hw.2.1, hw.2.2.1, hm, hw.2.2.2.2⟩
    · rw [setEntry, if_neg h]
      exact ⟨hw.1, hw.2.1, by rw [keysOf_setEntry]; exact hw.2.2.1, hw.2.2.2.1,
        ih hw.2.2.2.2⟩
  | case3 k' sub rest ih1 ih2 =>
    intro hw
    simp only [WfTree] at hw
    by_cases h : k' = k
    · rw [setEntry, if_pos h]
      exact ⟨hw.1, hw.2.1, hw.2.2.1, hm, hw.2.2.2.2⟩
    · rw [setEntry, if_neg h]
      exact ⟨hw.1, hw.2.1, by rw [keysOf_setEntry]; exact hw.2.2.1, hw.2.2.2.1,
        ih2 hw.2.2.2.2⟩

theorem wf_setLeaf : ∀ (p : List (List Char)) {t : TomlTree} {s₀ v : List Char},
    WfTree t → entryLookup t p = some (.str s₀) → WfStr v → WfTree (setLeaf p v t) := by
  intro p
  induction p with
  | nil => intro t s₀ v _ h _; exact absurd h (by simp [entryLookup])
  | cons k ps ih =>
    intro t s₀ v hw h hv
    cases ps with
    | nil => exact wf_setEntry_str hv hw
    | cons r rs =>
      simp only [entryLookup] at h
      cases hge : getEntry k t with
      | none => rw [hge] at h; simp at h
      | some vv =>
        rw [hge] at h
        cases vv with
        | str s' => simp at h
        | map sub =>
          rw [show setLeaf (k :: r :: rs) v t =
              setEntry k (.map (setLeaf (r :: rs) v sub)) t from by
            simp only [setLeaf, hge]]
          exact wf_setEntry_map (ih (wf_getEntry_map hw hge) h hv) hw

theorem allBodies_of_getEntry_str : ∀ {t : TomlTree} {k s b}, getEntry k t = some (.str s) →
    b ∈ matchBodies s → b ∈ allBodies t := by
  intro t
  induction t using hasUnresolvedVariables.induct with
  | case1 => intro k s b h _; exact absurd h (by simp [getEntry])
  | case2 k' s' rest ih =>
    intro k s b hg hb
    simp only [getEntry] at hg
    by_cases h : k' = k
    · rw [if_pos h] at hg
      simp only [Option.some.injEq, Value.str.injEq] at hg
      subst hg
      exact List.mem_append.mpr (Or.inl hb)
    · rw [if_neg h] at hg
      exact List.mem_append.mpr (Or.inr (ih hg hb))
  | case3 k' sub rest ih1 ih2 =>
    intro k s b hg hb
    simp only [getEntry] at hg
    by_cases h : k' = k
    · rw [if_pos h] at hg
      simp at hg
    · rw [if_neg h] at hg
      exact List.mem_append.mpr (Or.inr (ih2 hg hb))

theorem allBodies_of_getEntry_map : ∀ {t : TomlTree} {k sub b},
    getEntry k t = some (.map sub) → b ∈ allBodies sub → b ∈ allBodies t := by
  intro t
  induction t using hasUnresolvedVariables.induct with
  | case1 => intro k sub b h _; exact absurd h (by simp [getEntry])
  | case2 k' s' rest ih =>
    intro k sub b hg hb
    simp only [getEntry] at hg
    by_cases h : k' = k
    · rw [if_pos h] at hg
      simp at hg
    · rw [if_neg h] at hg
      exact List.mem_append.mpr (Or.inr (ih hg hb))
  | case3 k' sub' rest ih1 ih2 =>
    intro k sub b hg hb
    simp only [getEntry] at hg
    by_cases h : k' = k
    · rw [if_pos h] at hg
      simp only [Option.some.injEq, Value.map.injEq] at hg
      subst hg
      exact List.mem_append.mpr (Or.inl hb)
    · rw [if_neg h] at hg
      exact List.mem_append.mpr (Or.inr (ih2 hg hb))

theorem allBodies_of_entryLookup : ∀ (p : List (List Char)) {t : TomlTree} {s b},
    entryLookup t p = some (.str s) → b ∈ matchBodies s → b ∈ allBodies t := by
  intro p
  induction p with
  | nil => intro t s b h _; exact absurd h (by simp [entryLookup])
  | cons k ps ih =>
    intro t s b h hb
    cases ps with
    | nil => exact allBodies_of_getEntry_str h hb
    | cons r rs =>
      simp only [entryLookup] at h
      cases hge : getEntry k t with
      | none => rw [hge] at h; simp at h
      | some vv =>
        rw [hge] at h
        cases vv with
        | str s' => simp at h
        | map sub => exact allBodies_of_getEntry_map hge (ih h hb)

theorem allBodies_setEntry_str : ∀ {t : TomlTree} {k v b},
    b ∈ allBodies (setEntry k (.str v) t) → b ∈ allBodies t ∨ b ∈ matchBodies v := by
  intro t
  induction t using hasUnresolvedVariables.induct with
  | case1 => intro k v b h; exact Or.inl h
  | case2 k' s' rest ih =>
    intro k v b h
    by_cases hk : k' = k
    · rw [setEntry, if_pos hk] at h
      rcases List.mem_append.mp h with h1 | h1
      · exact Or.inr h1
      · exact Or.inl (List.mem_append.mpr (Or.inr h1))
    · rw [setEntry, if_neg hk] at h
      rcases List.mem_append.mp h with h1 | h1
      · exact Or.inl (List.mem_append.mpr (Or.inl h1))
      · rcases ih h1 with h2 | h2
        · exact Or.inl (List.mem_append.mpr (Or.inr h2))
        · exact Or.inr h2
  | case3 k' sub rest ih1 ih2 =>
    intro k v b h
    by_cases hk : k' = k
    · rw [setEntry, if_pos hk] at h
      rcases List.mem_append.mp h with h1 | h1
      · exact Or.inr h1
      · exact Or.inl (List.mem_append.mpr (Or.inr h1))
    · rw [setEntry, if_neg hk] at h
      rcases List.mem_append.mp h with h1 | h1
      · exact Or.inl (List.mem_append.mpr (Or.inl h1))
      · rcases ih2 h1 with h2 | h2
        · exact Or.inl (List.mem_append.mpr (Or.inr h2))
        · exact Or.inr h2

theorem allBodies_setEntry_map : ∀ {t : TomlTree} {k m b},
    b ∈ allBodies (setEntry k (.map m) t) → b ∈ allBodies t ∨ b ∈ allBodies m := by
  intro t
  induction t using hasUnresolvedVariables.induct with
  | case1 => intro k m b h; exact Or.inl h
  | case2 k' s' rest ih =>
    intro k m b h
    by_cases hk : k' = k
    · rw [setEntry, if_pos hk] at h
      rcases List.mem_append.mp h with h1 | h1
      · exact Or.inr h1
      · exact Or.inl (List.mem_append.mpr (Or.inr h1))
    · rw [setEntry, if_neg hk] at h
      rcases List.mem_append.mp h with h1 | h1
      · exact Or.inl (List.mem_append.mpr (Or.inl h1))
      · rcases ih h1 with h2 | h2
        · exact Or.inl (List.mem_append.mpr (Or.inr h2))
        · exact Or.inr h2
  | case3 k' sub rest ih1 ih2 =>
    intro k m b h
    by_cases hk : k' = k
    · rw [setEntry, if_pos hk] at h
      rcases List.mem_append.mp h with h1 | h1
      · exact Or.inr h1
      · exact Or.inl (List.mem_append.mpr (Or.inr h1))
    · rw [setEntry, if_neg hk] at h
      rcases List.mem_append.mp h with h1 | h1
      · exact Or.inl (List.mem_append.mpr (Or.inl h1))
      · rcases ih2 h1 with h2 | h2
        · exact Or.inl (List.mem_append.mpr (Or.inr h2))
        · exact Or.inr h2

theorem allBodies_setLeaf : ∀ (p : List (List Char)) {t : TomlTree} {v b},
    b ∈ allBodies (setLeaf p v t) → b ∈ allBodies t ∨ b ∈ matchBodies v := by
  intro p
  induction p with
  | nil => intro t v b h; exact Or.inl h
  | cons k ps ih =>
    intro t v b h
    cases ps with
    | nil => exact allBodies_setEntry_str h
    | cons r rs =>
      cases hge : getEntry k t with
      | none =>
        rw [show setLeaf (k :: r :: rs) v t = t from by simp only [setLeaf, hge]] at h
        exact Or.inl h
      | some vv =>
        cases vv with
        | str s' =>
          rw [show setLeaf (k :: r :: rs) v t = t from by simp only [setLeaf, hge]] at h
          exact Or.inl h
        | map sub =>
          rw [show setLeaf (k :: r :: rs) v t =
              setEntry k (.map (setLeaf (r :: rs) v sub)) t from by
            simp only [setLeaf, hge]] at h
          rcases allBodies_setEntry_map h with h1 | h1
          · exact Or.inl h1
          · rcases ih h1 with h2 | h2
            · exact Or.inl (allBodies_of_getEntry_map hge h2)
            · exact Or.inr h2

theorem hasUnres_of_getEntry_str : ∀ {t : TomlTree} {k s},
    getEntry k t = some (.str s) → containsBB s = true → hasUnresolvedVariables t = true := by
  intro t
  induction t using hasUnresolvedVariables.induct with
  | case1 => intro k s h _; exact absurd h (by simp [getEntry])
  | case2 k' s' rest ih =>
    intro k s hg hs
    simp only [getEntry] at hg
    by_cases h : k' = k
    · rw [if_pos h] at hg
      simp only [Option.some.injEq, Value.str.injEq] at hg
      subst hg
      simp [hasUnresolvedVariables, hs]
    · rw [if_neg h] at hg
      simp [hasUnresolvedVariables, ih hg hs]
  | case3 k' sub rest ih1 ih2 =>
    intro k s hg hs
    simp only [getEntry] at hg
    by_cases h : k' = k
    · rw [if_pos h] at hg
      simp at hg
    · rw [if_neg h] at hg
      simp [hasUnresolvedVariables, ih2 hg hs]

theorem hasUnres_of_getEntry_map : ∀ {t : TomlTree} {k sub},
    getEntry k t = some (.map sub) → hasUnresolvedVariables sub = true →
      hasUnresolvedVariables t = true := by
  intro t
  induction t using hasUnresolvedVariables.induct with
  | case1 => intro k sub h _; exact absurd h (by simp [getEntry])
  | case2 k' s' rest ih =>
    intro k sub hg hs
    simp only [getEntry] at hg
    by_cases h : k' = k
    · rw [if_pos h] at hg
      simp at hg
    · rw [if_neg h] at hg
      simp [hasUnresolvedVariables, ih hg hs]
  | case3 k' sub' rest ih1 ih2 =>
    intro k sub hg hs
    simp only [getEntry] at hg
    by_cases h : k' = k
    · rw [if_pos h] at hg
      simp only [Option.some.injEq, Value.map.injEq] at hg
      subst hg
      simp [hasUnresolvedVariables, hs]
    · rw [if_neg h] at hg
      simp [hasUnresolvedVariables, ih2 hg hs]

theorem hasUnres_of_entryLookup : ∀ (p : List (List Char)) {t : TomlTree} {s},
    entryLookup t p = some (.str s) → containsBB s = true →
      hasUnresolvedVariables t = true := by
  intro p
  induction p with
  | nil => intro t s h _; exact absurd h (by simp [entryLookup])
  | cons k ps ih =>
    intro t s h hs
    cases ps with
    | nil => exact hasUnres_of_getEntry_str h hs
    | cons r rs =>
      simp only [entryLookup] at h
      cases hge : getEntry k t with
      | none => rw [hge] at h; simp at h
      | some vv =>
        rw [hge] at h
        cases vv with
        | str s' => simp at h
        | map sub => exact hasUnres_of_getEntry_map hge (ih h hs)

theorem descendParts_of_entryLookup : ∀ (p : List (List Char)) {t : TomlTree} {s},
    entryLookup t p = some (.str s) → descendParts p t = some s := by
  intro p
  induction p with
  | nil => intro t s h; exact absurd h (by simp [entryLookup])
  | cons k ps ih =>
    intro t s h
    cases ps with
    | nil =>
      have h' : getEntry k t = some (.str s) := h
      show descendParts [k] t = some s
      simp only [descendParts, h']
      rfl
    | cons r rs =>
      simp only [entryLookup] at h
      cases hge : getEntry k t with
      | none => rw [hge] at h; simp at h
      | some vv =>
        rw [hge] at h
        cases vv with
        | str s' => simp at h
        | map sub =>
          show descendParts (k :: r :: rs) t = some s
          simp only [descendParts, hge]
          exact ih h

theorem containsSub_mono : ∀ {s p1 p2 : List Char}, p2 <+: p1 → containsSub s p1 = true →
    containsSub s p2 = true := by
  intro s
  induction s with
  | nil =>
    intro p1 p2 hp h
    have h1 : p1 = [] := by
      cases p1 with
      | nil => rfl
      | cons c t => simp [containsSub, List.isPrefixOf] at h
    subst h1
    have h2 : p2 = [] := List.prefix_nil.mp hp
    subst h2
    rfl
  | cons c t ih =>
    intro p1 p2 hp h
    rw [containsSub_cons] at h ⊢
    rcases (Bool.or_eq_true _ _).mp h with h1 | h1
    · have h2 : p2 <+: (c :: t) := hp.trans (List.isPrefixOf_iff_prefix.mp h1)
      rw [List.isPrefixOf_iff_prefix.mpr h2]
      rfl
    · rw [ih hp h1]
      simp

theorem containsBB_of_phText {s y : List Char} (h : containsSub s (phText y) = true) :
    containsBB s = true := by
  have hp : phOpen <+: phText y := ⟨y ++ phClose, by simp [phText]⟩
  exact containsSub_mono hp h

theorem agrees_tail_str {root : TomlTree} {path : List (List Char)} {k s rest}
    (h : AgreesUnder root path (.node k (.str s) rest)) :
    lookupLeaf (path ++ [k]) root = some s ∧ AgreesUnder root path rest := by
  simpa only [AgreesUnder] using h

theorem agrees_tail_map {root : TomlTree} {path : List (List Char)} {k sub rest}
    (h : AgreesUnder root path (.node k (.map sub) rest)) :
    AgreesUnder root (path ++ [k]) sub ∧ AgreesUnder root path rest := by
  simpa only [AgreesUnder] using h

theorem agrees_frame : ∀ (sh : TomlTree) (root root' : TomlTree) (path : List (List Char)),
    AgreesUnder root path sh →
    (∀ q, (∃ k, k ∈ keysOf sh ∧ (path ++ [k]) <+: q) → lookupLeaf q root' = lookupLeaf q root) →
    AgreesUnder root' path sh := by
  intro sh
  induction sh using hasUnresolvedVariables.induct with
  | case1 => intro root root' path _ _; exact trivial
  | case2 k s rest ih =>
    intro root root' path h hf
    simp only [AgreesUnder] at h ⊢
    constructor
    · rw [hf (path ++ [k]) ⟨k, by simp [keysOf], List.prefix_refl _⟩]
      exact h.1
    · apply ih root root' path h.2
      intro q hq
      obtain ⟨k', hk', hp⟩ := hq
      exact hf q ⟨k', by simp [keysOf]; exact Or.inr hk', hp⟩
  | case3 k sub rest ih1 ih2 =>
    intro root root' path h hf
    simp only [AgreesUnder] at h ⊢
    constructor
    · apply ih1 root root' (path ++ [k]) h.1
      intro q hq
      obtain ⟨k', hk', hp⟩ := hq
      refine hf q ⟨k, by simp [keysOf], ?_⟩
      exact ((path ++ [k]).prefix_append [k']).trans hp
    · apply ih2 root root' path h.2
      intro q hq
      obtain ⟨k', hk', hp⟩ := hq
      exact hf q ⟨k', by simp [keysOf]; exact Or.inr hk', hp⟩

theorem agrees_self : ∀ (sh : TomlTree) (root : TomlTree) (path : List (List Char)),
    WfTree sh →
    (∀ k v, getEntry k sh = some v → entryLookup root (path ++ [k]) = some v) →
    AgreesUnder root path sh := by
  intro sh
  induction sh using hasUnresolvedVariables.induct with
  | case1 => intro root path _ _; exact trivial
  | case2 k s rest ih =>
    intro root path hw hH
    simp only [WfTree] at hw
    simp only [AgreesUnder]
    constructor
    · exact lookupLeaf_eq_iff.mpr (hH k (.str s) (by simp [getEntry]))
    · apply ih root path hw.2.2.2.2
      intro k' v' hg
      have hne : k ≠ k' := by
        intro hh
        rw [← hh] at hg
        rw [getEntry_eq_none hw.2.2.1] at hg
        exact Option.noConfusion hg
      apply hH k' v'
      show getEntry k' (.node k (.str s) rest) = some v'
      simp only [getEntry]
      rw [if_neg hne]
      exact hg
  | case3 k sub rest ih1 ih2 =>
    intro root path hw hH
    simp only [WfTree] at hw
    simp only [AgreesUnder]
    have hmap : entryLookup root (path ++ [k]) = some (.map sub) :=
      hH k (.map sub) (by simp [getEntry])
    constructor
    · apply ih1 root (path ++ [k]) hw.2.2.2.1
      intro k' v' hg
      rw [entryLookup_snoc_map (path ++ [k]) hmap k']
      exact hg
    · apply ih2 root path hw.2.2.2.2
      intro k' v' hg
      have hne : k ≠ k' := by
        intro hh
        rw [← hh] at hg
        rw [getEntry_eq_none hw.2.2.1] at hg
        exact Option.noConfusion hg
      apply hH k' v'
      show getEntry k' (.node k (.map sub) rest) = some v'
      simp only [getEntry]
      rw [if_neg hne]
      exact hg

theorem agrees_top {root : TomlTree} (hw : WfTree root) : AgreesUnder root [] root := by
  apply agrees_self root root [] hw
  intro k v hg
  show entryLookup root ([] ++ [k]) = some v
  rw [List.nil_append]
  exact hg

theorem joinDot_splitDot : ∀ s : List Char, joinDot (splitDot s) = s := by
  intro s
  induction s with
  | nil => rfl
  | cons c t ih =>
    by_cases hc : c = '.'
    · subst hc
      rw [show splitDot ('.' :: t) = [] :: splitDot t from rfl]
      cases hsp : splitDot t with
      | nil => exact absurd hsp (splitDot_ne_nil t)
      | cons h' r =>
        rw [hsp] at ih
        show [] ++ '.' :: joinDot (h' :: r) = '.' :: t
        rw [ih]
        rfl
    · rw [splitDot_cons_ne hc]
      cases hsp : splitDot t with
      | nil => exact absurd hsp (splitDot_ne_nil t)
      | cons h' r =>
        rw [hsp] at ih
        show joinDot ((c :: h') :: r) = c :: t
        cases r with
        | nil =>
          show (c :: h' : List Char) = c :: t
          have h2 : h' = t := ih
          rw [h2]
        | cons r0 rs =>
          show (c :: h') ++ '.' :: joinDot (r0 :: rs) = c :: t
          have h2 : h' ++ '.' :: joinDot (r0 :: rs) = t := ih
          rw [List.cons_append, h2]

theorem preJoin_cons {pre : List Char} {k : List Char} (hk : k ≠ []) {ks : List (List Char)}
    (hks : ks ≠ []) :
    preJoin pre (k :: ks) = preJoin (if pre.isEmpty then k else pre ++ '.' :: k) ks := by
  obtain ⟨q, qs, rfl⟩ : ∃ q qs, ks = q :: qs := by
    cases ks with
    | nil => exact absurd rfl hks
    | cons q qs => exact ⟨q, qs, rfl⟩
  cases pre with
  | nil =>
    show joinDot (k :: q :: qs) = preJoin k (q :: qs)
    have hke : k.isEmpty = false := by
      cases k with
      | nil => exact absurd rfl hk
      | cons a b => rfl
    show k ++ '.' :: joinDot (q :: qs) = preJoin k (q :: qs)
    unfold preJoin
    rw [hke]
    rfl
  | cons c cs' =>
    show (c :: cs') ++ '.' :: joinDot (k :: q :: qs) = preJoin ((c :: cs') ++ '.' :: k) (q :: qs)
    unfold preJoin
    rw [show ((c :: cs') ++ '.' :: k).isEmpty = false from rfl]
    show (c :: cs') ++ '.' :: (k ++ '.' :: joinDot (q :: qs)) =
      ((c :: cs') ++ '.' :: k) ++ '.' :: joinDot (q :: qs)
    simp

theorem matchBodies_render {l : List Seg} (h : segsOK l = true) :
    matchBodies (render l) = segBodies l := by
  unfold matchBodies
  rw [findVariableMatches_render l h]
  rw [List.map_map]
  have h2 : (Prod.snd ∘ fun b : List Char => (phText b, b)) = fun b => b := rfl
  rw [h2]
  exact List.map_id' (segBodies l)

theorem foldReplace_cons_eq (root : TomlTree) (b : List Char) (bs : List (List Char))
    (l : List Seg) :
    foldReplace root (b :: bs) l =
      match resolveVariablePath b root with
      | none => foldReplace root bs l
      | some v => if containsBB v then foldReplace root bs l
          else foldReplace root bs (replaceSegs b v l) := rfl

theorem foldReplace_cons_none {root : TomlTree} {b : List Char} {bs : List (List Char)}
    {l : List Seg} (hr : resolveVariablePath b root = none) :
    foldReplace root (b :: bs) l = foldReplace root bs l := by
  rw [foldReplace_cons_eq, hr]

theorem foldReplace_cons_defer {root : TomlTree} {b v : List Char} {bs : List (List Char)}
    {l : List Seg} (hr : resolveVariablePath b root = some v) (hbb : containsBB v = true) :
    foldReplace root (b :: bs) l = foldReplace root bs l := by
  rw [foldReplace_cons_eq, hr]
  show (if containsBB v = true then foldReplace root bs l
    else foldReplace root bs (replaceSegs b v l)) = foldReplace root bs l
  rw [if_pos hbb]

theorem foldReplace_cons_subst {root : TomlTree} {b v : List Char} {bs : List (List Char)}
    {l : List Seg} (hr : resolveVariablePath b root = some v) (hbb : containsBB v = false) :
    foldReplace root (b :: bs) l = foldReplace root bs (replaceSegs b v l) := by
  rw [foldReplace_cons_eq, hr]
  show (if containsBB v = true then foldReplace root bs l
    else foldReplace root bs (replaceSegs b v l)) = foldReplace root bs (replaceSegs b v l)
  rw [if_neg (by rw [hbb]; exact Bool.false_ne_true)]

theorem segBodies_mem {l : List Seg} {b : List Char} (hb : b ∈ segBodies l) :
    Seg.ph b ∈ l := by
  unfold segBodies at hb
  rcases List.mem_filterMap.mp hb with ⟨sg, hsg, hmatch⟩
  cases sg with
  | txt t => simp at hmatch
  | ph b' =>
    simp only [Option.some.injEq] at hmatch
    rw [← hmatch]
    exact hsg

theorem segBodies_ok {l : List Seg} (h : segsOK l = true) {b : List Char}
    (hb : b ∈ segBodies l) : b ≠ [] ∧ braceFree b = true := by
  have h1 : Seg.ph b ∈ l := segBodies_mem hb
  have h2 : segOK (Seg.ph b) = true := List.all_eq_true.mp h _ h1
  exact segOK_ph h2

theorem foldReplace_segsOK (root : TomlTree) : ∀ (bs : List (List Char)) {l : List Seg},
    segsOK l = true →
    (∀ b ∈ bs, ∀ v, resolveVariablePath b root = some v → containsBB v = false →
      braceFree v = true) →
    segsOK (foldReplace root bs l) = true := by
  intro bs
  induction bs with
  | nil => intro l h _; exact h
  | cons b bs' ih =>
    intro l h hv
    have hv' : ∀ b' ∈ bs', ∀ v, resolveVariablePath b' root = some v → containsBB v = false →
        braceFree v = true := fun b' hb' => hv b' (List.mem_cons_of_mem b hb')
    show segsOK (foldReplace root (b :: bs') l) = true
    cases hr : resolveVariablePath b root with
    | none =>
      rw [foldReplace_cons_none hr]
      exact ih h hv'
    | some v =>
      by_cases hbb : containsBB v = true
      · rw [foldReplace_cons_defer hr hbb]
        exact ih h hv'
      · have hbb' : containsBB v = false := by simpa using hbb
        rw [foldReplace_cons_subst hr hbb']
        have hvf : braceFree v = true := hv b (List.mem_cons_self b bs') v hr hbb'
        exact ih (segsOK_replaceSegs hvf l h) hv'

theorem foldReplace_bodies (root : TomlTree) : ∀ (bs : List (List Char)) {l : List Seg}
    {b : List Char}, b ∈ segBodies (foldReplace root bs l) → b ∈ segBodies l := by
  intro bs
  induction bs with
  | nil => intro l b h; exact h
  | cons b0 bs' ih =>
    intro l b h
    show b ∈ segBodies l
    cases hr : resolveVariablePath b0 root with
    | none =>
      rw [foldReplace_cons_none hr] at h
      exact ih h
    | some v =>
      by_cases hbb : containsBB v = true
      · rw [foldReplace_cons_defer hr hbb] at h
        exact ih h
      · rw [foldReplace_cons_subst hr (by simpa using hbb)] at h
        have h1 := ih h
        rw [segBodies_replaceSegs] at h1
        exact (List.mem_filter.mp h1).1

theorem foldReplace_keeps (root : TomlTree) : ∀ (bs : List (List Char)) {l : List Seg}
    {y vy : List Char}, resolveVariablePath y root = some vy → containsBB vy = true →
      y ∈ segBodies l → y ∈ segBodies (foldReplace root bs l) := by
  intro bs
  induction bs with
  | nil => intro l y vy _ _ h; exact h
  | cons b bs' ih =>
    intro l y vy hy hvy h
    show y ∈ segBodies (foldReplace root (b :: bs') l)
    cases hr : resolveVariablePath b root with
    | none =>
      rw [foldReplace_cons_none hr]
      exact ih hy hvy h
    | some v =>
      by_cases hbb : containsBB v = true
      · rw [foldReplace_cons_defer hr hbb]
        exact ih hy hvy h
      · rw [foldReplace_cons_subst hr (by simpa using hbb)]
        have hne : y ≠ b := by
          intro hh
          subst hh
          rw [hy] at hr
          injection hr with hr'
          rw [← hr'] at hbb
          exact hbb hvy
        apply ih hy hvy
        rw [segBodies_replaceSegs]
        exact List.mem_filter.mpr ⟨h, by simp [hne]⟩

theorem resolveStringLoop_render (root : TomlTree) :
    ∀ (bs : List (List Char)) (l : List Seg) (flag : Bool),
      segsOK l = true →
      (∀ b ∈ bs, b ≠ [] ∧ braceFree b = true) →
      (∀ b ∈ bs, ∃ v, resolveVariablePath b root = some v ∧
        (containsBB v = false → braceFree v = true)) →
      resolveStringLoop root (bs.map fun b => (phText b, b)) (render l) flag =
        .ok (render (foldReplace root bs l), flag || !bs.isEmpty) := by
  intro bs
  induction bs with
  | nil =>
    intro l flag h _ _
    show resolveStringLoop root [] (render l) flag = _
    simp [resolveStringLoop, foldReplace]
  | cons b bs' ih =>
    intro l flag h hok hres
    obtain ⟨v, hv, hvb⟩ := hres b (List.mem_cons_self b bs')
    have hok' : ∀ b' ∈ bs', b' ≠ [] ∧ braceFree b' = true :=
      fun b' hb' => hok b' (List.mem_cons_of_mem b hb')
    have hres' : ∀ b' ∈ bs', ∃ v', resolveVariablePath b' root = some v' ∧
        (containsBB v' = false → braceFree v' = true) :=
      fun b' hb' => hres b' (List.mem_cons_of_mem b hb')
    show resolveStringLoop root ((phText b, b) :: bs'.map fun b' => (phText b', b'))
        (render l) flag = _
    simp only [resolveStringLoop, hv]
    by_cases hbb : containsBB v = true
    · rw [if_pos hbb]
      rw [ih l true h hok' hres', foldReplace_cons_defer hv hbb]
      simp
    · rw [if_neg hbb]
      have hbb' : containsBB v = false := by simpa using hbb
      obtain ⟨hbne, hbf⟩ := hok b (List.mem_cons_self b bs')
      have hvf : braceFree v = true := hvb hbb'
      rw [replaceAllL_render hbf hbne hvf l h]
      rw [ih (replaceSegs b v l) true (segsOK_replaceSegs hvf l h) hok' hres',
        foldReplace_cons_subst hv hbb']
      simp

theorem resolveStringVariables_render {root : TomlTree} {l : List Seg}
    (h : segsOK l = true)
    (hres : ∀ b ∈ segBodies l, ∃ v, resolveVariablePath b root = some v ∧
      (containsBB v = false → braceFree v = true)) :
    resolveStringVariables (render l) root =
      .ok (render (foldReplace root (segBodies l) l), !(segBodies l).isEmpty) := by
  unfold resolveStringVariables
  rw [findVariableMatches_render l h]
  rw [resolveStringLoop_render root (segBodies l) l false h
    (fun b hb => segBodies_ok h hb) hres]
  simp

theorem chain_succ_aux : ∀ (rest : List (List Char)) (t : TomlTree) (y c : List Char),
    ChainAt t (rest ++ [c]) → y ∈ rest → ∃ z, z ∈ rest ++ [c] ∧ EdgeAt t y z := by
  intro rest
  induction rest with
  | nil => intro t y c _ hy; simp at hy
  | cons x rest' ih =>
    intro t y c h hy
    rw [List.cons_append] at h
    cases hrest : rest' with
    | nil =>
      subst hrest
      have h' : EdgeAt t x c ∧ ChainAt t [c] := by simpa only [ChainAt] using h
      have hyx : y = x := by simpa using hy
      subst hyx
      exact ⟨c, by simp, h'.1⟩
    | cons x2 rest'' =>
      subst hrest
      rw [List.cons_append] at h
      have h' : EdgeAt t x x2 ∧ ChainAt t (x2 :: (rest'' ++ [c])) := by
        simpa only [ChainAt] using h
      rcases List.mem_cons.mp hy with rfl | hy'
      · exact ⟨x2, by simp, h'.1⟩
      · have h'' : ChainAt t ((x2 :: rest'') ++ [c]) := by
          rw [List.cons_append]; exact h'.2
        obtain ⟨z, hz, he⟩ := ih t y c h'' hy'
        exact ⟨z, by simpa using Or.inr (by simpa using hz), he⟩

theorem mem_closed {z c : List Char} {mid : List (List Char)}
    (h : z ∈ (c :: mid) ++ [c]) : z ∈ c :: mid := by
  rcases List.mem_append.mp h with h1 | h1
  · exact h1
  · simp at h1
    simp [h1]

theorem chain_succ_closed {t : TomlTree} {c : List Char} {mid : List (List Char)}
    (h : ChainAt t ((c :: mid) ++ [c])) :
    ∀ y ∈ c :: mid, ∃ z ∈ c :: mid, EdgeAt t y z := by
  intro y hy
  obtain ⟨z, hz, he⟩ := chain_succ_aux (c :: mid) t y c h hy
  exact ⟨z, mem_closed hz, he⟩

theorem chain_nodes_BB {t : TomlTree} {c : List Char} {mid : List (List Char)}
    (h : ChainAt t ((c :: mid) ++ [c])) :
    ∀ y ∈ c :: mid, ∃ s, lookupLeaf (splitDot y) t = some s ∧ containsBB s = true := by
  intro y hy
  obtain ⟨z, _, s, hs, hc⟩ := chain_succ_closed h y hy
  exact ⟨s, hs, containsBB_of_phText hc⟩

theorem chainAt_pres : ∀ (ch : List (List Char)) {t t' : TomlTree},
    (∀ x y, y ∈ ch → EdgeAt t x y → EdgeAt t' x y) → ChainAt t ch → ChainAt t' ch := by
  intro ch
  induction ch with
  | nil => intro t t' _ _; exact trivial
  | cons x rest ih =>
    intro t t' hp h
    cases rest with
    | nil => exact trivial
    | cons y rest2 =>
      have h' : EdgeAt t x y ∧ ChainAt t (y :: rest2) := by simpa only [ChainAt] using h
      show ChainAt t' (x :: y :: rest2)
      simp only [ChainAt]
      exact ⟨hp x y (by simp) h'.1,
        ih (fun a b hb => hp a b (List.mem_cons_of_mem x hb)) h'.2⟩

theorem prefix_snoc_ne {path : List (List Char)} {k k' : List Char} {q : List (List Char)}
    (hne : k' ≠ k) (h1 : (path ++ [k]) <+: q) : ¬ (path ++ [k']) <+: q := by
  intro h2
  rcases List.prefix_or_prefix_of_prefix h1 h2 with h3 | h3
  · have h4 := h3.eq_of_length (by simp)
    have h5 : [k] = [k'] := List.append_cancel_left h4
    exact hne (by simpa using h5.symm)
  · have h4 := h3.eq_of_length (by simp)
    have h5 : [k'] = [k] := List.append_cancel_left h4
    exact hne (by simpa using h5)

theorem targets_ok {root : TomlTree} (hwf : WfTree root) (htg : AllLeafTargets root)
    {p : List (List Char)} {s : List Char} (hleaf : entryLookup root p = some (.str s)) :
    ∀ b ∈ matchBodies s, ∃ v, resolveVariablePath b root = some v ∧
      (containsBB v = false → braceFree v = true) := by
  intro b hb
  have hmem : b ∈ allBodies root := allBodies_of_entryLookup p hleaf hb
  obtain ⟨sb, hsb⟩ := htg b hmem
  have hel : entryLookup root (splitDot b) = some (.str sb) := lookupLeaf_eq_iff.mp hsb
  refine ⟨sb, ?_, ?_⟩
  · show descendParts (splitDot b) root = some sb
    exact descendParts_of_entryLookup (splitDot b) hel
  · intro hbb
    obtain ⟨lb, hlbOK, hrender⟩ := wf_entryLookup_str (splitDot b) hwf hel
    subst hrender
    by_cases hsegs : segBodies lb = []
    · exact braceFree_render_of_noPh lb hlbOK hsegs
    · rw [containsBB_render_of_ph lb hlbOK hsegs] at hbb
      exact absurd hbb (by simp)

theorem hres_to_hv {root : TomlTree} {bs : List (List Char)}
    (hres : ∀ b ∈ bs, ∃ v, resolveVariablePath b root = some v ∧
      (containsBB v = false → braceFree v = true)) :
    ∀ b ∈ bs, ∀ v, resolveVariablePath b root = some v → containsBB v = false →
      braceFree v = true := by
  intro b hb v hv hbb
  obtain ⟨v₀, hv₀, hp⟩ := hres b hb
  rw [hv] at hv₀
  injection hv₀ with he
  rw [he]
  rw [he] at hbb
  exact hp hbb

theorem cycInv_after_set {c : List Char} {mid : List (List Char)} {root : TomlTree}
    {p : List (List Char)} {l : List Seg}
    (hwf : WfTree root) (htg : AllLeafTargets root) (hch : ChainAt root ((c :: mid) ++ [c]))
    (hbOK : ∀ y ∈ c :: mid, y ≠ [] ∧ braceFree y = true)
    (hleaf : entryLookup root p = some (.str (render l)))
    (hOK : segsOK l = true) :
    CycInv ((c :: mid) ++ [c])
      (setLeaf p (render (foldReplace root (segBodies l) l)) root) := by
  have hres0 := targets_ok hwf htg hleaf
  have hres : ∀ b ∈ segBodies l, ∃ v, resolveVariablePath b root = some v ∧
      (containsBB v = false → braceFree v = true) := by
    rw [matchBodies_render hOK] at hres0
    exact hres0
  have hl'OK : segsOK (foldReplace root (segBodies l) l) = true :=
    foldReplace_segsOK root (segBodies l) hOK (hres_to_hv hres)
  refine ⟨?_, ?_, ?_⟩
  · exact wf_setLeaf p hwf hleaf ⟨foldReplace root (segBodies l) l, hl'OK, rfl⟩
  · intro b hb
    have hb' : b ∈ allBodies root := by
      rcases allBodies_setLeaf p hb with h1 | h1
      · exact h1
      · rw [matchBodies_render hl'OK] at h1
        have h2 : b ∈ segBodies l := foldReplace_bodies root (segBodies l) h1
        have h3 : b ∈ matchBodies (render l) := by rw [matchBodies_render hOK]; exact h2
        exact allBodies_of_entryLookup p hleaf h3
    obtain ⟨sb, hsb⟩ := htg b hb'
    by_cases hq : splitDot b = p
    · refine ⟨render (foldReplace root (segBodies l) l), ?_⟩
      rw [hq]
      exact lookupLeaf_eq_iff.mpr (entryLookup_setLeaf_self p _ hleaf)
    · refine ⟨sb, ?_⟩
      rw [lookupLeaf_setLeaf_ne p _ (splitDot b) hleaf hq]
      exact hsb
  · apply chainAt_pres ((c :: mid) ++ [c]) _ hch
    intro x y hy he
    have hyM : y ∈ c :: mid := mem_closed hy
    obtain ⟨hyne, hybf⟩ := hbOK y hyM
    obtain ⟨sy, hsy, hsyBB⟩ := chain_nodes_BB hch y hyM
    have hvy : resolveVariablePath y root = some sy :=
      descendParts_of_entryLookup (splitDot y) (lookupLeaf_eq_iff.mp hsy)
    obtain ⟨sx, hsx, hcont⟩ := he
    by_cases hq : splitDot x = p
    · have hsx' : entryLookup root p = some (.str sx) := by
        rw [← hq]
        exact lookupLeaf_eq_iff.mp hsx
      have hsxe : render l = sx := by
        rw [hleaf] at hsx'
        injection hsx' with h'
        injection h'
      have hyl : y ∈ segBodies l := by
        rw [← hsxe] at hcont
        exact (containsSub_render_ph l hOK hybf hyne).mp hcont
      have hyl' : y ∈ segBodies (foldReplace root (segBodies l) l) :=
        foldReplace_keeps root (segBodies l) hvy hsyBB hyl
      refine ⟨render (foldReplace root (segBodies l) l), ?_, ?_⟩
      · rw [hq]
        exact lookupLeaf_eq_iff.mpr (entryLookup_setLeaf_self p _ hleaf)
      · exact (containsSub_render_ph _ hl'OK hybf hyne).mpr hyl'
    · refine ⟨sx, ?_, hcont⟩
      rw [lookupLeaf_setLeaf_ne p _ (splitDot x) hleaf hq]
      exact hsx

theorem processMap_node_str_eq (k s : List Char) (rest : TomlTree) (path : List (List Char))
    (root : TomlTree) (changed : Bool) :
    processMapForVariables (.node k (.str s) rest) path root changed =
      match resolveStringVariables s root with
      | .error e => .error e
      | .ok (resolved, hasVars) =>
        if hasVars && resolved ≠ s then
          processMapForVariables rest path (setLeaf (path ++ [k]) resolved root) true
        else processMapForVariables rest path root changed := rfl

theorem processMap_node_map_eq (k : List Char) (sub rest : TomlTree) (path : List (List Char))
    (root : TomlTree) (changed : Bool) :
    processMapForVariables (.node k (.map sub) rest) path root changed =
      match processMapForVariables sub (path ++ [k]) root changed with
      | .error e => .error e
      | .ok (root', ch') => processMapForVariables rest path root' ch' := rfl

theorem processMap_str_step {k s : List Char} {rest : TomlTree} {path : List (List Char)}
    {root : TomlTree} {ch : Bool} {resolved : List Char} {hasVars : Bool}
    (h : resolveStringVariables s root = .ok (resolved, hasVars)) :
    processMapForVariables (.node k (.str s) rest) path root ch =
      if hasVars && resolved ≠ s then
        processMapForVariables rest path (setLeaf (path ++ [k]) resolved root) true
      else processMapForVariables rest path root ch := by
  rw [processMap_node_str_eq, h]

theorem processMap_map_step {k : List Char} {sub rest : TomlTree} {path : List (List Char)}
    {root root₁ : TomlTree} {ch ch₁ : Bool}
    (h : processMapForVariables sub (path ++ [k]) root ch = .ok (root₁, ch₁)) :
    processMapForVariables (.node k (.map sub) rest) path root ch =
      processMapForVariables rest path root₁ ch₁ := by
  rw [processMap_node_map_eq, h]

theorem processMap_cyc (c : List Char) (mid : List (List Char))
    (hbOK : ∀ y ∈ c :: mid, y ≠ [] ∧ braceFree y = true) :
    ∀ (shape : TomlTree) (path : List (List Char)) (root : TomlTree) (ch : Bool),
      WfTree shape →
      AgreesUnder root path shape →
      CycInv ((c :: mid) ++ [c]) root →
      ∃ root' ch', processMapForVariables shape path root ch = .ok (root', ch') ∧
        CycInv ((c :: mid) ++ [c]) root' ∧
        (∀ q, (∀ k ∈ keysOf shape, ¬ (path ++ [k]) <+: q) →
          lookupLeaf q root' = lookupLeaf q root) := by
  intro shape
  induction shape using hasUnresolvedVariables.induct with
  | case1 =>
    intro path root ch _ _ hInv
    exact ⟨root, ch, rfl, hInv, fun q _ => rfl⟩
  | case2 k s rest ih =>
    intro path root ch hwsh hag hInv
    simp only [WfTree] at hwsh
    obtain ⟨hlk, hagrest⟩ := agrees_tail_str hag
    have hleaf : entryLookup root (path ++ [k]) = some (.str s) := lookupLeaf_eq_iff.mp hlk
    obtain ⟨l, hOK, hrender⟩ := wf_entryLookup_str _ hInv.1 hleaf
    subst hrender
    have hres0 := targets_ok hInv.1 hInv.2.1 hleaf
    have hres : ∀ b ∈ segBodies l, ∃ v, resolveVariablePath b root = some v ∧
        (containsBB v = false → braceFree v = true) := by
      rw [matchBodies_render hOK] at hres0
      exact hres0
    have hrsv := resolveStringVariables_render hOK hres
    rw [processMap_str_step hrsv]
    split
    · -- the leaf is rewritten in place
      have hInv₁ := cycInv_after_set hInv.1 hInv.2.1 hInv.2.2 hbOK hleaf hOK
      have hfr₁ : ∀ q, q ≠ path ++ [k] →
          lookupLeaf q (setLeaf (path ++ [k]) (render (foldReplace root (segBodies l) l)) root)
            = lookupLeaf q root :=
        fun q hq => lookupLeaf_setLeaf_ne (path ++ [k]) _ q hleaf hq
      have hagrest₁ : AgreesUnder
          (setLeaf (path ++ [k]) (render (foldReplace root (segBodies l) l)) root)
          path rest := by
        apply agrees_frame rest root _ path hagrest
        intro q hq
        obtain ⟨k', hk', hp⟩ := hq
        apply hfr₁ q
        intro he
        have hne : k' ≠ k := by
          intro he2
          rw [he2] at hk'
          exact hwsh.2.2.1 hk'
        have hpre : (path ++ [k]) <+: q := by
          rw [he]
        exact prefix_snoc_ne hne hpre hp
      obtain ⟨root', ch', hrun, hInv', hfr'⟩ := ih path _ true hwsh.2.2.2.2 hagrest₁ hInv₁
      refine ⟨root', ch', hrun, hInv', ?_⟩
      intro q hq
      have hq1 : q ≠ path ++ [k] := by
        intro he
        exact hq k (by simp [keysOf]) (by rw [he])
      rw [hfr' q (fun k'' hk'' => hq k'' (by simp [keysOf]; exact Or.inr hk''))]
      exact hfr₁ q hq1
    · -- nothing to change at this leaf
      obtain ⟨root', ch', hrun, hInv', hfr'⟩ := ih path root ch hwsh.2.2.2.2 hagrest hInv
      refine ⟨root', ch', hrun, hInv', ?_⟩
      intro q hq
      exact hfr' q (fun k'' hk'' => hq k'' (by simp [keysOf]; exact Or.inr hk''))
  | case3 k sub rest ih1 ih2 =>
    intro path root ch hwsh hag hInv
    simp only [WfTree] at hwsh
    obtain ⟨hagsub, hagrest⟩ := agrees_tail_map hag
    obtain ⟨root₁, ch₁, hrun₁, hInv₁, hfr₁⟩ :=
      ih1 (path ++ [k]) root ch hwsh.2.2.2.1 hagsub hInv
    have hagrest₁ : AgreesUnder root₁ path rest := by
      apply agrees_frame rest root root₁ path hagrest
      intro q hq
      obtain ⟨k', hk', hp⟩ := hq
      apply hfr₁ q
      intro k'' hk'' hp2
      have hpk : (path ++ [k]) <+: q := ((path ++ [k]).prefix_append [k'']).trans hp2
      have hne : k' ≠ k := by
        intro he2
        rw [he2] at hk'
        exact hwsh.2.2.1 hk'
      exact prefix_snoc_ne hne hpk hp
    obtain ⟨root', ch', hrun₂, hInv', hfr₂⟩ := ih2 path root₁ ch₁ hwsh.2.2.2.2 hagrest₁ hInv₁
    rw [processMap_map_step hrun₁]
    refine ⟨root', ch', hrun₂, hInv', ?_⟩
    intro q hq
    rw [hfr₂ q (fun k'' hk'' => hq k'' (by simp [keysOf]; exact Or.inr hk''))]
    apply hfr₁ q
    intro k'' hk'' hp2
    have hpk : (path ++ [k]) <+: q := ((path ++ [k]).prefix_append [k'']).trans hp2
    exact hq k (by simp [keysOf]) hpk

theorem runPass_cyc {c : List Char} {mid : List (List Char)}
    (hbOK : ∀ y ∈ c :: mid, y ≠ [] ∧ braceFree y = true) {root : TomlTree}
    (hInv : CycInv ((c :: mid) ++ [c]) root) :
    ∃ root' ch', runPass root = .ok (root', ch') ∧ CycInv ((c :: mid) ++ [c]) root' := by
  obtain ⟨root', ch', hrun, hInv', _⟩ :=
    processMap_cyc c mid hbOK root [] root false hInv.1 (agrees_top hInv.1) hInv
  exact ⟨root', ch', hrun, hInv'⟩

theorem resolveLoop_succ_eq (n : Nat) (root : TomlTree) :
    resolveLoop (n + 1) root =
      match runPass root with
      | .error e => .error e
      | .ok (resolved', changed) =>
        if changed then
          if n = 0 then .error (detectCircularDependencies resolved')
          else resolveLoop n resolved'
        else
          if hasUnresolvedVariables resolved' then .error (detectCircularDependencies resolved')
          else .ok resolved' := rfl

theorem resolveLoop_step {n : Nat} {root root₁ : TomlTree} {ch₁ : Bool}
    (h : runPass root = .ok (root₁, ch₁)) :
    resolveLoop (n + 1) root =
      if ch₁ then
        if n = 0 then .error (detectCircularDependencies root₁)
        else resolveLoop n root₁
      else
        if hasUnresolvedVariables root₁ then .error (detectCircularDependencies root₁)
        else .ok root₁ := by
  rw [resolveLoop_succ_eq, h]

theorem cyc_hasUnres {c : List Char} {mid : List (List Char)} {root : TomlTree}
    (hInv : CycInv ((c :: mid) ++ [c]) root) : hasUnresolvedVariables root = true := by
  obtain ⟨s, hs, hBB⟩ := chain_nodes_BB hInv.2.2 c (List.mem_cons_self c mid)
  exact hasUnres_of_entryLookup (splitDot c) (lookupLeaf_eq_iff.mp hs) hBB

theorem resolveLoop_cyc {c : List Char} {mid : List (List Char)}
    (hbOK : ∀ y ∈ c :: mid, y ≠ [] ∧ braceFree y = true) :
    ∀ (n : Nat) (root : TomlTree), CycInv ((c :: mid) ++ [c]) root →
      ∃ root', CycInv ((c :: mid) ++ [c]) root' ∧
        resolveLoop (n + 1) root = .error (detectCircularDependencies root') := by
  intro n
  induction n with
  | zero =>
    intro root hInv
    obtain ⟨root₁, ch₁, hrun, hInv₁⟩ := runPass_cyc hbOK hInv
    refine ⟨root₁, hInv₁, ?_⟩
    rw [resolveLoop_step hrun]
    cases ch₁ with
    | true => simp
    | false => simp [cyc_hasUnres hInv₁]
  | succ m ih =>
    intro root hInv
    obtain ⟨root₁, ch₁, hrun, hInv₁⟩ := runPass_cyc hbOK hInv
    cases ch₁ with
    | true =>
      obtain ⟨root', hInv', heq⟩ := ih root₁ hInv₁
      refine ⟨root', hInv', ?_⟩
      rw [resolveLoop_step hrun]
      simp only [if_true]
      rw [if_neg (Nat.succ_ne_zero m)]
      exact heq
    | false =>
      refine ⟨root₁, hInv₁, ?_⟩
      rw [resolveLoop_step hrun]
      simp [cyc_hasUnres hInv₁]

theorem resolveVariables_cyc {store : TomlTree} {c : List Char} {mid : List (List Char)}
    (hbOK : ∀ y ∈ c :: mid, y ≠ [] ∧ braceFree y = true)
    (hInv : CycInv ((c :: mid) ++ [c]) store) :
    ∃ root', CycInv ((c :: mid) ++ [c]) root' ∧
      resolveVariables store = .error (detectCircularDependencies root') := by
  obtain ⟨root', hInv', heq⟩ := resolveLoop_cyc hbOK 9 store hInv
  refine ⟨root', hInv', ?_⟩
  show resolveLoop maxPasses (deepCopyMap store) = _
  rw [deepCopyMap_id]
  exact heq

theorem depsAppend_self : ∀ (deps : Deps) (k v : List Char),
    v ∈ depsGet (depsAppend k v deps) k := by
  intro deps
  induction deps with
  | nil => intro k v; simp [depsAppend, depsGet]
  | cons e rest ih =>
    intro k v
    obtain ⟨k', vs⟩ := e
    by_cases h : k' = k
    · simp [depsAppend, depsGet, h]
    · simp [depsAppend, depsGet, h]
      exact ih k v

theorem depsGet_append_mono : ∀ (deps : Deps) (j k v x : List Char),
    x ∈ depsGet deps j → x ∈ depsGet (depsAppend k v deps) j := by
  intro deps
  induction deps with
  | nil => intro j k v x hx; simp [depsGet] at hx
  | cons e rest ih =>
    intro j k v x hx
    obtain ⟨k', vs⟩ := e
    by_cases h1 : k' = k
    · have ha : depsAppend k v ((k', vs) :: rest) = (k', vs ++ [v]) :: rest := by
        simp [depsAppend, h1]
      rw [ha]
      by_cases h2 : k' = j
      · rw [show depsGet ((k', vs) :: rest) j = vs from by simp [depsGet, h2]] at hx
        rw [show depsGet ((k', vs ++ [v]) :: rest) j = vs ++ [v] from by simp [depsGet, h2]]
        exact List.mem_append.mpr (Or.inl hx)
      · rw [show depsGet ((k', vs) :: rest) j = depsGet rest j from by simp [depsGet, h2]] at hx
        rw [show depsGet ((k', vs ++ [v]) :: rest) j = depsGet rest j from by
          simp [depsGet, h2]]
        exact hx
    · have ha : depsAppend k v ((k', vs) :: rest) = (k', vs) :: depsAppend k v rest := by
        simp [depsAppend, h1]
      rw [ha]
      by_cases h2 : k' = j
      · rw [show depsGet ((k', vs) :: rest) j = vs from by simp [depsGet, h2]] at hx
        rw [show depsGet ((k', vs) :: depsAppend k v rest) j = vs from by simp [depsGet, h2]]
        exact hx
      · rw [show depsGet ((k', vs) :: rest) j = depsGet rest j from by simp [depsGet, h2]] at hx
        rw [show depsGet ((k', vs) :: depsAppend k v rest) j = depsGet (depsAppend k v rest) j
          from by simp [depsGet, h2]]
        exact ih j k v x hx

theorem addEdges_mono {fk : List Char} : ∀ (ms : List (List Char × List Char)) (deps : Deps)
    (j x : List Char), x ∈ depsGet deps j → x ∈ depsGet (addEdges fk ms deps) j := by
  intro ms
  induction ms with
  | nil => intro deps j x h; exact h
  | cons m rest ih =>
    intro deps j x h
    obtain ⟨f, b⟩ := m
    exact ih _ j x (depsGet_append_mono deps j fk b x h)

theorem addEdges_mem {fk : List Char} : ∀ (ms : List (List Char × List Char)) (deps : Deps)
    (b : List Char), b ∈ ms.map Prod.snd → b ∈ depsGet (addEdges fk ms deps) fk := by
  intro ms
  induction ms with
  | nil => intro deps b h; simp at h
  | cons m rest ih =>
    intro deps b h
    obtain ⟨f, b0⟩ := m
    have h' : b ∈ b0 :: rest.map Prod.snd := h
    rcases List.mem_cons.mp h' with rfl | h1
    · exact addEdges_mono rest _ fk b (depsAppend_self deps fk b)
    · exact ih _ b h1

theorem collect_mono : ∀ (t : TomlTree) (pre : List Char) (deps : Deps) (j x : List Char),
    x ∈ depsGet deps j → x ∈ depsGet (collectDependencies t pre deps) j := by
  intro t
  induction t using hasUnresolvedVariables.induct with
  | case1 => intro pre deps j x h; exact h
  | case2 k s rest ih =>
    intro pre deps j x h
    exact ih pre _ j x (addEdges_mono _ deps j x h)
  | case3 k sub rest ih1 ih2 =>
    intro pre deps j x h
    exact ih2 pre _ j x (ih1 _ deps j x h)

theorem collect_mem : ∀ (t : TomlTree) (pre : List Char) (deps₀ : Deps)
    (ps : List (List Char)) (s b : List Char),
    WfTree t → entryLookup t ps = some (.str s) → b ∈ matchBodies s →
    b ∈ depsGet (collectDependencies t pre deps₀) (preJoin pre ps) := by
  intro t
  induction t using hasUnresolvedVariables.induct with
  | case1 =>
    intro pre deps₀ ps s b _ h _
    exfalso
    cases ps with
    | nil => simp [entryLookup] at h
    | cons k ks =>
      cases ks with
      | nil => simp [entryLookup, getEntry] at h
      | cons r rs => simp [entryLookup, getEntry] at h
  | case2 k s' rest ih =>
    intro pre deps₀ ps s b hw h hb
    simp only [WfTree] at hw
    cases ps with
    | nil => simp [entryLookup] at h
    | cons k0 ks =>
      cases ks with
      | nil =>
        have h' : getEntry k0 (.node k (.str s') rest) = some (.str s) := h
        simp only [getEntry] at h'
        by_cases hk : k = k0
        · rw [if_pos hk] at h'
          injection h' with h''
          injection h'' with h3
          subst h3
          subst hk
          show b ∈ depsGet (collectDependencies rest pre
            (addEdges (if pre.isEmpty then k else pre ++ '.' :: k)
              (findVariableMatches s') deps₀)) (preJoin pre [k])
          have hpj : preJoin pre [k] = if pre.isEmpty then k else pre ++ '.' :: k := rfl
          rw [hpj]
          apply collect_mono rest pre _ _ b
          exact addEdges_mem (findVariableMatches s') deps₀ b hb
        · rw [if_neg hk] at h'
          exact ih pre _ [k0] s b hw.2.2.2.2 h' hb
      | cons r rs =>
        simp only [entryLookup] at h
        cases hge : getEntry k0 (.node k (.str s') rest) with
        | none => rw [hge] at h; simp at h
        | some vv =>
          rw [hge] at h
          cases vv with
          | str s2 => simp at h
          | map sub2 =>
            have hk : ¬ k = k0 := by
              intro he
              rw [getEntry, if_pos he] at hge
              simp at hge
            rw [getEntry, if_neg hk] at hge
            have hrest : entryLookup rest (k0 :: r :: rs) = some (.str s) := by
              simp only [entryLookup, hge]
              exact h
            exact ih pre _ (k0 :: r :: rs) s b hw.2.2.2.2 hrest hb
  | case3 k sub rest ih1 ih2 =>
    intro pre deps₀ ps s b hw h hb
    simp only [WfTree] at hw
    cases ps with
    | nil => simp [entryLookup] at h
    | cons k0 ks =>
      by_cases hk : k = k0
      · subst hk
        cases ks with
        | nil =>
          have h' : getEntry k (.node k (.map sub) rest) = some (.str s) := h
          simp [getEntry] at h'
        | cons r rs =>
          simp only [entryLookup] at h
          have hge : getEntry k (.node k (.map sub) rest) = some (.map sub) := by
            simp [getEntry]
          rw [hge] at h
          rw [preJoin_cons hw.1 (by simp)]
          show b ∈ depsGet (collectDependencies rest pre
            (collectDependencies sub (if pre.isEmpty then k else pre ++ '.' :: k) deps₀))
            (preJoin (if pre.isEmpty then k else pre ++ '.' :: k) (r :: rs))
          apply collect_mono rest pre _ _ b
          exact ih1 (if pre.isEmpty then k else pre ++ '.' :: k) deps₀ (r :: rs) s b
            hw.2.2.2.1 h hb
      · have hrest : entryLookup rest (k0 :: ks) = some (.str s) := by
          cases ks with
          | nil =>
            have h' : getEntry k0 (.node k (.map sub) rest) = some (.str s) := h
            rw [getEntry, if_neg hk] at h'
            exact h'
          | cons r rs =>
            simp only [entryLookup, getEntry, if_neg hk] at h ⊢
            exact h
        exact ih2 pre _ (k0 :: ks) s b hw.2.2.2.2 hrest hb

theorem depsGet_ne_nil_mem : ∀ (deps : Deps) (x : List Char), depsGet deps x ≠ [] →
    x ∈ deps.map Prod.fst := by
  intro deps
  induction deps with
  | nil => intro x h; exact absurd rfl h
  | cons e rest ih =>
    intro x h
    obtain ⟨k, vs⟩ := e
    by_cases h1 : k = x
    · show x ∈ k :: rest.map Prod.fst
      rw [h1]
      exact List.mem_cons_self x _
    · have h2 : depsGet rest x ≠ [] := by
        rw [show depsGet ((k, vs) :: rest) x = depsGet rest x from by simp [depsGet, h1]] at h
        exact h
      show x ∈ k :: rest.map Prod.fst
      exact List.mem_cons_of_mem k (ih x h2)

theorem depsGet_subset_nodes : ∀ (deps : Deps) (x y : List Char), y ∈ depsGet deps x →
    y ∈ depsNodes deps := by
  intro deps
  induction deps with
  | nil => intro x y h; simp [depsGet] at h
  | cons e rest ih =>
    intro x y h
    obtain ⟨k, vs⟩ := e
    unfold depsNodes
    rw [List.mem_dedup]
    by_cases h1 : k = x
    · have hy : y ∈ vs := by
        rw [show depsGet ((k, vs) :: rest) x = vs from by simp [depsGet, h1]] at h
        exact h
      apply List.mem_append.mpr
      right
      show y ∈ vs ++ (rest.map Prod.snd).flatten
      exact List.mem_append.mpr (Or.inl hy)
    · have hy : y ∈ depsNodes rest := by
        apply ih x y
        rw [show depsGet ((k, vs) :: rest) x = depsGet rest x from by simp [depsGet, h1]] at h
        exact h
      unfold depsNodes at hy
      rw [List.mem_dedup] at hy
      rcases List.mem_append.mp hy with h2 | h2
      · apply List.mem_append.mpr
        left
        show y ∈ k :: rest.map Prod.fst
        exact List.mem_cons_of_mem k h2
      · apply List.mem_append.mpr
        right
        show y ∈ vs ++ (rest.map Prod.snd).flatten
        exact List.mem_append.mpr (Or.inr h2)

theorem keys_subset_nodes {deps : Deps} {x : List Char} (h : x ∈ deps.map Prod.fst) :
    x ∈ depsNodes deps := by
  unfold depsNodes
  rw [List.mem_dedup]
  exact List.mem_append.mpr (Or.inl h)

theorem chainDeps_of_chainAt {root : TomlTree} (hwf : WfTree root) :
    ∀ (ch : List (List Char)), (∀ y ∈ ch, y ≠ [] ∧ braceFree y = true) →
      ChainAt root ch → ChainDeps (collectDependencies root [] []) ch := by
  intro ch
  induction ch with
  | nil => intro _ _; exact trivial
  | cons x rest ih =>
    intro hb h
    cases rest with
    | nil => exact trivial
    | cons y rest2 =>
      have h' : EdgeAt root x y ∧ ChainAt root (y :: rest2) := by simpa only [ChainAt] using h
      obtain ⟨s, hs, hcont⟩ := h'.1
      have hel : entryLookup root (splitDot x) = some (.str s) := lookupLeaf_eq_iff.mp hs
      obtain ⟨l, hOK, hrender⟩ := wf_entryLookup_str _ hwf hel
      subst hrender
      obtain ⟨hyne, hybf⟩ := hb y (by simp)
      have hyb : y ∈ matchBodies (render l) := by
        rw [matchBodies_render hOK]
        exact (containsSub_render_ph l hOK hybf hyne).mp hcont
      have hmem := collect_mem root [] [] (splitDot x) _ y hwf hel hyb
      have hname : preJoin [] (splitDot x) = x := by
        show joinDot (splitDot x) = x
        exact joinDot_splitDot x
      rw [hname] at hmem
      show ChainDeps _ (x :: y :: rest2)
      simp only [ChainDeps]
      exact ⟨hmem, ih (fun z hz => hb z (List.mem_cons_of_mem x hz)) h'.2⟩

theorem hasCycleI_succ_eq (deps : Deps) (f : Nat) (node : List Char)
    (visited stack fin : List (List Char)) :
    hasCycleI deps (f + 1) node visited stack fin =
      match hasCycleNbrsI deps f (depsGet deps node) (node :: stack)
          (insertSet node visited) fin with
      | (true, vis', fin') => (true, vis', fin')
      | (false, vis', fin') =>
        (false, vis', if node ∈ visited then fin' else fin' ++ [node]) := by
  rw [hasCycleI]

theorem hasCycleNbrsI_cons_eq (deps : Deps) (f : Nat) (n : List Char)
    (ns chain visited fin : List (List Char)) :
    hasCycleNbrsI deps f (n :: ns) chain visited fin =
      if n ∈ visited then
        if n ∈ chain then (true, visited, fin) else hasCycleNbrsI deps f ns chain visited fin
      else
        match hasCycleI deps f n visited chain fin with
        | (true, vis', fin') => (true, vis', fin')
        | (false, vis', fin') => hasCycleNbrsI deps f ns chain vis' fin' := by
  rw [hasCycleNbrsI]

theorem hasCycleI_succ_true {deps : Deps} {f : Nat} {node : List Char}
    {visited stack fin vis' fin' : List (List Char)}
    (h : hasCycleNbrsI deps f (depsGet deps node) (node :: stack) (insertSet node visited) fin
      = (true, vis', fin')) :
    hasCycleI deps (f + 1) node visited stack fin = (true, vis', fin') := by
  rw [hasCycleI_succ_eq, h]

theorem hasCycleI_succ_false {deps : Deps} {f : Nat} {node : List Char}
    {visited stack fin vis' fin' : List (List Char)}
    (h : hasCycleNbrsI deps f (depsGet deps node) (node :: stack) (insertSet node visited) fin
      = (false, vis', fin')) :
    hasCycleI deps (f + 1) node visited stack fin =
      (false, vis', if node ∈ visited then fin' else fin' ++ [node]) := by
  rw [hasCycleI_succ_eq, h]

theorem nbrsI_vis_inchain {deps : Deps} {f : Nat} {n : List Char}
    {ns chain visited fin : List (List Char)} (hv : n ∈ visited) (hc : n ∈ chain) :
    hasCycleNbrsI deps f (n :: ns) chain visited fin = (true, visited, fin) := by
  rw [hasCycleNbrsI_cons_eq, if_pos hv, if_pos hc]

theorem nbrsI_vis_notchain {deps : Deps} {f : Nat} {n : List Char}
    {ns chain visited fin : List (List Char)} (hv : n ∈ visited) (hc : n ∉ chain) :
    hasCycleNbrsI deps f (n :: ns) chain visited fin =
      hasCycleNbrsI deps f ns chain visited fin := by
  rw [hasCycleNbrsI_cons_eq, if_pos hv, if_neg hc]

theorem nbrsI_notvis_true {deps : Deps} {f : Nat} {n : List Char}
    {ns chain visited fin vis' fin' : List (List Char)} (hv : n ∉ visited)
    (h : hasCycleI deps f n visited chain fin = (true, vis', fin')) :
    hasCycleNbrsI deps f (n :: ns) chain visited fin = (true, vis', fin') := by
  rw [hasCycleNbrsI_cons_eq, if_neg hv, h]

theorem nbrsI_notvis_false {deps : Deps} {f : Nat} {n : List Char}
    {ns chain visited fin vis' fin' : List (List Char)} (hv : n ∉ visited)
    (h : hasCycleI deps f n visited chain fin = (false, vis', fin')) :
    hasCycleNbrsI deps f (n :: ns) chain visited fin =
      hasCycleNbrsI deps f ns chain vis' fin' := by
  rw [hasCycleNbrsI_cons_eq, if_neg hv, h]

theorem nbrsI_trivial (deps : Deps) (f : Nat) : ∀ (ns chain visited fin vis' fin' :
    List (List Char)),
    hasCycleNbrsI deps f ns chain visited fin = (false, vis', fin') →
    (∀ y ∈ ns, y ∈ visited) → vis' = visited ∧ fin' = fin := by
  intro ns
  induction ns with
  | nil =>
    intro chain visited fin vis' fin' h _
    rw [hasCycleNbrsI] at h
    injection h with _ h2
    injection h2 with h3 h4
    exact ⟨h3.symm, h4.symm⟩
  | cons n ns' ih =>
    intro chain visited fin vis' fin' h hall
    have hv : n ∈ visited := hall n (by simp)
    by_cases hc : n ∈ chain
    · rw [nbrsI_vis_inchain hv hc] at h
      injection h with h1
      exact absurd h1.symm (by simp)
    · rw [nbrsI_vis_notchain hv hc] at h
      exact ih chain visited fin vis' fin' h (fun y hy => hall y (List.mem_cons_of_mem n hy))

theorem goodFinAux_append (deps : Deps) : ∀ (fin done : List (List Char)) (v : List Char),
    GoodFinAux deps done fin → (∀ y ∈ depsGet deps v, y ∈ done ∨ y ∈ fin) →
    GoodFinAux deps done (fin ++ [v]) := by
  intro fin
  induction fin with
  | nil =>
    intro done v _ hv
    show GoodFinAux deps done [v]
    simp only [GoodFinAux]
    refine ⟨fun y hy => ?_, trivial⟩
    rcases hv y hy with h1 | h1
    · exact h1
    · simp at h1
  | cons u rest ih =>
    intro done v h hv
    simp only [GoodFinAux] at h
    show GoodFinAux deps done (u :: (rest ++ [v]))
    simp only [GoodFinAux]
    refine ⟨h.1, ih (done ++ [u]) v h.2 ?_⟩
    intro y hy
    rcases hv y hy with h1 | h1
    · exact Or.inl (List.mem_append.mpr (Or.inl h1))
    · rcases List.mem_cons.mp h1 with rfl | h2
      · exact Or.inl (List.mem_append.mpr (Or.inr (by simp)))
      · exact Or.inr h2

theorem goodFinAux_nbrs (deps : Deps) : ∀ (fin done : List (List Char)) (u : List Char),
    GoodFinAux deps done fin → u ∈ fin → ∀ y ∈ depsGet deps u, y ∈ done ∨ y ∈ fin := by
  intro fin
  induction fin with
  | nil => intro done u _ hu; simp at hu
  | cons w rest ih =>
    intro done u h hu y hy
    simp only [GoodFinAux] at h
    rcases List.mem_cons.mp hu with rfl | hu'
    · exact Or.inl (h.1 y hy)
    · rcases ih (done ++ [w]) u h.2 hu' y hy with h1 | h1
      · rcases List.mem_append.mp h1 with h2 | h2
        · exact Or.inl h2
        · simp at h2
          exact Or.inr (by simp [h2])
      · exact Or.inr (List.mem_cons_of_mem w h1)

theorem goodFin_nbrs {deps : Deps} {fin : List (List Char)} {u : List Char}
    (h : GoodFin deps fin) (hu : u ∈ fin) : ∀ y ∈ depsGet deps u, y ∈ fin := by
  intro y hy
  rcases goodFinAux_nbrs deps fin [] u h hu y hy with h1 | h1
  · simp at h1
  · exact h1

theorem goodFin_append {deps : Deps} {fin : List (List Char)} {v : List Char}
    (h : GoodFin deps fin) (hv : ∀ y ∈ depsGet deps v, y ∈ fin) :
    GoodFin deps (fin ++ [v]) :=
  goodFinAux_append deps fin [] v h (fun y hy => Or.inr (hv y hy))

theorem filter_length_mono {vis vis' : List (List Char)} (hsub : ∀ x, x ∈ vis → x ∈ vis') :
    ∀ l : List (List Char),
      (l.filter fun x => decide (x ∉ vis')).length ≤
        (l.filter fun x => decide (x ∉ vis)).length := by
  intro l
  induction l with
  | nil => simp
  | cons a t ih =>
    by_cases h1 : a ∈ vis'
    · have e1 : ((a :: t).filter fun x => decide (x ∉ vis')) =
          t.filter fun x => decide (x ∉ vis') := by
        simp [List.filter_cons, h1]
      rw [e1]
      by_cases h2 : a ∈ vis
      · have e2 : ((a :: t).filter fun x => decide (x ∉ vis)) =
            t.filter fun x => decide (x ∉ vis) := by
          simp [List.filter_cons, h2]
        rw [e2]
        exact ih
      · have e2 : ((a :: t).filter fun x => decide (x ∉ vis)) =
            a :: t.filter fun x => decide (x ∉ vis) := by
          simp [List.filter_cons, h2]
        rw [e2]
        exact Nat.le_succ_of_le ih
    · have h2 : a ∉ vis := fun hh => h1 (hsub a hh)
      have e1 : ((a :: t).filter fun x => decide (x ∉ vis')) =
          a :: t.filter fun x => decide (x ∉ vis') := by
        simp [List.filter_cons, h1]
      have e2 : ((a :: t).filter fun x => decide (x ∉ vis)) =
          a :: t.filter fun x => decide (x ∉ vis) := by
        simp [List.filter_cons, h2]
      rw [e1, e2]
      exact Nat.succ_le_succ ih

theorem gap_mono {deps : Deps} {vis vis' : List (List Char)}
    (h : ∀ x, x ∈ vis → x ∈ vis') : gap deps vis' ≤ gap deps vis :=
  filter_length_mono h (depsNodes deps)

theorem filter_length_strict {vis : List (List Char)} {n : List Char} (hn : n ∉ vis) :
    ∀ l : List (List Char), n ∈ l →
      (l.filter fun x => decide (x ∉ (n :: vis))).length <
        (l.filter fun x => decide (x ∉ vis)).length := by
  intro l
  induction l with
  | nil => intro h; simp at h
  | cons a t ih =>
    intro hmem
    by_cases ha : a = n
    · subst ha
      have e1 : ((a :: t).filter fun x => decide (x ∉ (a :: vis))) =
          t.filter fun x => decide (x ∉ (a :: vis)) := by
        simp [List.filter_cons]
      have e2 : ((a :: t).filter fun x => decide (x ∉ vis)) =
          a :: t.filter fun x => decide (x ∉ vis) := by
        simp [List.filter_cons, hn]
      rw [e1, e2]
      exact Nat.lt_succ_of_le
        (filter_length_mono (fun x hx => List.mem_cons_of_mem _ hx) t)
    · have hmem' : n ∈ t := by
        rcases List.mem_cons.mp hmem with h1 | h1
        · exact absurd h1.symm ha
        · exact h1
      by_cases h1 : a ∈ vis
      · have e1 : ((a :: t).filter fun x => decide (x ∉ (n :: vis))) =
            t.filter fun x => decide (x ∉ (n :: vis)) := by
          simp [List.filter_cons, h1]
        have e2 : ((a :: t).filter fun x => decide (x ∉ vis)) =
            t.filter fun x => decide (x ∉ vis) := by
          simp [List.filter_cons, h1]
        rw [e1, e2]
        exact ih hmem'
      · have e1 : ((a :: t).filter fun x => decide (x ∉ (n :: vis))) =
            a :: t.filter fun x => decide (x ∉ (n :: vis)) := by
          simp [List.filter_cons, ha, h1]
        have e2 : ((a :: t).filter fun x => decide (x ∉ vis)) =
            a :: t.filter fun x => decide (x ∉ vis) := by
          simp [List.filter_cons, h1]
        rw [e1, e2]
        exact Nat.succ_lt_succ (ih hmem')

theorem gap_strict {deps : Deps} {vis : List (List Char)} {n : List Char}
    (hn : n ∉ vis) (hmem : n ∈ depsNodes deps) :
    gap deps (insertSet n vis) < gap deps vis := by
  unfold gap
  rw [show insertSet n vis = n :: vis from by unfold insertSet; rw [if_neg hn]]
  exact filter_length_strict hn (depsNodes deps) hmem

theorem gap_le {deps : Deps} {vis : List (List Char)} :
    gap deps vis ≤ (depsNodes deps).length :=
  List.length_filter_le _ _

theorem dfs_nbrs_false (deps : Deps) (fuel : Nat)
    (hnode : ∀ (node : List Char) (visited stack fin : List (List Char))
      (found : Bool) (vis' fin' : List (List Char)),
      hasCycleI deps fuel node visited stack fin = (found, vis', fin') →
      gap deps (insertSet node visited) < fuel →
      DfsInv deps visited stack fin → node ∉ stack → found = false →
      DfsInv deps vis' stack fin' ∧ (∃ add, fin' = fin ++ add) ∧ node ∈ fin' ∧
        (∀ x, x ∈ visited → x ∈ vis')) :
    ∀ (ns : List (List Char)) (chain visited fin : List (List Char))
      (found : Bool) (vis' fin' : List (List Char)),
      hasCycleNbrsI deps fuel ns chain visited fin = (found, vis', fin') →
      gap deps visited ≤ fuel →
      DfsInv deps visited chain fin →
      (∀ y ∈ ns, y ∈ depsNodes deps) →
      found = false →
      DfsInv deps vis' chain fin' ∧ (∃ add, fin' = fin ++ add) ∧ (∀ y ∈ ns, y ∈ fin') ∧
        (∀ x, x ∈ visited → x ∈ vis') := by
  intro ns
  induction ns with
  | nil =>
    intro chain visited fin found vis' fin' h _ hinv _ _
    rw [hasCycleNbrsI] at h
    injection h with _ h2
    injection h2 with h3 h4
    rw [← h3, ← h4]
    exact ⟨hinv, ⟨[], by simp⟩, by simp, fun x hx => hx⟩
  | cons n ns' ih =>
    intro chain visited fin found vis' fin' h hgap hinv hns hfound
    subst hfound
    by_cases hv : n ∈ visited
    · by_cases hc : n ∈ chain
      · rw [nbrsI_vis_inchain hv hc] at h
        injection h with h1
        exact absurd h1 (by simp)
      · rw [nbrsI_vis_notchain hv hc] at h
        obtain ⟨hinv', hext, hall, hmono⟩ := ih chain visited fin false vis' fin' h hgap hinv
          (fun y hy => hns y (List.mem_cons_of_mem n hy)) rfl
        refine ⟨hinv', hext, ?_, hmono⟩
        intro y hy
        rcases List.mem_cons.mp hy with rfl | hy'
        · have hyfin : y ∈ fin := ((hinv.1 y).mp hv).resolve_right hc
          obtain ⟨add, hadd⟩ := hext
          rw [hadd]
          exact List.mem_append.mpr (Or.inl hyfin)
        · exact hall y hy'
    · rcases hI : hasCycleI deps fuel n visited chain fin with ⟨found₀, vis₀, fin₀⟩
      cases found₀ with
      | true =>
        rw [nbrsI_notvis_true hv hI] at h
        injection h with h1
        exact absurd h1 (by simp)
      | false =>
        rw [nbrsI_notvis_false hv hI] at h
        have hn_stack : n ∉ chain := fun hh => hv ((hinv.1 n).mpr (Or.inr hh))
        have hgap_node : gap deps (insertSet n visited) < fuel :=
          lt_of_lt_of_le (gap_strict hv (hns n (by simp))) hgap
        obtain ⟨hinv₀, hext₀, hnfin₀, hmono₀⟩ :=
          hnode n visited chain fin false vis₀ fin₀ hI hgap_node hinv hn_stack rfl
        have hgap₀ : gap deps vis₀ ≤ fuel := le_trans (gap_mono hmono₀) hgap
        obtain ⟨hinv', hext', hall', hmono'⟩ := ih chain vis₀ fin₀ false vis' fin' h hgap₀
          hinv₀ (fun y hy => hns y (List.mem_cons_of_mem n hy)) rfl
        refine ⟨hinv', ?_, ?_, fun x hx => hmono' x (hmono₀ x hx)⟩
        · obtain ⟨add₀, ha₀⟩ := hext₀
          obtain ⟨add', ha'⟩ := hext'
          exact ⟨add₀ ++ add', by rw [ha', ha₀, List.append_assoc]⟩
        · intro y hy
          rcases List.mem_cons.mp hy with rfl | hy'
          · obtain ⟨add', ha'⟩ := hext'
            rw [ha']
            exact List.mem_append.mpr (Or.inl hnfin₀)
          · exact hall' y hy'

theorem dfs_node_false (deps : Deps) : ∀ (fuel : Nat),
    ∀ (node : List Char) (visited stack fin : List (List Char)) (found : Bool)
      (vis' fin' : List (List Char)),
      hasCycleI deps fuel node visited stack fin = (found, vis', fin') →
      gap deps (insertSet node visited) < fuel →
      DfsInv deps visited stack fin → node ∉ stack → found = false →
      DfsInv deps vis' stack fin' ∧ (∃ add, fin' = fin ++ add) ∧ node ∈ fin' ∧
        (∀ x, x ∈ visited → x ∈ vis') := by
  intro fuel
  induction fuel with
  | zero =>
    intro node visited stack fin found vis' fin' _ hgap _ _ _
    exact absurd hgap (by omega)
  | succ f ih =>
    intro node visited stack fin found vis' fin' h hgap hinv hstack hfound
    subst hfound
    rcases hN : hasCycleNbrsI deps f (depsGet deps node) (node :: stack)
        (insertSet node visited) fin with ⟨fN, visN, finN⟩
    cases fN with
    | true =>
      rw [hasCycleI_succ_true hN] at h
      injection h with h1
      exact absurd h1 (by simp)
    | false =>
      rw [hasCycleI_succ_false hN] at h
      injection h with _ h2
      injection h2 with h3 h4
      by_cases hvis : node ∈ visited
      · have hnfin : node ∈ fin := ((hinv.1 node).mp hvis).resolve_right hstack
        have hnb_fin : ∀ y ∈ depsGet deps node, y ∈ fin := goodFin_nbrs hinv.2.1 hnfin
        have hnb_vis : ∀ y ∈ depsGet deps node, y ∈ insertSet node visited :=
          fun y hy => mem_insertSet_of_mem ((hinv.1 y).mpr (Or.inl (hnb_fin y hy)))
        obtain ⟨hveq, hfeq⟩ := nbrsI_trivial deps f (depsGet deps node) (node :: stack)
          (insertSet node visited) fin visN finN hN hnb_vis
        rw [insertSet_of_mem hvis] at hveq
        rw [if_pos hvis] at h4
        rw [← h3, hveq, ← h4, hfeq]
        exact ⟨hinv, ⟨[], by simp⟩, by rw [hfeq] at *; exact hnfin, fun x hx => hx⟩
      · have hinv_loop : DfsInv deps (insertSet node visited) (node :: stack) fin := by
          refine ⟨?_, hinv.2.1, ?_⟩
          · intro x
            rw [mem_insertSet_iff]
            constructor
            · rintro (rfl | hx)
              · exact Or.inr (by simp)
              · rcases (hinv.1 x).mp hx with h1 | h1
                · exact Or.inl h1
                · exact Or.inr (List.mem_cons_of_mem node h1)
            · rintro (h1 | h1)
              · exact Or.inr ((hinv.1 x).mpr (Or.inl h1))
              · rcases List.mem_cons.mp h1 with rfl | h5
                · exact Or.inl rfl
                · exact Or.inr ((hinv.1 x).mpr (Or.inr h5))
          · intro x hx hcontra
            rcases List.mem_cons.mp hcontra with rfl | h5
            · exact hvis ((hinv.1 x).mpr (Or.inl hx))
            · exact hinv.2.2 x hx h5
        have hgap_loop : gap deps (insertSet node visited) ≤ f := by omega
        obtain ⟨hinvN, hextN, hallN, hmonoN⟩ := dfs_nbrs_false deps f ih (depsGet deps node)
          (node :: stack) (insertSet node visited) fin false visN finN hN hgap_loop hinv_loop
          (fun y hy => depsGet_subset_nodes deps node y hy) rfl
        rw [if_neg hvis] at h4
        rw [← h3, ← h4]
        refine ⟨⟨?_, ?_, ?_⟩, ?_, ?_, ?_⟩
        · intro x
          constructor
          · intro hx
            rcases (hinvN.1 x).mp hx with h1 | h1
            · exact Or.inl (List.mem_append.mpr (Or.inl h1))
            · rcases List.mem_cons.mp h1 with rfl | h5
              · exact Or.inl (List.mem_append.mpr (Or.inr (by simp)))
              · exact Or.inr h5
          · intro hx
            rcases hx with h1 | h1
            · rcases List.mem_append.mp h1 with h5 | h5
              · exact (hinvN.1 x).mpr (Or.inl h5)
              · simp at h5
                rw [h5]
                exact hmonoN node (mem_insertSet_self node visited)
            · exact (hinvN.1 x).mpr (Or.inr (List.mem_cons_of_mem node h1))
        · exact goodFin_append hinvN.2.1 hallN
        · intro x hx
          rcases List.mem_append.mp hx with h1 | h1
          · intro h5
            exact hinvN.2.2 x h1 (List.mem_cons_of_mem node h5)
          · simp at h1
            rw [h1]
            exact hstack
        · obtain ⟨add, hadd⟩ := hextN
          exact ⟨add ++ [node], by rw [hadd, List.append_assoc]⟩
        · exact List.mem_append.mpr (Or.inr (by simp))
        · intro x hx
          exact hmonoN x (mem_insertSet_of_mem hx)

theorem hasCycleF_succ_eq (deps : Deps) (f : Nat) (node : List Char)
    (visited stack : List (List Char)) :
    hasCycleF deps (f + 1) node visited stack =
      hasCycleNbrs deps f (depsGet deps node) (node :: stack) (insertSet node visited) := by
  rw [hasCycleF]

theorem hasCycleNbrs_cons_eq (deps : Deps) (f : Nat) (n : List Char)
    (ns chain visited : List (List Char)) :
    hasCycleNbrs deps f (n :: ns) chain visited =
      if n ∈ visited then
        if n ∈ chain then (true, visited) else hasCycleNbrs deps f ns chain visited
      else
        match hasCycleF deps f n visited chain with
        | (true, vis') => (true, vis')
        | (false, vis') => hasCycleNbrs deps f ns chain vis' := by
  rw [hasCycleNbrs]

theorem nbrs_vis_inchain {deps : Deps} {f : Nat} {n : List Char}
    {ns chain visited : List (List Char)} (hv : n ∈ visited) (hc : n ∈ chain) :
    hasCycleNbrs deps f (n :: ns) chain visited = (true, visited) := by
  rw [hasCycleNbrs_cons_eq, if_pos hv, if_pos hc]

theorem nbrs_vis_notchain {deps : Deps} {f : Nat} {n : List Char}
    {ns chain visited : List (List Char)} (hv : n ∈ visited) (hc : n ∉ chain) :
    hasCycleNbrs deps f (n :: ns) chain visited = hasCycleNbrs deps f ns chain visited := by
  rw [hasCycleNbrs_cons_eq, if_pos hv, if_neg hc]

theorem nbrs_notvis_true {deps : Deps} {f : Nat} {n : List Char}
    {ns chain visited vis' : List (List Char)} (hv : n ∉ visited)
    (h : hasCycleF deps f n visited chain = (true, vis')) :
    hasCycleNbrs deps f (n :: ns) chain visited = (true, vis') := by
  rw [hasCycleNbrs_cons_eq, if_neg hv, h]

theorem nbrs_notvis_false {deps : Deps} {f : Nat} {n : List Char}
    {ns chain visited vis' : List (List Char)} (hv : n ∉ visited)
    (h : hasCycleF deps f n visited chain = (false, vis')) :
    hasCycleNbrs deps f (n :: ns) chain visited = hasCycleNbrs deps f ns chain vis' := by
  rw [hasCycleNbrs_cons_eq, if_neg hv, h]

theorem hasCycle_proj (deps : Deps) : ∀ (fuel : Nat) (node : List Char)
    (visited stack fin : List (List Char)),
    hasCycleF deps fuel node visited stack =
      ((hasCycleI deps fuel node visited stack fin).1,
       (hasCycleI deps fuel node visited stack fin).2.1) := by
  intro fuel
  induction fuel with
  | zero =>
    intro node visited stack fin
    rw [hasCycleF, hasCycleI]
  | succ f ih =>
    intro node visited stack fin
    have hnb : ∀ (ns chain vis fin₀ : List (List Char)),
        hasCycleNbrs deps f ns chain vis =
          ((hasCycleNbrsI deps f ns chain vis fin₀).1,
           (hasCycleNbrsI deps f ns chain vis fin₀).2.1) := by
      intro ns
      induction ns with
      | nil =>
        intro chain vis fin₀
        rw [hasCycleNbrs, hasCycleNbrsI]
      | cons n ns' ihn =>
        intro chain vis fin₀
        by_cases hv : n ∈ vis
        · by_cases hc : n ∈ chain
          · rw [nbrs_vis_inchain hv hc, nbrsI_vis_inchain hv hc]
          · rw [nbrs_vis_notchain hv hc, nbrsI_vis_notchain hv hc]
            exact ihn chain vis fin₀
        · rcases hI : hasCycleI deps f n vis chain fin₀ with ⟨f₀, v₀, fin₀'⟩
          have hF : hasCycleF deps f n vis chain = (f₀, v₀) := by
            rw [ih n vis chain fin₀, hI]
          cases f₀ with
          | true =>
            rw [nbrs_notvis_true hv hF, nbrsI_notvis_true hv hI]
          | false =>
            rw [nbrs_notvis_false hv hF, nbrsI_notvis_false hv hI]
            exact ihn chain v₀ fin₀'
    rw [hasCycleF_succ_eq]
    rcases hN : hasCycleNbrsI deps f (depsGet deps node) (node :: stack)
        (insertSet node visited) fin with ⟨fN, vN, finN⟩
    cases fN with
    | true =>
      rw [hasCycleI_succ_true hN, hnb _ _ _ fin, hN]
    | false =>
      rw [hasCycleI_succ_false hN, hnb _ _ _ fin, hN]

theorem detectLoop_cons_eq (deps : Deps) (fuel : Nat) (k : List Char)
    (ks visited : List (List Char)) :
    detectLoop deps fuel (k :: ks) visited =
      match hasCycleF deps fuel k visited [] with
      | (true, _) => .circular (findCycleF deps fuel [k] k [])
      | (false, vis') => detectLoop deps fuel ks vis' := by
  rw [detectLoop]

theorem detectLoop_cons_true {deps : Deps} {fuel : Nat} {k : List Char}
    {ks visited vis₀ : List (List Char)}
    (h : hasCycleF deps fuel k visited [] = (true, vis₀)) :
    detectLoop deps fuel (k :: ks) visited = .circular (findCycleF deps fuel [k] k []) := by
  rw [detectLoop_cons_eq, h]

theorem detectLoop_cons_false {deps : Deps} {fuel : Nat} {k : List Char}
    {ks visited vis₀ : List (List Char)}
    (h : hasCycleF deps fuel k visited [] = (false, vis₀)) :
    detectLoop deps fuel (k :: ks) visited = detectLoop deps fuel ks vis₀ := by
  rw [detectLoop_cons_eq, h]

theorem detectLoop_cases (deps : Deps) (fuel : Nat) : ∀ (ks visited : List (List Char)),
    detectLoop deps fuel ks visited = .maxPassesExceeded ∨
      ∃ k, detectLoop deps fuel ks visited = .circular (findCycleF deps fuel [k] k []) := by
  intro ks
  induction ks with
  | nil => intro visited; exact Or.inl rfl
  | cons k ks' ih =>
    intro visited
    rcases hF : hasCycleF deps fuel k visited [] with ⟨fb, visb⟩
    cases fb with
    | true => exact Or.inr ⟨k, detectLoop_cons_true hF⟩
    | false =>
      rw [detectLoop_cons_false hF]
      exact ih visb

theorem detectLoop_all_false (deps : Deps) (fuel : Nat)
    (hfuel : (depsNodes deps).length < fuel) :
    ∀ (ks visited fin : List (List Char)),
      detectLoop deps fuel ks visited = .maxPassesExceeded →
      DfsInv deps visited [] fin →
      ∃ fin', GoodFin deps fin' ∧ (∃ add, fin' = fin ++ add) ∧ ∀ k ∈ ks, k ∈ fin' := by
  intro ks
  induction ks with
  | nil =>
    intro visited fin _ hinv
    exact ⟨fin, hinv.2.1, ⟨[], by simp⟩, by simp⟩
  | cons k ks' ih =>
    intro visited fin hdet hinv
    rcases hF : hasCycleF deps fuel k visited [] with ⟨fb, vis₀⟩
    cases fb with
    | true =>
      rw [detectLoop_cons_true hF] at hdet
      exact absurd hdet (by simp)
    | false =>
      rw [detectLoop_cons_false hF] at hdet
      rcases hI : hasCycleI deps fuel k visited [] fin with ⟨fI, visI, finI⟩
      have hproj := hasCycle_proj deps fuel k visited [] fin
      rw [hI, hF] at hproj
      injection hproj with hp1 hp2
      subst hp1
      subst hp2
      have hgap : gap deps (insertSet k visited) < fuel := lt_of_le_of_lt gap_le hfuel
      obtain ⟨hinv', hext, hkfin, _⟩ :=
        dfs_node_false deps fuel k visited [] fin false vis₀ finI hI hgap hinv (by simp) rfl
      obtain ⟨fin'', hgf, hext', hall⟩ := ih vis₀ finI hdet hinv'
      refine ⟨fin'', hgf, ?_, ?_⟩
      · obtain ⟨add, hadd⟩ := hext
        obtain ⟨add', hadd'⟩ := hext'
        exact ⟨add ++ add', by rw [hadd', hadd, List.append_assoc]⟩
      · intro kk hkk
        rcases List.mem_cons.mp hkk with rfl | hkk'
        · obtain ⟨add', hadd'⟩ := hext'
          rw [hadd']
          exact List.mem_append.mpr (Or.inl hkfin)
        · exact hall kk hkk'

theorem idxOf_lt_length : ∀ (l : List (List Char)) (x : List Char) (i : Nat),
    idxOf x l = some i → i < l.length := by
  intro l
  induction l with
  | nil => intro x i h; simp [idxOf] at h
  | cons y rest ih =>
    intro x i h
    by_cases hy : y = x
    · rw [idxOf, if_pos hy] at h
      injection h with h'
      rw [← h']
      simp
    · rw [idxOf, if_neg hy] at h
      rcases Option.map_eq_some'.mp h with ⟨j, hj, hji⟩
      rw [← hji]
      have := ih x j hj
      simp
      omega

theorem findCycleF_ne_nil (deps : Deps) : ∀ (fuel : Nat) (path : List (List Char))
    (cur : List Char) (visited : List (List Char)), path ≠ [] →
    findCycleF deps fuel path cur visited ≠ [] := by
  intro fuel
  induction fuel with
  | zero =>
    intro path cur visited h
    rw [findCycleF]
    exact h
  | succ f ih =>
    intro path cur visited h
    rw [findCycleF]
    by_cases h1 : (depsGet deps cur).isEmpty = true ∨ cur ∈ visited
    · rw [if_pos h1]
      exact h
    · rw [if_neg h1]
      cases hdg : depsGet deps cur with
      | nil => exact h
      | cons next rest =>
        show (match idxOf next path with
          | some i => (path ++ [next]).drop i
          | none => findCycleF deps f (path ++ [next]) next (insertSet cur visited)) ≠ []
        cases hidx : idxOf next path with
        | some i =>
          show (path ++ [next]).drop i ≠ []
          intro hnil
          have hle := List.drop_eq_nil_iff.mp hnil
          have hlt := idxOf_lt_length path next i hidx
          simp at hle
          omega
        | none =>
          show findCycleF deps f (path ++ [next]) next (insertSet cur visited) ≠ []
          exact ih (path ++ [next]) next (insertSet cur visited) (by simp)

theorem walk_succ (deps : Deps) : ∀ (rest : List (List Char)) (y c : List Char),
    ChainDeps deps (rest ++ [c]) → y ∈ rest →
      ∃ z, z ∈ rest ++ [c] ∧ z ∈ depsGet deps y := by
  intro rest
  induction rest with
  | nil => intro y c _ hy; simp at hy
  | cons x rest' ih =>
    intro y c h hy
    rw [List.cons_append] at h
    cases hrest : rest' with
    | nil =>
      subst hrest
      have h' : c ∈ depsGet deps x ∧ ChainDeps deps [c] := by simpa only [ChainDeps] using h
      have hyx : y = x := by simpa using hy
      subst hyx
      exact ⟨c, by simp, h'.1⟩
    | cons x2 rest'' =>
      subst hrest
      rw [List.cons_append] at h
      have h' : x2 ∈ depsGet deps x ∧ ChainDeps deps (x2 :: (rest'' ++ [c])) := by
        simpa only [ChainDeps] using h
      rcases List.mem_cons.mp hy with rfl | hy'
      · exact ⟨x2, by simp, h'.1⟩
      · have h'' : ChainDeps deps ((x2 :: rest'') ++ [c]) := by
          rw [List.cons_append]
          exact h'.2
        obtain ⟨z, hz, he⟩ := ih y c h'' hy'
        exact ⟨z, by simpa using Or.inr (by simpa using hz), he⟩

theorem goodfin_no_cycle (deps : Deps) (W : List (List Char)) (hW : W ≠ [])
    (hsucc : ∀ u ∈ W, ∃ z ∈ W, z ∈ depsGet deps u) :
    ∀ (rem done : List (List Char)), GoodFinAux deps done rem →
      (∀ w ∈ W, w ∉ done) → (∀ w ∈ W, w ∈ done ∨ w ∈ rem) → False := by
  intro rem
  induction rem with
  | nil =>
    intro done _ hdisj hcov
    obtain ⟨w, hw⟩ : ∃ w, w ∈ W := by
      cases W with
      | nil => exact absurd rfl hW
      | cons a l => exact ⟨a, by simp⟩
    rcases hcov w hw with h1 | h1
    · exact hdisj w hw h1
    · simp at h1
  | cons u rest ih =>
    intro done hgf hdisj hcov
    simp only [GoodFinAux] at hgf
    by_cases hu : u ∈ W
    · obtain ⟨z, hzW, hz⟩ := hsucc u hu
      exact hdisj z hzW (hgf.1 z hz)
    · apply ih (done ++ [u]) hgf.2
      · intro w hw hcontra
        rcases List.mem_append.mp hcontra with h1 | h1
        · exact hdisj w hw h1
        · simp at h1
          rw [h1] at hw
          exact hu hw
      · intro w hw
        rcases hcov w hw with h1 | h1
        · exact Or.inl (List.mem_append.mpr (Or.inl h1))
        · rcases List.mem_cons.mp h1 with rfl | h2
          · exact Or.inl (List.mem_append.mpr (Or.inr (by simp)))
          · exact Or.inr h2

theorem cycle_detected {deps : Deps} {c : List Char} {mid : List (List Char)}
    (hch : ChainDeps deps ((c :: mid) ++ [c])) :
    ∃ cyc, cyc ≠ [] ∧
      detectLoop deps ((depsNodes deps).length + 1) (deps.map Prod.fst) [] = .circular cyc := by
  rcases detectLoop_cases deps ((depsNodes deps).length + 1) (deps.map Prod.fst) []
    with hmax | ⟨k, hcirc⟩
  · exfalso
    obtain ⟨fin', hgf, _, hall⟩ := detectLoop_all_false deps ((depsNodes deps).length + 1)
      (by omega) (deps.map Prod.fst) [] [] hmax ⟨by simp, trivial, by simp⟩
    have hsucc : ∀ u ∈ c :: mid, ∃ z ∈ c :: mid, z ∈ depsGet deps u := by
      intro u hu
      obtain ⟨z, hz, hzd⟩ := walk_succ deps (c :: mid) u c hch hu
      exact ⟨z, mem_closed hz, hzd⟩
    have hkeys : ∀ u ∈ c :: mid, u ∈ deps.map Prod.fst := by
      intro u hu
      obtain ⟨z, _, hzd⟩ := hsucc u hu
      apply depsGet_ne_nil_mem
      intro hnil
      rw [hnil] at hzd
      simp at hzd
    apply goodfin_no_cycle deps (c :: mid) (by simp) hsucc fin' [] hgf (by simp)
    intro w hw
    exact Or.inr (hall w (hkeys w hw))
  · exact ⟨_, findCycleF_ne_nil deps _ [k] k [] (by simp), hcirc⟩

theorem detect_circular {root' : TomlTree} {c : List Char} {mid : List (List Char)}
    (hwf : WfTree root') (hbOK : ∀ y ∈ c :: mid, y ≠ [] ∧ braceFree y = true)
    (hch : ChainAt root' ((c :: mid) ++ [c])) :
    ∃ cyc, cyc ≠ [] ∧ detectCircularDependencies root' = .circular cyc := by
  have hcd : ChainDeps (collectDependencies root' [] []) ((c :: mid) ++ [c]) :=
    chainDeps_of_chainAt hwf _ (fun y hy => hbOK y (mem_closed hy)) hch
  obtain ⟨cyc, hne, hdet⟩ := cycle_detected hcd
  exact ⟨cyc, hne, hdet⟩

/-- C2: a reference cycle in a well-delimited store whose referenced paths
all denote string leaves makes resolution fail with the circular-reference
error carrying a nonempty cycle path; no store is ever returned and, the
embedding being a total function, resolution terminates. -/
theorem c2_cycle_reported :
    ∀ (store : TomlTree) (c : List Char) (mid : List (List Char)),
      WfTree store →
      AllLeafTargets store →
      (∀ y ∈ c :: mid, y ≠ [] ∧ braceFree y = true) →
      ChainAt store ((c :: mid) ++ [c]) →
      ∃ cyc, cyc ≠ [] ∧ resolveVariables store = .error (.circular cyc) := by
  intro store c mid hwf htg hbOK hch
  obtain ⟨root', hInv', heq⟩ := resolveVariables_cyc hbOK ⟨hwf, htg, hch⟩
  obtain ⟨cyc, hne, hdet⟩ := detect_circular hInv'.1 hbOK hInv'.2.2
  exact ⟨cyc, hne, by rw [heq, hdet]⟩

/-- Witness for C2: the two-node cycle `a = \x7b\x7bb\x7d\x7d`,
`b = \x7b\x7ba\x7d\x7d` is rejected with a circular-reference error. -/
theorem c2_witness :
    ∃ cyc, cyc ≠ [] ∧ resolveVariables cycStore = .error (.circular cyc) := by
  apply c2_cycle_reported cycStore (cs "a") [cs "b"]
  · exact ⟨by decide, by decide, by decide, ⟨[Seg.ph (cs "b")], by decide, by decide⟩,
      by decide, by decide, by decide, ⟨[Seg.ph (cs "a")], by decide, by decide⟩, trivial⟩
  · intro b hb
    have he : allBodies cycStore = [cs "b", cs "a"] := by decide
    rw [he] at hb
    rcases List.mem_cons.mp hb with rfl | hb2
    · exact ⟨phText (cs "a"), by decide⟩
    · rcases List.mem_cons.mp hb2 with rfl | hb3
      · exact ⟨phText (cs "b"), by decide⟩
      · simp at hb3
  · decide
  · exact ⟨⟨phText (cs "b"), by decide, by decide⟩,
      ⟨phText (cs "a"), by decide, by decide⟩, trivial⟩

/-- Counterexample to C2 as stated: `cycDanglingStore` contains the cycle
`a -> b -> a`, yet resolution reports the dangling reference `zzz` as a
variable-not-found error, not a circular-reference error - the leaf `c`
with its missing target is processed before any cycle diagnosis runs. -/
theorem c2_counterexample :
    ChainAt cycDanglingStore ((cs "a" :: [cs "b"]) ++ [cs "a"]) ∧
    resolveVariables cycDanglingStore =
      .error (.notFound (cs "zzz") (getAvailableVariablesList cycDanglingStore)) := by
  constructor
  · exact ⟨⟨phText (cs "b"), by decide, by decide⟩,
      ⟨phText (cs "a"), by decide, by decide⟩, trivial⟩
  · rfl

end Tomv
